import Mathlib

/-!
# DynamicArray: a shallow embedding of `Array<T>` (src/DynamicArray.hpp)

The C++ class owns a raw `malloc`ed buffer and constructs/destroys elements in
place.  The embedding makes this explicit:

* `World T` is the program state: the `Array` objects (by address), the heap
  blocks (by address; every slot is either raw `none` or a live `some v`), the
  allocator, and counters of element constructor / destructor invocations.
* `Res` is the outcome of running a piece of code: normal return, a propagating
  C++ exception, a failed `assert`, undefined behaviour, or a loop cut off by
  its iteration budget (`grow_loop_total` and the traversal theorems show that
  the budgets used are enough).
* `int` is a mathematical integer restricted to `[INT_MIN, INT_MAX]`; an
  arithmetic result outside that range is undefined behaviour, and so is the
  conversion `static_cast<int>` of a `double` outside that range.
* the element type `T` is described by `ElemOps T`: its copy constructor, move
  constructor and copy assignment, each of which may throw.
* counted `for` loops whose bounds the body does not change are recursions on the
  number of iterations left; the `while` loop of `ensure_capacity` has a budget.
* a `const T&` or `T&&` argument of `insert` is a `Ref`: an object of the caller
  outside every buffer, or a slot of a heap block (for instance an element of the
  container itself); the referent is read when the element is constructed from it,
  after `ensure_capacity` and `shift_right` have run.
* the `_traced` definitions are the same code over a state that also carries the list
  of slot accesses made so far: every primitive that touches a slot (read, write,
  placement-new, destructor call) appends the slot to the list; `Logs` ties a traced
  function to the function it instruments.
-/

namespace DynamicArray

/-! ## Outcomes and the state monad -/

/-- Outcome of running code from a state of type `σ`. -/
inductive Res (σ α : Type) where
  /-- normal return with value `a` in state `s` -/
  | ok (a : α) (s : σ)
  /-- an exception propagates out; `s` is the state it leaves behind -/
  | throw (s : σ)
  /-- an `assert` failed in state `s` -/
  | abort (s : σ)
  /-- undefined behaviour (signed overflow, bad pointer, raw slot read, ...) -/
  | ub
  /-- a loop was cut off by its iteration budget -/
  | diverge

/-- State transformer with the outcomes of `Res`. -/
def M (σ α : Type) : Type := σ → Res σ α

/-- Sequencing: only a normal return continues. -/
def M.bind {σ α β : Type} (m : M σ α) (f : α → M σ β) : M σ β := fun s =>
  match m s with
  | .ok a s1 => f a s1
  | .throw s1 => .throw s1
  | .abort s1 => .abort s1
  | .ub => .ub
  | .diverge => .diverge

instance {σ : Type} : Monad (M σ) where
  pure a := fun s => .ok a s
  bind := M.bind

/-- Statement `throw;` / `throw e;`. -/
def raise {σ α : Type} : M σ α := fun s => .throw s

/-- Undefined behaviour. -/
def undefined {σ α : Type} : M σ α := fun _ => .ub

/-- A loop that exhausted its iteration budget. -/
def outOfFuel {σ α : Type} : M σ α := fun _ => .diverge

/-- Statement `assert(c);`. -/
def assert {σ : Type} (c : Bool) : M σ Unit := fun s =>
  if c then .ok () s else .abort s

/-- Block `try { body } catch (...) { handler }`. -/
def tryCatch {σ α : Type} (body : M σ α) (handler : M σ α) : M σ α := fun s =>
  match body s with
  | .throw s1 => handler s1
  | r => r

/-- Block `try { body } catch (...) { handler }` where `body` updates a local
variable declared before the `try`; the handler sees its value at the throw. -/
def tryCatchLocal {σ α L : Type} (body : σ → L × Res σ α) (handler : L → M σ α) : M σ α :=
  fun s =>
    match body s with
    | (l, .throw s1) => handler l s1
    | (_, r) => r

/-! ## Machine integers -/

/-- Largest value of the 32-bit `int`. -/
def INT_MAX : Int := 2147483647

/-- Smallest value of the 32-bit `int`. -/
def INT_MIN : Int := -2147483648

/-- An `int` result: values outside `[INT_MIN, INT_MAX]` are undefined behaviour. -/
def toInt {σ : Type} (x : Int) : M σ Int :=
  if INT_MIN ≤ x ∧ x ≤ INT_MAX then pure x else undefined

/-! ## The element type -/

/-- Operations of the element type `T` that the container invokes.
`none` means that the operation throws. -/
structure ElemOps (T : Type) where
  /-- copy constructor `T(const T&)`: the constructed value -/
  copy : T → Option T
  /-- move constructor `T(T&&)`: the constructed value and the moved-from source -/
  move : T → Option (T × T)
  /-- copy assignment `dst = src`: the new value of `dst` -/
  assign : T → T → Option T
  /-- trait `std::is_move_constructible_v<T>` -/
  is_move_constructible : Bool

/-! ## Program state -/

/-- The data members of one `Array<T>` object; `data_ = 0` is `nullptr`. -/
structure Array where
  data_ : Nat
  size_ : Int
  capacity_ : Int
  deriving DecidableEq, Repr

/-- Program state. -/
structure World (T : Type) where
  /-- the `Array` objects, by object address -/
  objs : Nat → Array
  /-- the `malloc`ed blocks, by address; a slot is raw (`none`) or live -/
  heap : Nat → Option (List (Option T))
  /-- next address `malloc` hands out -/
  brk : Nat
  /-- environment: whether the i-th call of `malloc` returns null -/
  mallocFails : Nat → Bool
  /-- number of `malloc` calls so far -/
  mallocCalls : Nat
  /-- element constructor invocations so far -/
  ctors : Nat
  /-- element destructor invocations so far -/
  dtors : Nat

variable {T : Type}

/-- Read the members of the object at address `a`. -/
def getObj (a : Nat) : M (World T) Array := fun w => .ok (w.objs a) w

/-- Write the members of the object at address `a`. -/
def setObj (a : Nat) (r : Array) : M (World T) Unit := fun w =>
  .ok () { w with objs := Function.update w.objs a r }

/-- The block a pointer refers to, if any. -/
def World.block (w : World T) (p : Nat) : Option (List (Option T)) :=
  if p = 0 then none else w.heap p

/-- Library `std::malloc` for `n` elements: null (0) on failure, else a fresh block
of `n` raw slots. -/
def malloc (n : Nat) : M (World T) Nat := fun w =>
  if w.mallocFails w.mallocCalls then
    .ok 0 { w with mallocCalls := w.mallocCalls + 1 }
  else
    .ok w.brk { w with
      heap := Function.update w.heap w.brk (some (List.replicate n none))
      brk := w.brk + 1
      mallocCalls := w.mallocCalls + 1 }

/-- Library `std::free`: a no-op on null, undefined on a pointer that is not a block. -/
def free (p : Nat) : M (World T) Unit := fun w =>
  if p = 0 then .ok () w
  else match w.heap p with
    | none => .ub
    | some _ => .ok () { w with heap := Function.update w.heap p none }

/-- Read the live element `p[i]`; undefined if there is no such slot or it is raw. -/
def readSlot (p : Nat) (i : Int) : M (World T) T := fun w =>
  match w.block p with
  | none => .ub
  | some slots =>
    if 0 ≤ i then
      match slots[i.toNat]? with
      | some (some v) => .ok v w
      | _ => .ub
    else .ub

/-- Overwrite the live element `p[i]` (used after an assignment or a move-from). -/
def writeSlot (p : Nat) (i : Int) (v : T) : M (World T) Unit := fun w =>
  match w.block p with
  | none => .ub
  | some slots =>
    if 0 ≤ i then
      match slots[i.toNat]? with
      | some (some _) =>
        .ok () { w with heap := Function.update w.heap p (some (slots.set i.toNat (some v))) }
      | _ => .ub
    else .ub

/-- Placement-new bookkeeping: the raw slot `p[i]` becomes live with value `v`. -/
def place (p : Nat) (i : Int) (v : T) : M (World T) Unit := fun w =>
  match w.block p with
  | none => .ub
  | some slots =>
    if 0 ≤ i then
      match slots[i.toNat]? with
      | some none =>
        .ok () { w with
          heap := Function.update w.heap p (some (slots.set i.toNat (some v)))
          ctors := w.ctors + 1 }
      | _ => .ub
    else .ub

/-! ## Private helpers of `Array` (DynamicArray.hpp lines 212-316) -/

/-- Constant `kDefaultCapacity`. -/
def kDefaultCapacity : Int := 8

/-- Constant `kGrowthFactor` (2.0). -/
def kGrowthFactor : Int := 2

/-- `normalize_capacity(cap)`. -/
def normalize_capacity (cap : Int) : Int :=
  if cap > 0 then cap else kDefaultCapacity

/-- `allocate_raw(n)`. -/
def allocate_raw (n : Int) : M (World T) Nat :=
  if n ≤ 0 then pure 0
  else do
    let mem ← malloc n.toNat
    if mem = 0 then raise else pure mem

/-- `destroy_one(ptr)` with `ptr = p + i`: the live slot becomes raw.
(For a trivially destructible `T` the C++ body is empty; the slot is no longer
counted as live all the same.) -/
def destroy_one (p : Nat) (i : Int) : M (World T) Unit := fun w =>
  match w.block p with
  | none => .ub
  | some slots =>
    if 0 ≤ i then
      match slots[i.toNat]? with
      | some (some _) =>
        .ok () { w with
          heap := Function.update w.heap p (some (slots.set i.toNat none))
          dtors := w.dtors + 1 }
      | _ => .ub
    else .ub

/-- Loop of `destroy_range`: `for (i; i < n; ++i) (ptr + i)->~T();`, with `k`
iterations left. -/
def destroy_range_loop (p : Nat) : Nat → Int → M (World T) Unit
  | 0, _ => pure ()
  | k + 1, i => do
    destroy_one p i
    destroy_range_loop p k (i + 1)

/-- `destroy_range(ptr, n)`. -/
def destroy_range (p : Nat) (n : Int) : M (World T) Unit :=
  destroy_range_loop p n.toNat 0

/-- `construct_at(p + i, src)` with an lvalue `src`: copy construction. -/
def construct_at_copy (ops : ElemOps T) (p : Nat) (i : Int) (src : T) : M (World T) Unit :=
  match ops.copy src with
  | none => raise
  | some v => place p i v

/-- `construct_at(p + i, std::move(src))` with `src` an object of the caller:
move construction (the moved-from state of the caller's object is not tracked). -/
def construct_at_move (ops : ElemOps T) (p : Nat) (i : Int) (src : T) : M (World T) Unit :=
  match ops.move src with
  | none => raise
  | some (v, _) => place p i v

/-- `construct_at(p + i, std::move(q[j]))`: move construction from a live slot,
which is left live in its moved-from state. -/
def construct_at_move_slot (ops : ElemOps T) (p : Nat) (i : Int) (q : Nat) (j : Int) :
    M (World T) Unit := do
  let x ← readSlot q j
  match ops.move x with
  | none => raise
  | some (v, x1) =>
    writeSlot q j x1
    place p i v

/-- The `if constexpr (std::is_move_constructible_v<T>)` dispatch used by growth
and by the shifts: relocate-construct `p[i]` from the live slot `q[j]`. -/
def construct_at_from_slot (ops : ElemOps T) (p : Nat) (i : Int) (q : Nat) (j : Int) :
    M (World T) Unit :=
  if ops.is_move_constructible then construct_at_move_slot ops p i q j
  else do
    let x ← readSlot q j
    construct_at_copy ops p i x

/-- What a `const T&` or `T&&` parameter refers to: an object of the caller that lives
outside every buffer (a local or a temporary, holding `v`), or the slot `q[j]` of a heap
block, such as the element `a[j]` of a container whose buffer is `q`. -/
inductive Ref (T : Type) where
  | obj (v : T)
  | slot (q : Nat) (j : Int)

/-- `construct_at(p + i, value)` with `value` a `const T&` parameter: copy construction
from the referent, which is read when the copy constructor runs. -/
def construct_at_copy_ref (ops : ElemOps T) (p : Nat) (i : Int) : Ref T → M (World T) Unit
  | .obj v => construct_at_copy ops p i v
  | .slot q j => do
    let x ← readSlot q j
    construct_at_copy ops p i x

/-- `construct_at(p + i, std::move(value))` with `value` a `T&&` parameter: move
construction from the referent, which is read (and left moved-from) when the move
constructor runs. -/
def construct_at_move_ref (ops : ElemOps T) (p : Nat) (i : Int) : Ref T → M (World T) Unit
  | .obj v => construct_at_move ops p i v
  | .slot q j => construct_at_move_slot ops p i q j

/-- The loop `while (new_capacity < min_capacity)` of `ensure_capacity`, cut off
after `fuel` iterations.  `static_cast<int>(new_capacity * kGrowthFactor)` is exact
when the product fits an `int` and undefined otherwise. -/
def grow_loop {σ : Type} (min_capacity : Int) : Nat → Int → M σ Int
  | 0, new_capacity =>
    if new_capacity < min_capacity then outOfFuel else pure new_capacity
  | fuel + 1, new_capacity =>
    if new_capacity < min_capacity then do
      let grown ← toInt (new_capacity * kGrowthFactor)
      let next ← (if grown > new_capacity then pure grown else toInt (new_capacity + 1) : M σ Int)
      grow_loop min_capacity fuel next
    else pure new_capacity

/-- The relocation loop of `ensure_capacity`:
`for (i; i < size_; ++i) { construct_at(new_block + i, <data_[i]>); ++constructed; }`
with `k` iterations left.  Returns the final value of the local `constructed`
together with the outcome. -/
def relocate_loop (ops : ElemOps T) (new_block data : Nat) :
    Nat → Int → Int → World T → Int × Res (World T) Unit
  | 0, _, constructed, w => (constructed, .ok () w)
  | k + 1, i, constructed, w =>
    match construct_at_from_slot ops new_block i data i w with
    | .ok _ w1 => relocate_loop ops new_block data k (i + 1) (constructed + 1) w1
    | r => (constructed, r)

/-- `ensure_capacity(min_capacity)`. -/
def ensure_capacity (ops : ElemOps T) (this : Nat) (min_capacity : Int) : M (World T) Unit := do
  let r ← getObj this
  if min_capacity ≤ r.capacity_ then pure ()
  else do
    let start := if r.capacity_ ≤ 0 then 1 else r.capacity_
    let new_capacity ← grow_loop min_capacity (min_capacity - start).toNat start
    let new_block ← allocate_raw new_capacity
    tryCatchLocal (relocate_loop ops new_block r.data_ r.size_.toNat 0 0)
      (fun constructed => do
        destroy_range new_block constructed
        free new_block
        raise)
    destroy_range r.data_ r.size_
    free r.data_
    setObj this { data_ := new_block, size_ := r.size_, capacity_ := new_capacity }

/-- Loop of `shift_right`: `for (i; i > from_index; --i)` with `k` iterations left:
relocate `data_[i - 1]` into `data_[i]`. -/
def shift_right_loop (ops : ElemOps T) (p : Nat) : Nat → Int → M (World T) Unit
  | 0, _ => pure ()
  | k + 1, i => do
    construct_at_from_slot ops p i p (i - 1)
    destroy_one p (i - 1)
    shift_right_loop ops p k (i - 1)

/-- `shift_right(from_index)`: the loop starts at `i = size_` and runs while
`i > from_index`, that is `size_ - from_index` times (not at all if that is negative). -/
def shift_right (ops : ElemOps T) (this : Nat) (from_index : Int) : M (World T) Unit := do
  let r ← getObj this
  shift_right_loop ops r.data_ (r.size_ - from_index).toNat r.size_

/-- Loop of `shift_left`: `for (i; i < size_ - 1; ++i)` with `k` iterations left:
relocate `data_[i + 1]` into `data_[i]`. -/
def shift_left_loop (ops : ElemOps T) (p : Nat) : Nat → Int → M (World T) Unit
  | 0, _ => pure ()
  | k + 1, i => do
    construct_at_from_slot ops p i p (i + 1)
    destroy_one p (i + 1)
    shift_left_loop ops p k (i + 1)

/-- `shift_left(from_index)`: the loop starts at `i = from_index` and runs while
`i < size_ - 1`, that is `size_ - 1 - from_index` times. -/
def shift_left (ops : ElemOps T) (this : Nat) (from_index : Int) : M (World T) Unit := do
  let r ← getObj this
  let last ← toInt (r.size_ - 1)
  shift_left_loop ops r.data_ (last - from_index).toNat from_index

/-- `clear_and_free()`. -/
def clear_and_free (this : Nat) : M (World T) Unit := do
  let r ← getObj this
  (if r.data_ ≠ 0 then do
    destroy_range r.data_ r.size_
    free r.data_
  else pure () : M (World T) Unit)
  setObj this { data_ := 0, size_ := 0, capacity_ := 0 }

/-! ## Public interface of `Array` (DynamicArray.hpp lines 15-209) -/

/-- Default constructor `Array()`, constructing the object at address `this`. -/
def Array.new (this : Nat) : M (World T) Unit := do
  let p ← allocate_raw kDefaultCapacity
  setObj this { data_ := p, size_ := 0, capacity_ := kDefaultCapacity }

/-- Constructor `Array(int capacity)`. -/
def Array.new_cap (this : Nat) (capacity : Int) : M (World T) Unit := do
  let p ← allocate_raw (normalize_capacity capacity)
  setObj this { data_ := p, size_ := 0, capacity_ := normalize_capacity capacity }

/-- Loop of the copy constructor:
`for (i; i < other.size_; ++i) { construct_at(data_ + i, other.data_[i]); ++size_; }`
with `k` iterations left. -/
def copy_loop (ops : ElemOps T) (this other : Nat) : Nat → Int → M (World T) Unit
  | 0, _ => pure ()
  | k + 1, i => do
    let o ← getObj other
    let me ← getObj this
    let x ← readSlot o.data_ i
    construct_at_copy ops me.data_ i x
    let n ← toInt (me.size_ + 1)
    setObj this { me with size_ := n }
    copy_loop ops this other k (i + 1)

/-- Copy constructor `Array(const Array& other)`, constructing the object at `this`. -/
def Array.copy_ctor (ops : ElemOps T) (this other : Nat) : M (World T) Unit := do
  let o ← getObj other
  let cap := if o.capacity_ > 0 then o.capacity_ else kDefaultCapacity
  let p ← allocate_raw cap
  setObj this { data_ := p, size_ := 0, capacity_ := cap }
  tryCatch (copy_loop ops this other o.size_.toNat 0)
    (do
      let me ← getObj this
      destroy_range me.data_ me.size_
      free me.data_
      setObj this { data_ := 0, size_ := 0, capacity_ := 0 }
      raise)

/-- Move constructor `Array(Array&& other)`, constructing the object at `this`. -/
def Array.move_ctor (this other : Nat) : M (World T) Unit := do
  let o ← getObj other
  setObj this { data_ := o.data_, size_ := o.size_, capacity_ := o.capacity_ }
  setObj other { data_ := 0, size_ := 0, capacity_ := 0 }

/-- Destructor `~Array()`. -/
def Array.dtor (this : Nat) : M (World T) Unit :=
  clear_and_free this

/-- Member `swap(Array& other)`. -/
def Array.swap (this other : Nat) : M (World T) Unit := do
  let me ← getObj this
  let o ← getObj other
  setObj this { me with data_ := o.data_ }
  setObj other { o with data_ := me.data_ }
  let me ← getObj this
  let o ← getObj other
  setObj this { me with size_ := o.size_ }
  setObj other { o with size_ := me.size_ }
  let me ← getObj this
  let o ← getObj other
  setObj this { me with capacity_ := o.capacity_ }
  setObj other { o with capacity_ := me.capacity_ }

/-- Copy assignment `operator=(const Array& other)`; `tmp` is the address of the
local `Array tmp(other)`, destroyed when the function returns. -/
def Array.copy_assign (ops : ElemOps T) (this other tmp : Nat) : M (World T) Unit :=
  if this = other then pure ()
  else do
    Array.copy_ctor ops tmp other
    Array.swap this tmp
    Array.dtor tmp

/-- Move assignment `operator=(Array&& other)`. -/
def Array.move_assign (this other : Nat) : M (World T) Unit :=
  if this = other then pure ()
  else do
    clear_and_free this
    let o ← getObj other
    let me ← getObj this
    setObj this { me with data_ := o.data_ }
    let me ← getObj this
    setObj this { me with size_ := o.size_ }
    let me ← getObj this
    setObj this { me with capacity_ := o.capacity_ }
    setObj other { data_ := 0, size_ := 0, capacity_ := 0 }

/-- Append `insert(const T& value)`. -/
def Array.insert (ops : ElemOps T) (this : Nat) (value : Ref T) : M (World T) Int := do
  let r ← getObj this
  let m ← toInt (r.size_ + 1)
  ensure_capacity ops this m
  let r ← getObj this
  construct_at_copy_ref ops r.data_ r.size_ value
  let n ← toInt (r.size_ + 1)
  setObj this { r with size_ := n }
  pure r.size_

/-- Append `insert(T&& value)`. -/
def Array.insert_rv (ops : ElemOps T) (this : Nat) (value : Ref T) : M (World T) Int := do
  let r ← getObj this
  let m ← toInt (r.size_ + 1)
  ensure_capacity ops this m
  let r ← getObj this
  construct_at_move_ref ops r.data_ r.size_ value
  let n ← toInt (r.size_ + 1)
  setObj this { r with size_ := n }
  pure r.size_

/-- Positional `insert(int index, const T& value)`. -/
def Array.insert_at (ops : ElemOps T) (this : Nat) (index : Int) (value : Ref T) :
    M (World T) Int := do
  let r ← getObj this
  assert (decide (index ≥ 0 ∧ index ≤ r.size_))
  let m ← toInt (r.size_ + 1)
  ensure_capacity ops this m
  shift_right ops this index
  let r ← getObj this
  construct_at_copy_ref ops r.data_ index value
  let n ← toInt (r.size_ + 1)
  setObj this { r with size_ := n }
  pure index

/-- Positional `insert(int index, T&& value)`. -/
def Array.insert_at_rv (ops : ElemOps T) (this : Nat) (index : Int) (value : Ref T) :
    M (World T) Int := do
  let r ← getObj this
  assert (decide (index ≥ 0 ∧ index ≤ r.size_))
  let m ← toInt (r.size_ + 1)
  ensure_capacity ops this m
  shift_right ops this index
  let r ← getObj this
  construct_at_move_ref ops r.data_ index value
  let n ← toInt (r.size_ + 1)
  setObj this { r with size_ := n }
  pure index

/-- Member `remove(int index)`. -/
def Array.remove (ops : ElemOps T) (this : Nat) (index : Int) : M (World T) Unit := do
  let r ← getObj this
  assert (decide (index ≥ 0 ∧ index < r.size_))
  destroy_one r.data_ index
  shift_left ops this index
  let r ← getObj this
  let n ← toInt (r.size_ - 1)
  setObj this { r with size_ := n }

/-- Read through `operator[](int index)`. -/
def Array.subscript (this : Nat) (index : Int) : M (World T) T := do
  let r ← getObj this
  assert (decide (index ≥ 0 ∧ index < r.size_))
  readSlot r.data_ index

/-- Assignment through the reference returned by `operator[]`: `(*this)[index] = value`. -/
def Array.subscript_assign (ops : ElemOps T) (this : Nat) (index : Int) (value : T) :
    M (World T) Unit := do
  let r ← getObj this
  assert (decide (index ≥ 0 ∧ index < r.size_))
  let old ← readSlot r.data_ index
  match ops.assign old value with
  | none => raise
  | some v => writeSlot r.data_ index v

/-- Member `size()`. -/
def Array.size (this : Nat) : M (World T) Int := do
  let r ← getObj this
  pure r.size_

/-- Member `capacity()`. -/
def Array.capacity (this : Nat) : M (World T) Int := do
  let r ← getObj this
  pure r.capacity_

/-- Member `empty()`. -/
def Array.empty (this : Nat) : M (World T) Bool := do
  let r ← getObj this
  pure (decide (r.size_ = 0))

/-- Member `clear()`. -/
def Array.clear (this : Nat) : M (World T) Unit := do
  let r ← getObj this
  destroy_range r.data_ r.size_
  setObj this { r with size_ := 0 }

/-- The data members of an `Iterator` (and of a `ConstIterator`, whose member
functions other than `set` have the same bodies); `owner_ = 0` is a null owner. -/
structure Iterator where
  owner_ : Nat
  pos_ : Int
  reverse_ : Bool
  deriving DecidableEq, Repr

/-- `Iterator::get()`: `(*owner_)[pos_]`. -/
def Iterator.get (it : Iterator) : M (World T) T :=
  if it.owner_ = 0 then undefined else Array.subscript it.owner_ it.pos_

/-- `Iterator::set(value)`: `(*owner_)[pos_] = value`. -/
def Iterator.set (ops : ElemOps T) (it : Iterator) (value : T) : M (World T) Unit :=
  if it.owner_ = 0 then undefined else Array.subscript_assign ops it.owner_ it.pos_ value

/-- `Iterator::next()`: returns the updated iterator. -/
def Iterator.next (it : Iterator) : M (World T) Iterator := do
  let p ← toInt (if it.reverse_ then it.pos_ - 1 else it.pos_ + 1)
  pure { it with pos_ := p }

/-- `Iterator::hasNext()`. -/
def Iterator.hasNext (it : Iterator) : M (World T) Bool :=
  if it.owner_ = 0 then pure false
  else if it.reverse_ then pure (decide (it.pos_ ≥ 0))
  else do
    let n ← Array.size it.owner_
    pure (decide (it.pos_ < n))

/-- `Iterator::operator*()`. -/
def Iterator.deref (it : Iterator) : M (World T) T :=
  it.get

/-- Pre-increment `++it`: the updated iterator, which is also the value of the expression. -/
def Iterator.pre_incr (it : Iterator) : M (World T) Iterator :=
  it.next

/-- Post-increment `it++`: the value of the expression (`tmp`) and the updated iterator. -/
def Iterator.post_incr (it : Iterator) : M (World T) (Iterator × Iterator) := do
  let tmp := it
  let it1 ← (it.next : M (World T) Iterator)
  pure (tmp, it1)

/-- Member `iterator()`. -/
def Array.iterator (this : Nat) : M (World T) Iterator :=
  pure { owner_ := this, pos_ := 0, reverse_ := false }

/-- Member `reverseIterator()`. -/
def Array.reverseIterator (this : Nat) : M (World T) Iterator := do
  let r ← getObj this
  let last ← (if r.size_ > 0 then toInt (r.size_ - 1) else pure (-1) : M (World T) Int)
  pure { owner_ := this, pos_ := last, reverse_ := true }

/-! ## Client loops (src/main.cpp, tests) -/

/-- The traversal `for (; it.hasNext(); it.next()) out.push_back(it.get());`
cut off after `fuel` iterations: the values yielded, in order. -/
def traverse : Nat → Iterator → M (World T) (List T)
  | 0, it => do
    if (← it.hasNext) then outOfFuel else pure []
  | fuel + 1, it => do
    if (← it.hasNext) then do
      let x ← it.get
      let it1 ← (it.next : M (World T) Iterator)
      let rest ← traverse fuel it1
      pure (x :: rest)
    else pure []

/-- The view after `j` calls of `next()`. -/
def advanceN : Nat → Iterator → M (World T) Iterator
  | 0, it => pure it
  | j + 1, it => do
    let it1 ← (it.next : M (World T) Iterator)
    advanceN j it1

/-- The loop `for (k times) a.insert(v)` over the values of `vs`, in order; each `v`
is an object of the caller. -/
def appendAll (ops : ElemOps T) (this : Nat) : List T → M (World T) Unit
  | [] => pure ()
  | v :: vs => do
    let _ ← Array.insert ops this (.obj v)
    appendAll ops this vs

/-- The mutating operations of the public interface that change the elements or the
length of a container: `a[i] = v`, the two appends, the two positional inserts,
`remove` and `clear`, with values `v` held in objects of the caller. -/
inductive Mutation (T : Type) where
  | set (i : Int) (v : T)
  | append (v : T)
  | append_rv (v : T)
  | insert (k : Int) (v : T)
  | insert_rv (k : Int) (v : T)
  | remove (k : Int)
  | clear

/-- Apply one mutation to the container at `b`, discarding the returned index. -/
def Mutation.run (ops : ElemOps T) (b : Nat) : Mutation T → M (World T) Unit
  | .set i v => Array.subscript_assign ops b i v
  | .append v => do
    let _ ← Array.insert ops b (.obj v)
    pure ()
  | .append_rv v => do
    let _ ← Array.insert_rv ops b (.obj v)
    pure ()
  | .insert k v => do
    let _ ← Array.insert_at ops b k (.obj v)
    pure ()
  | .insert_rv k v => do
    let _ ← Array.insert_at_rv ops b k (.obj v)
    pure ()
  | .remove k => Array.remove ops b k
  | .clear => Array.clear b

/-- Apply a sequence of mutations to the container at `b`, in order. -/
def runAll (ops : ElemOps T) (b : Nat) : List (Mutation T) → M (World T) Unit
  | [] => pure ()
  | m :: ms => do
    m.run ops b
    runAll ops b ms

/-- The state an exception left behind, when the run ended with an exception. -/
def Res.thrown {σ α : Type} : Res σ α → Option σ
  | .throw s => some s
  | _ => none

/-- The state in which a run ended, when it ended with one (normal return, exception
or failed assertion). -/
def Res.final {σ α : Type} : Res σ α → Option σ
  | .ok _ s => some s
  | .throw s => some s
  | .abort s => some s
  | .ub => none
  | .diverge => none

/-- The value and the final state of a run that returned normally. -/
def Res.result {σ α : Type} : Res σ α → Option (α × σ)
  | .ok a s => some (a, s)
  | _ => none

/-! ## Specification vocabulary -/

/-- An element type whose constructors and assignment never throw and preserve the
value: a copy equals its source, a move-constructed object has the value its
source had (the moved-from source may hold anything), an assignment stores the
assigned value. -/
structure ElemOps.Lawful (ops : ElemOps T) : Prop where
  copy_eq : ∀ x, ops.copy x = some x
  move_eq : ∀ x, ∃ x1, ops.move x = some (x, x1)
  assign_eq : ∀ x v, ops.assign x v = some v

/-- Invariant-style Hoare triple: from every state satisfying `I`, the code `m` ends
in a state satisfying `I` again, whether it returns (then with a result satisfying
`Q`), throws or fails an assertion. -/
def Keeps {σ α : Type} (I : σ → Prop) (m : M σ α) (Q : α → Prop) : Prop :=
  ∀ s, I s →
    match m s with
    | .ok x s1 => I s1 ∧ Q x
    | .throw s1 => I s1
    | .abort s1 => I s1
    | .ub => True
    | .diverge => True

/-- The value `construct_at_from_slot` leaves in its source slot: the moved-from
value when the element is move-constructed, the value itself when it is copied. -/
def ElemOps.residue (ops : ElemOps T) (x : T) : T :=
  if ops.is_move_constructible then
    match ops.move x with
    | some (_, x1) => x1
    | none => x
  else x

/-- The state `w` with block `p` replaced by `s` and `c` more constructor and `d`
more destructor invocations counted. -/
def World.upd (w : World T) (p : Nat) (s : List (Option T)) (c d : Nat) : World T :=
  { w with
    heap := Function.update w.heap p (some s)
    ctors := w.ctors + c
    dtors := w.dtors + d }

/-- The state `w` with the members of object `a` replaced by `r`, block `p` replaced
by `s`, and `c` more constructor and `d` more destructor invocations counted. -/
def World.put (w : World T) (a : Nat) (r : Array) (p : Nat) (s : List (Option T))
    (c d : Nat) : World T :=
  { w with
    objs := Function.update w.objs a r
    heap := Function.update w.heap p (some s)
    ctors := w.ctors + c
    dtors := w.dtors + d }

/-- The slots of a buffer of `cap` slots whose live elements are `xs`. -/
def slotsOf (xs : List T) (cap : Nat) : List (Option T) :=
  xs.map some ++ List.replicate (cap - xs.length) none

/-- Frame condition of an operation on the container at `a`: from `w` to `w1` no other
object changed, no block other than the buffer of `a` that existed in `w` changed,
no address was reused, the buffer of `a` is the old one or a block allocated since,
and the allocator's failure schedule is the same. -/
structure Frame (w w1 : World T) (a : Nat) : Prop where
  objs_eq : ∀ b, b ≠ a → w1.objs b = w.objs b
  heap_eq : ∀ q, q ≠ (w.objs a).data_ → q < w.brk → w1.heap q = w.heap q
  brk_le : w.brk ≤ w1.brk
  fails_eq : w1.mallocFails = w.mallocFails
  data_fresh : (w1.objs a).data_ = (w.objs a).data_ ∨ w.brk ≤ (w1.objs a).data_

/-- The container object at address `a` holds exactly the elements `xs`, in order,
in a buffer of `cap` slots: `size_` is the length of `xs`, `capacity_` is `cap`,
the buffer is null exactly when `cap = 0`, and otherwise it is an allocated block
whose first `size_` slots are live with the values `xs` and whose other slots are raw. -/
structure Holds (w : World T) (a : Nat) (xs : List T) (cap : Nat) : Prop where
  size_eq : (w.objs a).size_ = xs.length
  cap_eq : (w.objs a).capacity_ = cap
  len_le : xs.length ≤ cap
  cap_le : (cap : Int) ≤ INT_MAX
  brk_pos : 0 < w.brk
  data_lt : (w.objs a).data_ < w.brk
  null_iff : (w.objs a).data_ = 0 ↔ cap = 0
  buf : cap ≠ 0 → w.heap (w.objs a).data_ = some (slotsOf xs cap)

/-! ## Concrete instances used in examples -/

/-- Element operations of `int`: copies and moves never throw and preserve the value. -/
def intOps : ElemOps Int where
  copy := fun x => some x
  move := fun x => some (x, x)
  assign := fun _ v => some v
  is_move_constructible := true

/-- The code `m` neither throws nor fails an assertion, from any state. -/
def NoThrow {σ α : Type} (m : M σ α) : Prop :=
  ∀ s, match m s with
    | .throw _ => False
    | .abort _ => False
    | _ => True

/-- Exception-only Hoare triple: from every state satisfying `I`, if the code `m`
throws then the state it leaves behind satisfies `I`. -/
def ThrowKeeps {σ α : Type} (I : σ → Prop) (m : M σ α) : Prop :=
  ∀ s, I s → ∀ s1, m s = .throw s1 → I s1

/-- An element type whose relocation leaves the source as it was: the container
relocates by copy, or the move constructor does not modify its source. -/
def ElemOps.SourceKeeping (ops : ElemOps T) : Prop :=
  ops.is_move_constructible = false ∨ ∀ x y x1, ops.move x = some (y, x1) → x1 = x

/-- The container at `a` holds `xs` in `cap` slots at buffer address `pa`. -/
structure Guard0 (a : Nat) (xs : List T) (cap pa : Nat) (w : World T) : Prop where
  holds : Holds w a xs cap
  data_eq : (w.objs a).data_ = pa

/-- The container at `a` holds `xs` in `cap` slots at buffer address `pa`, and the
buffer pointer of the other object `b` is null or points elsewhere. -/
structure Guard (a b : Nat) (xs : List T) (cap pa : Nat) (w : World T) : Prop where
  holds : Holds w a xs cap
  data_eq : (w.objs a).data_ = pa
  off : (w.objs b).data_ = 0 ∨ (w.objs b).data_ ≠ pa

/-- A state with a single container, at object address 1, holding `xs` in a buffer of
`cap` slots at heap address 1. -/
def World.single (xs : List Int) (cap : Nat) : World Int where
  objs := fun _ => { data_ := 1, size_ := xs.length, capacity_ := cap }
  heap := fun p => if p = 1 then some (slotsOf xs cap) else none
  brk := 2
  mallocFails := fun _ => false
  mallocCalls := 0
  ctors := 0
  dtors := 0

/-- A state with two containers: object 1 holding `ys` in `capA` slots at heap address
1, object 2 holding `xs` in `capB` slots at heap address 2; every `malloc` fails when
`fails` is set. -/
def World.pair (ys : List Int) (capA : Nat) (xs : List Int) (capB : Nat) (fails : Bool) :
    World Int where
  objs := fun o =>
    if o = 1 then { data_ := 1, size_ := ys.length, capacity_ := capA }
    else { data_ := 2, size_ := xs.length, capacity_ := capB }
  heap := fun p =>
    if p = 1 then some (slotsOf ys capA)
    else if p = 2 then some (slotsOf xs capB)
    else none
  brk := 3
  mallocFails := fun _ => fails
  mallocCalls := 0
  ctors := 0
  dtors := 0

/-- An element type over `int` values whose move constructor throws for the value 2
and otherwise takes the value and leaves 0 in its source; copies never throw. -/
def throwingMoveOps : ElemOps Int where
  copy := fun x => some x
  move := fun x => if x = 2 then none else some (x, 0)
  assign := fun _ v => some v
  is_move_constructible := true

/-- An element type over `int` values without a move constructor, whose copy
constructor throws for the value 2. -/
def throwingCopyOps : ElemOps Int where
  copy := fun x => if x = 2 then none else some x
  move := fun x => if x = 2 then none else some (x, x)
  assign := fun _ v => some v
  is_move_constructible := false

/-- The state at program start: no objects constructed, empty heap, `malloc` never fails. -/
def World.init (T : Type) : World T where
  objs := fun _ => { data_ := 0, size_ := 0, capacity_ := 0 }
  heap := fun _ => none
  brk := 1
  mallocFails := fun _ => false
  mallocCalls := 0
  ctors := 0
  dtors := 0

/-- The loop `for (auto it = a.iterator(); it.hasNext(); it.next()) it.set(f(it.get()));`
(src/main.cpp, TEST(ArrayIterator, IterateAndModify)), cut off after `fuel` iterations. -/
def iterateAndModify (ops : ElemOps T) (f : T → T) : Nat → Iterator → M (World T) Unit
  | 0, it => do
    if (← it.hasNext) then outOfFuel else pure ()
  | fuel + 1, it => do
    if (← it.hasNext) then do
      let x ← it.get
      it.set ops (f x)
      let it1 ← (it.next : M (World T) Iterator)
      iterateAndModify ops f fuel it1
    else pure ()

/-- The code `m` never fails an assertion, from any state. -/
def NoAbort {σ α : Type} (m : M σ α) : Prop :=
  ∀ s s1, m s ≠ .abort s1

/-- An element type over `int` values whose copy constructor throws for the value 2,
with a move constructor that never throws (it takes the value and leaves 0 in its
source). -/
def copyThrowsOps : ElemOps Int where
  copy := fun x => if x = 2 then none else some x
  move := fun x => some (x, 0)
  assign := fun _ v => some v
  is_move_constructible := true

/-- General Hoare triple: from every state satisfying `P`, the code `m` either returns
a value `x` in a state satisfying `Q x`, or throws or fails an assertion in a state
satisfying `E`. -/
def Hoare {σ α : Type} (P : σ → Prop) (m : M σ α) (Q : α → σ → Prop) (E : σ → Prop) : Prop :=
  ∀ s, P s →
    match m s with
    | .ok x s1 => Q x s1
    | .throw s1 => E s1
    | .abort s1 => E s1
    | .ub => True
    | .diverge => True

/-- The code `m` changes no container object (it works on the heap only), and the
allocator hands out no address twice. -/
def HeapOnly {α : Type} (m : M (World T) α) : Prop :=
  ∀ w,
    match m w with
    | .ok _ w1 => w1.objs = w.objs ∧ w.brk ≤ w1.brk
    | .throw w1 => w1.objs = w.objs ∧ w.brk ≤ w1.brk
    | .abort w1 => w1.objs = w.objs ∧ w.brk ≤ w1.brk
    | .ub => True
    | .diverge => True

/-- A state predicate that speaks about the container objects only: `R` holds of the
object store, and the allocator never hands out the null address. -/
def ObjInv (R : (Nat → Array) → Prop) (w : World T) : Prop :=
  0 < w.brk ∧ R w.objs

/-- The members of a container object are well formed: `0 <= size_ <= capacity_`, and
`data_` is null exactly when `capacity_ == 0`. -/
def Array.WellFormed (r : Array) : Prop :=
  0 ≤ r.size_ ∧ r.size_ ≤ r.capacity_ ∧ (r.data_ = 0 ↔ r.capacity_ = 0)

/-- Every container object of the object store is well formed. -/
def AllWellFormed (objs : Nat → Array) : Prop :=
  ∀ o, (objs o).WellFormed

/-- Every container object of the state is well formed (and the allocator never hands
out the null address). -/
def World.WellFormed (w : World T) : Prop :=
  ObjInv AllWellFormed w

/-- The operations of the public interface, by the addresses of the objects they are
applied to: constructors, destructor, assignments, `swap`, the mutations of one
container with values held by the caller, and the four `insert` overloads with an
arbitrary reference as argument (for instance an element of the container itself). -/
inductive Op (T : Type) where
  | new (a : Nat)
  | new_cap (a : Nat) (c : Int)
  | copy_ctor (a b : Nat)
  | move_ctor (a b : Nat)
  | copy_assign (a b tmp : Nat)
  | move_assign (a b : Nat)
  | swap (a b : Nat)
  | mutate (a : Nat) (m : Mutation T)
  | append (a : Nat) (value : Ref T)
  | append_rv (a : Nat) (value : Ref T)
  | insert (a : Nat) (k : Int) (value : Ref T)
  | insert_rv (a : Nat) (k : Int) (value : Ref T)
  | dtor (a : Nat)

/-- Run one operation. -/
def Op.run (ops : ElemOps T) : Op T → M (World T) Unit
  | .new a => Array.new a
  | .new_cap a c => Array.new_cap a c
  | .copy_ctor a b => Array.copy_ctor ops a b
  | .move_ctor a b => Array.move_ctor a b
  | .copy_assign a b tmp => Array.copy_assign ops a b tmp
  | .move_assign a b => Array.move_assign a b
  | .swap a b => Array.swap a b
  | .mutate a m => m.run ops a
  | .append a value => do
    let _ ← Array.insert ops a value
    pure ()
  | .append_rv a value => do
    let _ ← Array.insert_rv ops a value
    pure ()
  | .insert a k value => do
    let _ ← Array.insert_at ops a k value
    pure ()
  | .insert_rv a k value => do
    let _ ← Array.insert_at_rv ops a k value
    pure ()
  | .dtor a => Array.dtor a

/-- The states a program can reach from its start (no container constructed yet, any
allocation failure schedule `fails`) by public operations, each of which may return,
throw (the caller may catch the exception and go on) or fail an assertion.  An
operation whose behaviour is undefined (`.ub`: the `int` overflow of `size_ + 1`, a
reference argument into a freed buffer, a read of a raw slot) leaves no state, nor does
a run cut off by its budget: such a step has no successor, and the relation speaks of
the runs whose behaviour is defined only (the theorems exhibit a
reachable state whose next append is undefined). -/
inductive Reachable (ops : ElemOps T) (fails : Nat → Bool) : World T → Prop where
  | start : Reachable ops fails { World.init T with mallocFails := fails }
  | step (w w1 : World T) (op : Op T) : Reachable ops fails w →
      (op.run ops w).final = some w1 → Reachable ops fails w1

/-- The state an operation leaves behind (the state it started in, when the run has no
final state). -/
def Op.after (ops : ElemOps T) (op : Op T) (w : World T) : World T :=
  ((op.run ops w).final).getD w

/-- The state after `Array<int> a(1); a.insert(5); a.insert(7); a.remove(9);` run from
the program start, the last call failing its guard. -/
def World.example18 : World Int :=
  Op.after intOps (.mutate 1 (.remove 9))
    (Op.after intOps (.mutate 1 (.append 7))
      (Op.after intOps (.mutate 1 (.append 5))
        (Op.after intOps (.new_cap 1 1) { World.init Int with mallocFails := fun _ => false })))

/-- Elements constructed and not yet destroyed: element constructor invocations minus
element destructor invocations so far. -/
def World.liveCount (w : World T) : Int :=
  (w.ctors : Int) - (w.dtors : Int)

/-- The state has the object store `O` and `c` elements alive (constructed and not yet
destroyed). -/
def At (O : Nat → Array) (c : Int) (w : World T) : Prop :=
  w.objs = O ∧ w.liveCount = c

/-- From the object store `O` with `c` elements alive, the object at `a` was replaced
and both its length and the number of elements alive changed by `d`. -/
def Moved (a : Nat) (O : Nat → Array) (c d : Int) (w : World T) : Prop :=
  ∃ r : Array, At (Function.update O a r) (c + d) w ∧ r.size_ = (O a).size_ + d

/-- The containers alive after the operation returned, the most recently constructed
first. -/
def Op.alive (L : List Nat) : Op T → List Nat
  | .new a => a :: L
  | .new_cap a _ => a :: L
  | .copy_ctor a _ => a :: L
  | .move_ctor a _ => a :: L
  | .dtor a => L.erase a
  | _ => L

/-- Run the operations in order, starting with the containers at `L` alive, up to the
first one that does not return: the containers alive at that point, and the outcome.
(An operation that throws leaves the containers alive as they were: a constructor that
throws constructs no object.) -/
def runScoped (ops : ElemOps T) : List Nat → List (Op T) → World T → List Nat × Res (World T) Unit
  | L, [], w => (L, .ok () w)
  | L, op :: rest, w =>
    match op.run ops w with
    | .ok _ w1 => runScoped ops (op.alive L) rest w1
    | r => (L, r)

/-- The destructors of the containers at `L`, in order. -/
def destroyAll : List Nat → M (World T) Unit
  | [] => pure ()
  | a :: L => do
    Array.dtor a
    destroyAll L

/-- The block `{ operations... }` entered with the containers at `L` alive: at scope
exit the containers alive are destroyed, the most recently constructed first, also when
an exception propagates out of the block (stack unwinding); a failed assertion
terminates the program. -/
def Array.block (ops : ElemOps T) (L : List Nat) (prog : List (Op T)) : M (World T) Unit :=
  fun w =>
    match runScoped ops L prog w with
    | (L1, .ok _ w1) => destroyAll L1 w1
    | (L1, .throw w1) =>
      match destroyAll L1 w1 with
      | .ok _ w2 => .throw w2
      | r => r
    | (_, r) => r

/-- One access to a slot of a heap block: the block, the slot index, and whether the
access reads the element in the slot or writes the slot (a construction into it, the
destruction of the element in it, or an assignment to it). -/
structure Access where
  block : Nat
  index : Int
  isRead : Bool
  deriving DecidableEq, Repr

/-- The program state together with the slot accesses made so far, in order. -/
structure Traced (T : Type) where
  world : World T
  trace : List Access

/-- Code that accesses no slot, run on a traced state. -/
def untraced {α : Type} (m : M (World T) α) : M (Traced T) α := fun s =>
  match m s.world with
  | .ok x w => .ok x { s with world := w }
  | .throw w => .throw { s with world := w }
  | .abort w => .abort { s with world := w }
  | .ub => .ub
  | .diverge => .diverge

/-- A slot access: the access is recorded, then made. -/
def traced {α : Type} (acc : Access) (m : M (World T) α) : M (Traced T) α := fun s =>
  untraced m { s with trace := s.trace ++ [acc] }

/-- The read of `p[i]`, recorded. -/
def readSlot_traced (p : Nat) (i : Int) : M (Traced T) T :=
  traced { block := p, index := i, isRead := true } (readSlot p i)

/-- The assignment to `p[i]`, recorded. -/
def writeSlot_traced (p : Nat) (i : Int) (v : T) : M (Traced T) Unit :=
  traced { block := p, index := i, isRead := false } (writeSlot p i v)

/-- The construction into `p[i]`, recorded. -/
def place_traced (p : Nat) (i : Int) (v : T) : M (Traced T) Unit :=
  traced { block := p, index := i, isRead := false } (place p i v)

/-- `destroy_one(p + i)`, recorded. -/
def destroy_one_traced (p : Nat) (i : Int) : M (Traced T) Unit :=
  traced { block := p, index := i, isRead := false } (destroy_one p i)

/-- `destroy_range`'s loop over the recorded `destroy_one`. -/
def destroy_range_loop_traced (p : Nat) : Nat → Int → M (Traced T) Unit
  | 0, _ => pure ()
  | k + 1, i => do
    destroy_one_traced p i
    destroy_range_loop_traced p k (i + 1)

/-- `destroy_range(ptr, n)` over the recorded `destroy_one`. -/
def destroy_range_traced (p : Nat) (n : Int) : M (Traced T) Unit :=
  destroy_range_loop_traced p n.toNat 0

/-- `construct_at(p + i, src)` by copy, the construction recorded. -/
def construct_at_copy_traced (ops : ElemOps T) (p : Nat) (i : Int) (src : T) :
    M (Traced T) Unit :=
  match ops.copy src with
  | none => raise
  | some v => place_traced p i v

/-- `construct_at(p + i, std::move(q[j]))`: the read of the source, the write of its
moved-from state and the construction are recorded. -/
def construct_at_move_slot_traced (ops : ElemOps T) (p : Nat) (i : Int) (q : Nat) (j : Int) :
    M (Traced T) Unit := do
  let x ← readSlot_traced q j
  match ops.move x with
  | none => raise
  | some (v, x1) =>
    writeSlot_traced q j x1
    place_traced p i v

/-- The relocation of `q[j]` into `p[i]` used by growth and by the shifts, recorded. -/
def construct_at_from_slot_traced (ops : ElemOps T) (p : Nat) (i : Int) (q : Nat) (j : Int) :
    M (Traced T) Unit :=
  if ops.is_move_constructible then construct_at_move_slot_traced ops p i q j
  else do
    let x ← readSlot_traced q j
    construct_at_copy_traced ops p i x

/-- `construct_at(p + i, value)` through a `const T&` parameter, recorded. -/
def construct_at_copy_ref_traced (ops : ElemOps T) (p : Nat) (i : Int) :
    Ref T → M (Traced T) Unit
  | .obj v => construct_at_copy_traced ops p i v
  | .slot q j => do
    let x ← readSlot_traced q j
    construct_at_copy_traced ops p i x

/-- The relocation loop of `ensure_capacity`, recorded. -/
def relocate_loop_traced (ops : ElemOps T) (new_block data : Nat) :
    Nat → Int → Int → Traced T → Int × Res (Traced T) Unit
  | 0, _, constructed, s => (constructed, .ok () s)
  | k + 1, i, constructed, s =>
    match construct_at_from_slot_traced ops new_block i data i s with
    | .ok _ s1 => relocate_loop_traced ops new_block data k (i + 1) (constructed + 1) s1
    | r => (constructed, r)

/-- `ensure_capacity(min_capacity)`, its slot accesses recorded. -/
def ensure_capacity_traced (ops : ElemOps T) (this : Nat) (min_capacity : Int) :
    M (Traced T) Unit := do
  let r ← untraced (getObj this)
  if min_capacity ≤ r.capacity_ then pure ()
  else do
    let start := if r.capacity_ ≤ 0 then 1 else r.capacity_
    let new_capacity ← grow_loop min_capacity (min_capacity - start).toNat start
    let new_block ← untraced (allocate_raw new_capacity)
    tryCatchLocal (relocate_loop_traced ops new_block r.data_ r.size_.toNat 0 0)
      (fun constructed => do
        destroy_range_traced new_block constructed
        untraced (free new_block)
        raise)
    destroy_range_traced r.data_ r.size_
    untraced (free r.data_)
    untraced (setObj this { data_ := new_block, size_ := r.size_, capacity_ := new_capacity })

/-- The loop of `shift_right`, recorded. -/
def shift_right_loop_traced (ops : ElemOps T) (p : Nat) : Nat → Int → M (Traced T) Unit
  | 0, _ => pure ()
  | k + 1, i => do
    construct_at_from_slot_traced ops p i p (i - 1)
    destroy_one_traced p (i - 1)
    shift_right_loop_traced ops p k (i - 1)

/-- `shift_right(from_index)`, recorded. -/
def shift_right_traced (ops : ElemOps T) (this : Nat) (from_index : Int) : M (Traced T) Unit := do
  let r ← untraced (getObj this)
  shift_right_loop_traced ops r.data_ (r.size_ - from_index).toNat r.size_

/-- The loop of `shift_left`, recorded. -/
def shift_left_loop_traced (ops : ElemOps T) (p : Nat) : Nat → Int → M (Traced T) Unit
  | 0, _ => pure ()
  | k + 1, i => do
    construct_at_from_slot_traced ops p i p (i + 1)
    destroy_one_traced p (i + 1)
    shift_left_loop_traced ops p k (i + 1)

/-- `shift_left(from_index)`, recorded. -/
def shift_left_traced (ops : ElemOps T) (this : Nat) (from_index : Int) : M (Traced T) Unit := do
  let r ← untraced (getObj this)
  let last ← toInt (r.size_ - 1)
  shift_left_loop_traced ops r.data_ (last - from_index).toNat from_index

/-- Append `insert(const T& value)`, its slot accesses recorded. -/
def Array.insert_traced (ops : ElemOps T) (this : Nat) (value : Ref T) : M (Traced T) Int := do
  let r ← untraced (getObj this)
  let m ← toInt (r.size_ + 1)
  ensure_capacity_traced ops this m
  let r ← untraced (getObj this)
  construct_at_copy_ref_traced ops r.data_ r.size_ value
  let n ← toInt (r.size_ + 1)
  untraced (setObj this { r with size_ := n })
  pure r.size_

/-- Positional `insert(int index, const T& value)`, its slot accesses recorded. -/
def Array.insert_at_traced (ops : ElemOps T) (this : Nat) (index : Int) (value : Ref T) :
    M (Traced T) Int := do
  let r ← untraced (getObj this)
  assert (decide (index ≥ 0 ∧ index ≤ r.size_))
  let m ← toInt (r.size_ + 1)
  ensure_capacity_traced ops this m
  shift_right_traced ops this index
  let r ← untraced (getObj this)
  construct_at_copy_ref_traced ops r.data_ index value
  let n ← toInt (r.size_ + 1)
  untraced (setObj this { r with size_ := n })
  pure index

/-- Member `remove(int index)`, its slot accesses recorded. -/
def Array.remove_traced (ops : ElemOps T) (this : Nat) (index : Int) : M (Traced T) Unit := do
  let r ← untraced (getObj this)
  assert (decide (index ≥ 0 ∧ index < r.size_))
  destroy_one_traced r.data_ index
  shift_left_traced ops this index
  let r ← untraced (getObj this)
  let n ← toInt (r.size_ - 1)
  untraced (setObj this { r with size_ := n })

/-- The recorded code `mT` follows the code `m`: whenever `m` returns, `mT` returns the
same value in the same state, and every slot access it has added to the trace
satisfies `B`. -/
def Logs {α : Type} (mT : M (Traced T) α) (m : M (World T) α) (B : Access → Prop) : Prop :=
  ∀ (w : World T) (t : List Access) (x : α) (w1 : World T), m w = .ok x w1 →
    ∃ t1, mT { world := w, trace := t } = .ok x { world := w1, trace := t ++ t1 }
      ∧ ∀ acc, acc ∈ t1 → B acc

section Basics

variable {σ α β : Type}

@[simp] theorem pure_run (a : α) (s : σ) : (pure a : M σ α) s = .ok a s := rfl

@[simp] theorem bind_run (m : M σ α) (f : α → M σ β) (s : σ) :
    (m >>= f) s = M.bind m f s := rfl

theorem bind_ok {m : M σ α} {f : α → M σ β} {s s1 : σ} {a : α} (h : m s = .ok a s1) :
    (m >>= f) s = f a s1 := by
  simp [M.bind, h]

theorem bind_assoc_run {γ : Type} (m : M σ α) (f : α → M σ β) (g : β → M σ γ) (s : σ) :
    (m >>= fun a => f a >>= g) s = ((m >>= f) >>= g) s := by
  simp only [bind_run, M.bind]
  cases m s <;> rfl

theorem bind_ub {m : M σ α} {f : α → M σ β} {s : σ} (h : m s = .ub) :
    (m >>= f) s = .ub := by
  simp [M.bind, h]

theorem toInt_ok (x : Int) (s : σ) (h1 : INT_MIN ≤ x) (h2 : x ≤ INT_MAX) :
    toInt x s = .ok x s := by
  simp [toInt, h1, h2]

@[simp] theorem getObj_run (a : Nat) (w : World T) : getObj a w = .ok (w.objs a) w := rfl

@[simp] theorem setObj_run (a : Nat) (r : Array) (w : World T) :
    setObj a r w = .ok () { w with objs := Function.update w.objs a r } := rfl

@[simp] theorem assert_true (s : σ) : assert true s = .ok () s := rfl

end Basics

section Lists

variable {α : Type}

theorem getElem?_mid (A B : List α) (x : α) : (A ++ x :: B)[A.length]? = some x := by
  induction A with
  | nil => simp
  | cons a A ih => simpa using ih

theorem getElem?_mid_succ (A B : List α) (x y : α) :
    (A ++ x :: y :: B)[A.length + 1]? = some y := by
  induction A with
  | nil => simp
  | cons a A ih => simpa using ih

theorem set_mid (A B : List α) (x y : α) : (A ++ x :: B).set A.length y = A ++ y :: B := by
  simp

end Lists

section Primitives

@[simp] theorem upd_heap_self (w : World T) (p : Nat) (s : List (Option T)) (c d : Nat) :
    (w.upd p s c d).heap p = some s := by
  simp [World.upd]

@[simp] theorem upd_objs (w : World T) (p : Nat) (s : List (Option T)) (c d : Nat) :
    (w.upd p s c d).objs = w.objs := rfl

@[simp] theorem upd_brk (w : World T) (p : Nat) (s : List (Option T)) (c d : Nat) :
    (w.upd p s c d).brk = w.brk := rfl

theorem upd_heap_ne (w : World T) {p q : Nat} (s : List (Option T)) (c d : Nat) (h : q ≠ p) :
    (w.upd p s c d).heap q = w.heap q := by
  simp [World.upd, h]

theorem upd_upd (w : World T) (p : Nat) (s s1 : List (Option T)) (c d c1 d1 : Nat) :
    (w.upd p s c d).upd p s1 c1 d1 = w.upd p s1 (c + c1) (d + d1) := by
  simp [World.upd, Nat.add_assoc]

theorem upd_self (w : World T) (p : Nat) (s : List (Option T)) (h : w.heap p = some s) :
    w.upd p s 0 0 = w := by
  cases w
  simp_all [World.upd]

theorem readSlot_ok {w : World T} {p n : Nat} {i : Int} {s : List (Option T)} {v : T}
    (hp : p ≠ 0) (hb : w.heap p = some s) (hi : i = n) (hs : s[n]? = some (some v)) :
    readSlot p i w = .ok v w := by
  subst hi
  simp [readSlot, World.block, hp, hb, hs]

theorem writeSlot_ok {w : World T} {p n : Nat} {i : Int} {s : List (Option T)} {x : T} (v : T)
    (hp : p ≠ 0) (hb : w.heap p = some s) (hi : i = n) (hs : s[n]? = some (some x)) :
    writeSlot p i v w = .ok () (w.upd p (s.set n (some v)) 0 0) := by
  subst hi
  simp [writeSlot, World.block, hp, hb, hs, World.upd]

theorem place_ok {w : World T} {p n : Nat} {i : Int} {s : List (Option T)} (v : T)
    (hp : p ≠ 0) (hb : w.heap p = some s) (hi : i = n) (hs : s[n]? = some none) :
    place p i v w = .ok () (w.upd p (s.set n (some v)) 1 0) := by
  subst hi
  simp [place, World.block, hp, hb, hs, World.upd]

theorem destroy_one_ok {w : World T} {p n : Nat} {i : Int} {s : List (Option T)} {x : T}
    (hp : p ≠ 0) (hb : w.heap p = some s) (hi : i = n) (hs : s[n]? = some (some x)) :
    destroy_one p i w = .ok () (w.upd p (s.set n none) 0 1) := by
  subst hi
  simp [destroy_one, World.block, hp, hb, hs, World.upd]

end Primitives

section Relocation

variable {ops : ElemOps T}

theorem set_set_other {α : Type} (s : List α) {i j : Nat} (h : i ≠ j) (a b c : α) :
    ((s.set j a).set i b).set j c = (s.set i b).set j c := by
  rw [List.set_comm a b s (Ne.symm h), List.set_set]

/-- Relocating the live slot `p[j]` into the raw slot `p[i]` of the same block and
destroying the source: one iteration of either shift loop. -/
theorem relocate_same_ok (hl : ops.Lawful) {w : World T} {p i j : Nat} {ii jj : Int}
    {s : List (Option T)} {x : T} (hp : p ≠ 0) (hb : w.heap p = some s)
    (hii : ii = i) (hjj : jj = j) (hi : s[i]? = some none) (hj : s[j]? = some (some x)) :
    (construct_at_from_slot ops p ii p jj >>= fun _ => destroy_one p jj) w
      = .ok () (w.upd p ((s.set i (some x)).set j none) 1 1) := by
  have hne : i ≠ j := by
    rintro rfl
    rw [hi] at hj
    cases hj
  have hjlt : j < s.length := by
    by_contra hc
    rw [List.getElem?_eq_none (by omega)] at hj
    cases hj
  have hilt : i < s.length := by
    by_contra hc
    rw [List.getElem?_eq_none (by omega)] at hi
    cases hi
  unfold construct_at_from_slot
  by_cases hm : ops.is_move_constructible = true
  · obtain ⟨x1, hx1⟩ := hl.move_eq x
    have h1 : construct_at_move_slot ops p ii p jj w
        = .ok () (w.upd p ((s.set j (some x1)).set i (some x)) 1 0) := by
      unfold construct_at_move_slot
      rw [bind_ok (readSlot_ok hp hb hjj hj)]
      simp only [hx1]
      rw [bind_ok (writeSlot_ok x1 hp hb hjj hj)]
      rw [place_ok x hp (upd_heap_self _ _ _ _ _) hii
        (by rw [List.getElem?_set_ne hne.symm]; exact hi)]
      rw [upd_upd]
    simp only [hm, if_true]
    rw [bind_ok h1]
    rw [destroy_one_ok hp (upd_heap_self _ _ _ _ _) hjj
      (by rw [List.getElem?_set_ne hne, List.getElem?_set_self hjlt])]
    rw [upd_upd, set_set_other _ hne]
  · have h1 : (do let x ← readSlot p jj; construct_at_copy ops p ii x : M (World T) Unit) w
        = .ok () (w.upd p (s.set i (some x)) 1 0) := by
      rw [bind_ok (readSlot_ok hp hb hjj hj)]
      unfold construct_at_copy
      simp only [hl.copy_eq]
      rw [place_ok x hp hb hii hi]
    simp only [hm, Bool.false_eq_true, if_false]
    rw [bind_ok h1]
    rw [destroy_one_ok hp (upd_heap_self _ _ _ _ _) hjj
      (by rw [List.getElem?_set_ne hne]; exact hj)]
    rw [upd_upd]

theorem shift_step_list {α : Type} (A B : List α) (x y z : α) :
    ((A ++ x :: y :: B).set (A.length + 1) x).set A.length z = A ++ z :: x :: B := by
  induction A with
  | nil => simp
  | cons a A ih => simp [ih]

theorem shift_step_list_left {α : Type} (A B : List α) (x y z : α) :
    ((A ++ y :: x :: B).set A.length x).set (A.length + 1) z = A ++ x :: z :: B := by
  induction A with
  | nil => simp
  | cons a A ih => simp [ih]

/-- The loop of `shift_right` moves a run of live elements one slot up into the raw
slot that follows it. -/
theorem shift_right_loop_ok (hl : ops.Lawful) {p : Nat} (hp : p ≠ 0) (A : List (Option T))
    (mid : List T) :
    ∀ (B : List (Option T)) (w : World T) (i : Int),
      w.heap p = some (A ++ mid.map some ++ none :: B) →
      i = (A.length + mid.length : Nat) →
      shift_right_loop ops p mid.length i w
        = .ok () (w.upd p (A ++ none :: mid.map some ++ B) mid.length mid.length) := by
  induction mid using List.reverseRecOn with
  | nil =>
    intro B w i hb _
    simp only [List.length_nil, shift_right_loop, pure_run, List.map_nil, List.append_nil] at *
    rw [upd_self]
    simpa using hb
  | append_singleton mid x ih =>
    intro B w i hb hi
    have hlen : (mid ++ [x]).length = mid.length + 1 := by simp
    rw [hlen]
    unfold shift_right_loop
    have hs : A ++ List.map some (mid ++ [x]) ++ none :: B
        = (A ++ mid.map some) ++ some x :: none :: B := by simp
    rw [hs] at hb
    have hj : (A ++ mid.map some ++ some x :: none :: B)[(A ++ mid.map some).length]?
        = some (some x) := getElem?_mid _ _ _
    have hi2 : (A ++ mid.map some ++ some x :: none :: B)[(A ++ mid.map some).length + 1]?
        = some none := getElem?_mid_succ _ _ _ _
    rw [bind_assoc_run, bind_ok (relocate_same_ok hl hp hb (i := (A ++ mid.map some).length + 1)
      (j := (A ++ mid.map some).length) (by simp [hi]; omega) (by simp [hi]; omega) hi2 hj)]
    rw [shift_step_list]
    rw [ih (some x :: B) _ (i - 1) (by simp) (by simp [hi]; omega)]
    rw [upd_upd]
    simp [Nat.add_comm]

/-- The loop of `shift_left` moves a run of live elements one slot down into the raw
slot that precedes it. -/
theorem shift_left_loop_ok (hl : ops.Lawful) {p : Nat} (hp : p ≠ 0) (mid : List T) :
    ∀ (A B : List (Option T)) (w : World T) (i : Int),
      w.heap p = some (A ++ none :: mid.map some ++ B) →
      i = (A.length : Nat) →
      shift_left_loop ops p mid.length i w
        = .ok () (w.upd p (A ++ mid.map some ++ none :: B) mid.length mid.length) := by
  induction mid with
  | nil =>
    intro A B w i hb _
    simp only [List.length_nil, shift_left_loop, pure_run, List.map_nil, List.append_nil] at *
    rw [upd_self]
    simpa using hb
  | cons x mid ih =>
    intro A B w i hb hi
    simp only [List.length_cons]
    unfold shift_left_loop
    have hs : A ++ none :: List.map some (x :: mid) ++ B
        = A ++ none :: some x :: (mid.map some ++ B) := by simp
    rw [hs] at hb
    have hi2 : (A ++ none :: some x :: (mid.map some ++ B))[A.length]? = some none :=
      getElem?_mid _ _ _
    have hj : (A ++ none :: some x :: (mid.map some ++ B))[A.length + 1]? = some (some x) :=
      getElem?_mid_succ _ _ _ _
    rw [bind_assoc_run, bind_ok (relocate_same_ok hl hp hb (i := A.length)
      (j := A.length + 1) hi (by simp [hi]) hi2 hj)]
    rw [shift_step_list_left]
    rw [ih (A ++ [some x]) B _ (i + 1) (by simp) (by simp [hi])]
    rw [upd_upd]
    simp [Nat.add_comm]

end Relocation

section Remove

variable {ops : ElemOps T}

theorem slotsOf_length {xs : List T} {cap : Nat} (h : xs.length ≤ cap) :
    (slotsOf xs cap).length = cap := by
  simp [slotsOf]
  omega

theorem slotsOf_split (pre post : List T) (x : T) (cap : Nat) :
    slotsOf (pre ++ x :: post) cap = pre.map some ++ some x ::
      (post.map some ++ List.replicate (cap - (pre ++ x :: post).length) none) := by
  simp [slotsOf]

theorem slotsOf_hole (pre post : List T) (x : T) (cap : Nat)
    (h : (pre ++ x :: post).length ≤ cap) :
    slotsOf (pre ++ post) cap = pre.map some ++ post.map some ++
      none :: List.replicate (cap - (pre ++ x :: post).length) none := by
  have h1 : cap - (pre ++ post).length = (cap - (pre ++ x :: post).length) + 1 := by
    simp only [List.length_append, List.length_cons] at h ⊢
    omega
  unfold slotsOf
  rw [h1, List.replicate_succ]
  simp

theorem split_at {α : Type} (xs : List α) (k : Nat) (hk : k < xs.length) :
    xs = xs.take k ++ xs[k] :: xs.drop (k + 1) := by
  conv_lhs => rw [← List.take_append_drop k xs, List.drop_eq_getElem_cons hk]

theorem Holds.data_ne {w : World T} {a : Nat} {xs : List T} {cap : Nat} (h : Holds w a xs cap)
    (hc : cap ≠ 0) : (w.objs a).data_ ≠ 0 :=
  fun h0 => hc (h.null_iff.mp h0)

theorem Holds.size_le {w : World T} {a : Nat} {xs : List T} {cap : Nat} (h : Holds w a xs cap) :
    (xs.length : Int) ≤ INT_MAX :=
  le_trans (Int.ofNat_le.mpr h.len_le) h.cap_le

/-- What `remove` does to a container holding `pre ++ x :: post` at the index of `x`,
with the final state explicit. -/
theorem remove_run (hl : ops.Lawful) {w : World T} {a : Nat} {pre post : List T} {x : T}
    {cap : Nat} (h : Holds w a (pre ++ x :: post) cap) :
    Array.remove ops a pre.length w = .ok ()
      { (w.upd (w.objs a).data_ (slotsOf (pre ++ post) cap) post.length (post.length + 1)) with
        objs := Function.update w.objs a
          { w.objs a with size_ := ((pre ++ post).length : Nat) } } := by
  have hlen := h.len_le
  have hc : cap ≠ 0 := by
    simp only [List.length_append, List.length_cons] at hlen
    omega
  have hp := h.data_ne hc
  have hb := h.buf hc
  have hsz := h.size_eq
  have hmax := h.size_le
  simp only [INT_MAX] at hmax
  simp only [List.length_append, List.length_cons] at hsz hmax
  rw [slotsOf_split] at hb
  unfold Array.remove
  rw [bind_ok (getObj_run a w)]
  have hassert : decide ((pre.length : Int) ≥ 0 ∧ (pre.length : Int) < (w.objs a).size_)
      = true := by
    rw [hsz]
    simp
  rw [hassert, bind_ok (assert_true w)]
  have hget : (List.map some pre ++ some x :: (List.map some post ++
      List.replicate (cap - (pre ++ x :: post).length) none))[pre.length]? = some (some x) := by
    have := getElem?_mid (pre.map some) (List.map some post ++
      List.replicate (cap - (pre ++ x :: post).length) none) (some x)
    rwa [List.length_map] at this
  rw [bind_ok (destroy_one_ok hp hb rfl hget)]
  have hset := set_mid (pre.map some) (List.map some post ++
      List.replicate (cap - (pre ++ x :: post).length) none) (some x) none
  rw [List.length_map] at hset
  rw [hset]
  have hshift : shift_left ops a pre.length (w.upd (w.objs a).data_
      (List.map some pre ++ none ::
        (List.map some post ++ List.replicate (cap - (pre ++ x :: post).length) none)) 0 1)
      = .ok () (w.upd (w.objs a).data_ (slotsOf (pre ++ post) cap)
          post.length (post.length + 1)) := by
    unfold shift_left
    rw [bind_ok (getObj_run a _)]
    simp only [upd_objs]
    rw [bind_ok (toInt_ok _ _ (by rw [hsz]; simp only [INT_MIN]; omega)
      (by rw [hsz]; simp only [INT_MAX]; omega))]
    have hcount : ((w.objs a).size_ - 1 - (pre.length : Int)).toNat = post.length := by
      rw [hsz]
      omega
    rw [hcount]
    rw [shift_left_loop_ok hl hp post (pre.map some)
      (List.replicate (cap - (pre ++ x :: post).length) none) _ pre.length (by simp) (by simp)]
    rw [upd_upd, slotsOf_hole pre post x cap hlen, Nat.zero_add, Nat.add_comm 1]
  rw [bind_ok hshift]
  rw [bind_ok (getObj_run a _)]
  simp only [upd_objs]
  rw [bind_ok (toInt_ok _ _ (by rw [hsz]; simp only [INT_MIN]; omega)
    (by rw [hsz]; simp only [INT_MAX]; omega))]
  rw [setObj_run, hsz]
  have e : ((pre.length + (post.length + 1) : Nat) : Int) - 1 = ((pre ++ post).length : Nat) := by
    simp only [List.length_append]
    omega
  rw [e]
  rfl

theorem intOps_lawful : intOps.Lawful :=
  ⟨fun _ => rfl, fun x => ⟨x, rfl⟩, fun _ _ => rfl⟩

/-- C2: for an element type whose constructors do not throw and preserve the value,
a container holding `xs` (length n) in a buffer of `cap` slots and an index `k < n`,
`remove(k)` returns normally and leaves the container holding exactly
`[a0..a_{k-1}, a_{k+1}..a_{n-1}]` (`xs.take k ++ xs.drop (k+1)`), with `size() == n-1`
and `capacity()` still `cap`. -/
theorem C2_remove_preserves_order (ops : ElemOps T) (hl : ops.Lawful) (w : World T) (a : Nat)
    (xs : List T) (cap : Nat) (h : Holds w a xs cap) (k : Nat) (hk : k < xs.length) :
    ∃ w1, Array.remove ops a k w = .ok () w1
      ∧ Holds w1 a (xs.take k ++ xs.drop (k + 1)) cap
      ∧ Array.size a w1 = .ok ((xs.length : Int) - 1) w1
      ∧ Array.capacity a w = .ok (cap : Int) w
      ∧ Array.capacity a w1 = .ok (cap : Int) w1 := by
  have hsplit := split_at xs k hk
  have h2 : Holds w a (xs.take k ++ xs[k] :: xs.drop (k + 1)) cap := by
    rw [← hsplit]
    exact h
  have hrun := remove_run hl h2
  rw [List.length_take, min_eq_left hk.le] at hrun
  refine ⟨_, hrun, ?_, ?_, ?_, ?_⟩
  · have hlen : (xs.take k ++ xs.drop (k + 1)).length + 1 = xs.length := by
      simp only [List.length_append, List.length_take, List.length_drop, min_eq_left hk.le]
      omega
    have hc : cap ≠ 0 := by
      have := h.len_le
      omega
    refine ⟨?_, ?_, ?_, h.cap_le, h.brk_pos, ?_, ?_, ?_⟩
    · simp
    · simpa using h.cap_eq
    · have := h.len_le
      omega
    · simpa using h.data_lt
    · simpa using h.null_iff
    · intro _
      simp
  · simp only [Array.size, bind_run, M.bind, getObj_run, pure_run, Function.update_same]
    have hlen : ((xs.take k ++ xs.drop (k + 1)).length : Int) = (xs.length : Int) - 1 := by
      simp only [List.length_append, List.length_take, List.length_drop, min_eq_left hk.le]
      omega
    rw [hlen]
  · simp only [Array.capacity, bind_run, M.bind, getObj_run, pure_run, h.cap_eq]
  · simp only [Array.capacity, bind_run, M.bind, getObj_run, pure_run, Function.update_same,
      h.cap_eq]

/-- Witness of C2: removing index 1 from `[1,2,3,4,5]` held in 8 slots. -/
theorem C2_remove_preserves_order_witness :
    Holds (World.single [1, 2, 3, 4, 5] 8) 1 [1, 2, 3, 4, 5] 8 ∧ 1 < [1, 2, 3, 4, 5].length
    ∧ ∃ w1, Array.remove intOps 1 (1 : Nat) (World.single [1, 2, 3, 4, 5] 8) = .ok () w1
      ∧ Holds w1 1 ([1, 2, 3, 4, 5].take 1 ++ [1, 2, 3, 4, 5].drop (1 + 1)) 8
      ∧ Array.size 1 w1 = .ok ((([1, 2, 3, 4, 5] : List Int).length : Int) - 1) w1
      ∧ Array.capacity 1 (World.single [1, 2, 3, 4, 5] 8) = .ok ((8 : Nat) : Int)
          (World.single [1, 2, 3, 4, 5] 8)
      ∧ Array.capacity 1 w1 = .ok ((8 : Nat) : Int) w1 :=
  have hh : Holds (World.single [1, 2, 3, 4, 5] 8) 1 [1, 2, 3, 4, 5] 8 :=
    ⟨rfl, rfl, by decide, by decide, by decide, by decide, by decide, fun _ => rfl⟩
  ⟨hh, by decide,
    C2_remove_preserves_order intOps intOps_lawful _ 1 [1, 2, 3, 4, 5] 8 hh 1 (by decide)⟩

end Remove

section Growth

variable {ops : ElemOps T}

theorem upd_comm (w : World T) {p q : Nat} (h : p ≠ q) (s t : List (Option T))
    (c d c1 d1 : Nat) :
    (w.upd p s c d).upd q t c1 d1 = (w.upd q t c1 d1).upd p s c d := by
  simp only [World.upd, Function.update_comm h, Nat.add_right_comm]

theorem set_same_of_getElem? {α : Type} (s : List α) (i : Nat) (x : α) (h : s[i]? = some x) :
    s.set i x = s := by
  induction s generalizing i with
  | nil => simp
  | cons a s ih =>
    cases i with
    | zero => simp at h; simp [h]
    | succ i => simp at h; simp [ih i h]

/-- Relocation-construct of `nb[i]` from the live slot `p[i]` of another block: one
iteration of the growth loop. -/
theorem relocate_other_ok (hl : ops.Lawful) {w : World T} {nb p i : Nat} {ii : Int}
    {sn sd : List (Option T)} {x : T} (hnb : nb ≠ 0) (hp : p ≠ 0) (hne : nb ≠ p)
    (hbn : w.heap nb = some sn) (hbp : w.heap p = some sd) (hii : ii = i)
    (hi : sn[i]? = some none) (hj : sd[i]? = some (some x)) :
    construct_at_from_slot ops nb ii p ii w
      = .ok () ((w.upd p (sd.set i (some (ops.residue x))) 0 0).upd nb
          (sn.set i (some x)) 1 0) := by
  unfold construct_at_from_slot
  by_cases hm : ops.is_move_constructible = true
  · obtain ⟨x1, hx1⟩ := hl.move_eq x
    have hres : ops.residue x = x1 := by simp [ElemOps.residue, hm, hx1]
    simp only [hm, if_true]
    unfold construct_at_move_slot
    rw [bind_ok (readSlot_ok hp hbp hii hj)]
    simp only [hx1]
    rw [bind_ok (writeSlot_ok x1 hp hbp hii hj)]
    rw [place_ok x hnb (by rw [upd_heap_ne _ _ _ _ hne]; exact hbn) hii hi, hres]
  · have hres : ops.residue x = x := by simp [ElemOps.residue, hm]
    simp only [hm, Bool.false_eq_true, if_false]
    rw [bind_ok (readSlot_ok hp hbp hii hj)]
    unfold construct_at_copy
    simp only [hl.copy_eq]
    rw [hres, set_same_of_getElem? _ _ _ hj, upd_self _ _ _ hbp]
    rw [place_ok x hnb hbn hii hi]

/-- The relocation loop of `ensure_capacity` fills the new block with the elements in
order and leaves their residues in the old block. -/
theorem relocate_loop_ok (hl : ops.Lawful) {nb p : Nat} (hnb : nb ≠ 0) (hp : p ≠ 0)
    (hne : nb ≠ p) (E B : List (Option T)) (todo : List T) :
    ∀ (done : List T) (R : List (Option T)) (w : World T) (i c : Int),
      R.length = done.length →
      w.heap nb = some (done.map some ++ (List.replicate todo.length none ++ E)) →
      w.heap p = some (R ++ (todo.map some ++ B)) →
      i = (done.length : Nat) → c = (done.length : Nat) →
      relocate_loop ops nb p todo.length i c w
        = (((done.length + todo.length : Nat) : Int),
            .ok () ((w.upd p (R ++ (todo.map (fun x => some (ops.residue x)) ++ B)) 0 0).upd nb
              ((done ++ todo).map some ++ E) todo.length 0)) := by
  induction todo with
  | nil =>
    intro done R w i c _ hbn hbp _ hc
    simp only [List.length_nil, relocate_loop, List.map_nil, List.nil_append, List.append_nil,
      List.replicate_zero, Nat.add_zero] at *
    rw [upd_self _ _ _ hbp, upd_self _ _ _ hbn, hc]
  | cons x todo ih =>
    intro done R w i c hR hbn hbp hi hc
    simp only [List.length_cons, List.replicate_succ, List.map_cons, List.cons_append] at *
    unfold relocate_loop
    have hgetn : (List.map some done ++ none :: (List.replicate todo.length none ++ E))[done.length]?
        = some none := by
      have := getElem?_mid (done.map some) (List.replicate todo.length none ++ E) (none : Option T)
      rwa [List.length_map] at this
    have hgetp : (R ++ some x :: (List.map some todo ++ B))[done.length]? = some (some x) := by
      rw [← hR]
      exact getElem?_mid _ _ _
    rw [relocate_other_ok hl hnb hp hne hbn hbp hi hgetn hgetp]
    simp only []
    have hsetn := set_mid (done.map some) (List.replicate todo.length none ++ E) none (some x)
    rw [List.length_map] at hsetn
    have hsetp := set_mid R (List.map some todo ++ B) (some x) (some (ops.residue x))
    rw [hR] at hsetp
    rw [hsetn, hsetp]
    rw [ih (done ++ [x]) (R ++ [some (ops.residue x)]) _ (i + 1) (c + 1)
      (by simp [hR]) (by simp) (by rw [upd_heap_ne _ _ _ _ hne.symm]; simp)
      (by simp [hi]) (by simp [hc])]
    rw [upd_comm _ hne.symm, upd_upd, upd_comm _ hne, upd_upd]
    simp [Nat.add_comm, Nat.add_left_comm, Nat.add_assoc]

/-- The loop of `destroy_range` turns a run of live slots into raw slots. -/
theorem destroy_range_loop_ok {p : Nat} (hp : p ≠ 0) (L : List T) :
    ∀ (D B : List (Option T)) (w : World T) (i : Int),
      w.heap p = some (D ++ (L.map some ++ B)) → i = (D.length : Nat) →
      destroy_range_loop p L.length i w
        = .ok () (w.upd p (D ++ (List.replicate L.length none ++ B)) 0 L.length) := by
  induction L with
  | nil =>
    intro D B w i hb _
    simp only [List.length_nil, destroy_range_loop, pure_run, List.map_nil, List.nil_append,
      List.replicate_zero] at *
    rw [upd_self _ _ _ hb]
  | cons x L ih =>
    intro D B w i hb hi
    simp only [List.length_cons, List.map_cons, List.cons_append, List.replicate_succ] at *
    unfold destroy_range_loop
    rw [bind_ok (destroy_one_ok hp hb hi (getElem?_mid _ _ _)), set_mid]
    rw [ih (D ++ [none]) B _ (i + 1) (by simp) (by simp [hi]), upd_upd]
    simp [Nat.add_comm]

/-- Assemble `Holds` from the members of the object and the contents of its block. -/
theorem holds_of_parts {w1 : World T} {a : Nat} {xs : List T} {cap p : Nat}
    (hobj : w1.objs a = { data_ := p, size_ := xs.length, capacity_ := cap })
    (hheap : cap ≠ 0 → w1.heap p = some (slotsOf xs cap))
    (hlen : xs.length ≤ cap) (hcap : (cap : Int) ≤ INT_MAX) (hbrk : 0 < w1.brk)
    (hlt : p < w1.brk) (hnull : p = 0 ↔ cap = 0) : Holds w1 a xs cap := by
  refine ⟨?_, ?_, hlen, hcap, hbrk, ?_, ?_, ?_⟩
  · rw [hobj]
  · rw [hobj]
  · rw [hobj]
    exact hlt
  · rw [hobj]
    exact hnull
  · rw [hobj]
    exact hheap

theorem tryCatchLocal_ok {σ α L : Type} {body : σ → L × Res σ α} {handler : L → M σ α}
    {s s1 : σ} {l : L} {a : α} (h : body s = (l, .ok a s1)) :
    tryCatchLocal body handler s = .ok a s1 := by
  simp [tryCatchLocal, h]

theorem free_ok {w : World T} {p : Nat} {s : List (Option T)} (hp : p ≠ 0)
    (hb : w.heap p = some s) :
    free p w = .ok () { w with heap := Function.update w.heap p none } := by
  simp [free, hp, hb]

theorem allocate_raw_ok {w : World T} {n : Int} (hn : 0 < n) (hbrk : 0 < w.brk)
    (hm : w.mallocFails w.mallocCalls = false) :
    allocate_raw n w = .ok w.brk { w with
      heap := Function.update w.heap w.brk (some (List.replicate n.toNat none))
      brk := w.brk + 1
      mallocCalls := w.mallocCalls + 1 } := by
  have h1 : ¬ n ≤ 0 := by omega
  have h2 : w.brk ≠ 0 := by omega
  simp [allocate_raw, h1, malloc, hm, M.bind, h2]

/-- Growth: when `min_capacity` exceeds the capacity, the capacity loop yields `nc` and
`malloc` succeeds, `ensure_capacity` moves the elements, in order, into a fresh buffer
of `nc` slots. -/
theorem ensure_capacity_grow (hl : ops.Lawful) {w : World T} {a : Nat} {xs : List T}
    {cap : Nat} (h : Holds w a xs cap) (min nc : Int) (hmin : (cap : Int) < min)
    (hg : ∀ s : World T, grow_loop min (min - (if (cap : Int) ≤ 0 then 1 else (cap : Int))).toNat
        (if (cap : Int) ≤ 0 then 1 else (cap : Int)) s = .ok nc s)
    (hnc1 : min ≤ nc) (hnc2 : nc ≤ INT_MAX) (hm : w.mallocFails w.mallocCalls = false) :
    ∃ w1, ensure_capacity ops a min w = .ok () w1 ∧ Holds w1 a xs nc.toNat ∧ Frame w w1 a
      ∧ w1.mallocCalls = w.mallocCalls + 1
      ∧ w1.ctors = w.ctors + xs.length ∧ w1.dtors = w.dtors + xs.length := by
  have hlen := h.len_le
  have hsz := h.size_eq
  have hcap := h.cap_eq
  have hbrk := h.brk_pos
  have hnc0 : 0 < nc := by omega
  have hncn : xs.length ≤ nc.toNat := by omega
  have hnb : w.brk ≠ 0 := by omega
  have hnbp : w.brk ≠ (w.objs a).data_ := by
    have := h.data_lt
    omega
  unfold ensure_capacity
  rw [bind_ok (getObj_run a w)]
  have hcond : ¬ min ≤ (w.objs a).capacity_ := by
    rw [hcap]
    omega
  simp only [hcond, if_false]
  rw [hcap, bind_ok (hg w), bind_ok (allocate_raw_ok hnc0 hbrk hm)]
  have hrep : List.replicate nc.toNat (none : Option T)
      = List.replicate xs.length none ++ List.replicate (nc.toNat - xs.length) none := by
    rw [← List.replicate_add]
    congr 1
    omega
  by_cases hc : cap = 0
  · have hxs : xs = [] := by
      apply List.eq_nil_of_length_eq_zero
      omega
    have hp0 : (w.objs a).data_ = 0 := h.null_iff.mpr hc
    subst hxs
    simp only [List.length_nil, Nat.cast_zero] at hsz
    have hloop : ∀ w2 : World T, relocate_loop ops w.brk (w.objs a).data_ (w.objs a).size_.toNat
        0 0 w2 = (0, .ok () w2) := by
      intro w2
      rw [hsz]
      rfl
    rw [bind_ok (tryCatchLocal_ok (hloop _))]
    have hdr : ∀ w2 : World T, destroy_range (w.objs a).data_ (w.objs a).size_ w2
        = .ok () w2 := by
      intro w2
      rw [hsz]
      rfl
    rw [bind_ok (hdr _)]
    have hfree : ∀ w2 : World T, free (w.objs a).data_ w2 = .ok () w2 := by
      intro w2
      simp [free, hp0]
    rw [bind_ok (hfree _), setObj_run]
    have hnceq : ((nc.toNat : Nat) : Int) = nc := Int.toNat_of_nonneg hnc0.le
    refine ⟨_, rfl, holds_of_parts (p := w.brk) ?_ ?_ hncn (by omega) ?_ ?_ ?_,
      ⟨?_, ?_, ?_, ?_, ?_⟩, rfl, ?_, ?_⟩
    · simp [hsz, hnceq]
    · intro _
      simp [slotsOf]
    · simp
    · simp
    · simp
      omega
    · intro b hb
      simp [hb]
    · intro q _ hq
      have : q ≠ w.brk := by omega
      simp [this]
    · simp
    · rfl
    · right
      simp
    · simp
    · simp
  · have hp : (w.objs a).data_ ≠ 0 := h.data_ne hc
    have hb := h.buf hc
    have hloop := relocate_loop_ok hl hnb hp hnbp (List.replicate (nc.toNat - xs.length) none)
      (List.replicate (cap - xs.length) none) xs [] []
      { w with
        heap := Function.update w.heap w.brk (some (List.replicate nc.toNat none))
        brk := w.brk + 1
        mallocCalls := w.mallocCalls + 1 } 0 0 rfl
      (by simp [hrep]) (by simp [hnbp.symm, hb, slotsOf]) (by simp) (by simp)
    have hsn : (w.objs a).size_.toNat = xs.length := by
      rw [hsz]
      simp
    rw [hsn, bind_ok (tryCatchLocal_ok hloop)]
    simp only [List.nil_append, List.length_nil, Nat.zero_add]
    have hdr := destroy_range_loop_ok (p := (w.objs a).data_) hp (xs.map ops.residue) []
      (List.replicate (cap - xs.length) none)
      (({ w with
        heap := Function.update w.heap w.brk (some (List.replicate nc.toNat none))
        brk := w.brk + 1
        mallocCalls := w.mallocCalls + 1 } : World T).upd (w.objs a).data_
          (List.map (fun x => some (ops.residue x)) xs ++
            List.replicate (cap - xs.length) none) 0 0 |>.upd w.brk
          (List.map some xs ++ List.replicate (nc.toNat - xs.length) none) xs.length 0) 0
      (by rw [upd_heap_ne _ _ _ _ hnbp.symm]; simp [List.map_map, Function.comp_def])
      (by simp)
    rw [List.length_map] at hdr
    unfold destroy_range
    rw [hsn, bind_ok hdr]
    rw [bind_ok (free_ok hp (upd_heap_self _ _ _ _ _)), setObj_run]
    have hnceq : ((nc.toNat : Nat) : Int) = nc := Int.toNat_of_nonneg hnc0.le
    refine ⟨_, rfl, holds_of_parts (p := w.brk) ?_ ?_ hncn (by omega) ?_ ?_ ?_,
      ⟨?_, ?_, ?_, ?_, ?_⟩, rfl, ?_, ?_⟩
    · simp [hsz, hnceq]
    · intro _
      simp [World.upd, hnbp, slotsOf]
    · simp [World.upd]
    · simp [World.upd]
    · simp
      omega
    · intro b hb
      simp [World.upd, hb]
    · intro q hq1 hq2
      have : q ≠ w.brk := by omega
      simp [World.upd, this, hq1]
    · simp [World.upd]
    · rfl
    · right
      simp
    · simp [World.upd]
    · simp [World.upd]

theorem ensure_capacity_noop {w : World T} {a : Nat} {min : Int}
    (h : min ≤ (w.objs a).capacity_) : ensure_capacity ops a min w = .ok () w := by
  unfold ensure_capacity
  rw [bind_ok (getObj_run a w)]
  simp [h]

theorem Frame.refl (w : World T) (a : Nat) : Frame w w a :=
  ⟨fun _ _ => rfl, fun _ _ _ => rfl, le_refl _, rfl, Or.inl rfl⟩

theorem Frame.trans {w w1 w2 : World T} {a : Nat} (h1 : Frame w w1 a) (h2 : Frame w1 w2 a) :
    Frame w w2 a := by
  refine ⟨?_, ?_, ?_, ?_, ?_⟩
  · intro b hb
    rw [h2.objs_eq b hb, h1.objs_eq b hb]
  · intro q hq1 hq2
    have hq3 : q ≠ (w1.objs a).data_ := by
      rcases h1.data_fresh with h | h
      · rw [h]
        exact hq1
      · omega
    rw [h2.heap_eq q hq3 (lt_of_lt_of_le hq2 h1.brk_le), h1.heap_eq q hq1 hq2]
  · exact le_trans h1.brk_le h2.brk_le
  · rw [h2.fails_eq, h1.fails_eq]
  · rcases h2.data_fresh with h | h
    · rw [h]
      exact h1.data_fresh
    · right
      exact le_trans h1.brk_le h

/-- A change confined to the members `size_`, `capacity_` of `a` and to its own block. -/
theorem Frame.local (w : World T) (a : Nat) (s : List (Option T)) (c d : Nat) (r : Array)
    (hr : r.data_ = (w.objs a).data_) :
    Frame w { (w.upd (w.objs a).data_ s c d) with objs := Function.update w.objs a r } a := by
  refine ⟨?_, ?_, ?_, ?_, ?_⟩
  · intro b hb
    simp [hb]
  · intro q hq _
    simp [World.upd, hq]
  · simp [World.upd]
  · simp [World.upd]
  · left
    simp [hr]

/-- The capacity loop for an append to a full buffer of `cap ≥ 1` slots: one doubling. -/
theorem grow_loop_double {σ : Type} (cap : Int) (h1 : 1 ≤ cap) (h2 : 2 * cap ≤ INT_MAX)
    (s : σ) : grow_loop (cap + 1) (cap + 1 - cap).toNat cap s = .ok (2 * cap) s := by
  have hf : (cap + 1 - cap).toNat = 1 := by
    have : cap + 1 - cap = 1 := by ring
    rw [this]
    rfl
  have h3 : INT_MIN ≤ cap * kGrowthFactor := by
    simp only [INT_MIN, kGrowthFactor]
    omega
  have h4 : cap * kGrowthFactor ≤ INT_MAX := by
    simp only [kGrowthFactor]
    omega
  rw [hf]
  unfold grow_loop
  simp only [lt_add_one, if_true]
  rw [bind_ok (toInt_ok _ _ h3 h4)]
  have h5 : cap * kGrowthFactor > cap := by
    simp only [kGrowthFactor]
    omega
  simp only [h5, if_true]
  rw [bind_ok (pure_run _ _)]
  unfold grow_loop
  have h6 : ¬ cap * kGrowthFactor < cap + 1 := by
    simp only [kGrowthFactor]
    omega
  rw [if_neg h6, pure_run]
  simp only [kGrowthFactor]
  rw [mul_comm]

/-- The iteration budget `ensure_capacity` gives the capacity loop is enough: started
from a capacity `nc ≥ 1` with at least `min - nc` iterations allowed, the loop is
never cut off (every iteration increases the capacity by at least one). -/
theorem grow_loop_total {σ : Type} (min : Int) (s : σ) :
    ∀ (fuel : Nat) (nc : Int), 1 ≤ nc → (min - nc).toNat ≤ fuel →
      grow_loop min fuel nc s ≠ .diverge := by
  intro fuel
  induction fuel with
  | zero =>
    intro nc _ hf
    unfold grow_loop
    have : ¬ nc < min := by omega
    simp only [this, if_false]
    exact fun h => nomatch h
  | succ fuel ih =>
    intro nc hnc hf
    unfold grow_loop
    by_cases hlt : nc < min
    · simp only [hlt, if_true, bind_run, M.bind]
      unfold toInt
      by_cases h1 : INT_MIN ≤ nc * kGrowthFactor ∧ nc * kGrowthFactor ≤ INT_MAX
      · rw [if_pos h1]
        simp only [pure_run]
        by_cases h2 : nc * kGrowthFactor > nc
        · rw [if_pos h2]
          simp only [pure_run]
          exact ih _ (by omega) (by omega)
        · rw [if_neg h2]
          by_cases h3 : INT_MIN ≤ nc + 1 ∧ nc + 1 ≤ INT_MAX
          · rw [if_pos h3]
            simp only [pure_run]
            exact ih _ (by omega) (by omega)
          · rw [if_neg h3]
            exact fun h => nomatch h
      · rw [if_neg h1]
        exact fun h => nomatch h
    · simp only [hlt, if_false]
      exact fun h => nomatch h

/-- Making room for one more element: `ensure_capacity(size_ + 1)` keeps the contents
and leaves a free slot; it reallocates exactly when the buffer is full. -/
theorem ensure_capacity_room (hl : ops.Lawful) {w : World T} {a : Nat} {xs : List T}
    {cap : Nat} (h : Holds w a xs cap)
    (hgrow : xs.length < cap ∨
      (2 * (cap : Int) ≤ INT_MAX ∧ w.mallocFails w.mallocCalls = false)) :
    ∃ w1, ensure_capacity ops a ((xs.length : Int) + 1) w = .ok () w1
      ∧ Holds w1 a xs (if xs.length < cap then cap else if cap = 0 then 1 else 2 * cap)
      ∧ Frame w w1 a := by
  by_cases hfull : xs.length < cap
  · simp only [hfull, if_true]
    refine ⟨w, ensure_capacity_noop ?_, h, Frame.refl w a⟩
    rw [h.cap_eq]
    omega
  · have hlen := h.len_le
    have hcapn : cap = xs.length := by omega
    have hov2 : 2 * (cap : Int) ≤ INT_MAX := by
      rcases hgrow with h1 | h1
      · exact absurd h1 hfull
      · exact h1.1
    have hm : w.mallocFails w.mallocCalls = false := by
      rcases hgrow with h1 | h1
      · exact absurd h1 hfull
      · exact h1.2
    simp only [hfull, if_false]
    by_cases hc : cap = 0
    · simp only [hc, if_true]
      have hx : xs.length = 0 := by omega
      have := ensure_capacity_grow hl h ((xs.length : Int) + 1) 1
        (by rw [hx, hc]; simp)
        (by
          intro s
          rw [hx, hc]
          rfl)
        (by rw [hx]; simp) (by simp [INT_MAX]) hm
      obtain ⟨w1, h1, h2, h3, _⟩ := this
      exact ⟨w1, h1, h2, h3⟩
    · simp only [hc, if_false]
      have hpos : (1 : Int) ≤ cap := by omega
      have hne : ¬ (cap : Int) ≤ 0 := by omega
      have := ensure_capacity_grow hl h ((xs.length : Int) + 1) (2 * (cap : Int))
        (by rw [hcapn]; simp)
        (by
          intro s
          simp only [hne, if_false]
          rw [← hcapn]
          exact grow_loop_double (cap : Int) hpos hov2 s)
        (by omega) hov2 hm
      obtain ⟨w1, h1, h2, h3, _⟩ := this
      refine ⟨w1, h1, ?_, h3⟩
      have e : (2 * (cap : Int)).toNat = 2 * cap := by omega
      rw [e] at h2
      exact h2

theorem slotsOf_room (xs : List T) (cap : Nat) (h : xs.length < cap) :
    slotsOf xs cap = xs.map some ++ none :: List.replicate (cap - xs.length - 1) none := by
  unfold slotsOf
  have : cap - xs.length = (cap - xs.length - 1) + 1 := by omega
  rw [this, List.replicate_succ]
  simp

theorem construct_at_move_eq_copy (hl : ops.Lawful) (p : Nat) (i : Int) (v : T) :
    construct_at_move ops p i v = construct_at_copy ops p i v := by
  obtain ⟨x1, hx1⟩ := hl.move_eq v
  simp [construct_at_move, construct_at_copy, hx1, hl.copy_eq]

theorem construct_at_copy_ok (hl : ops.Lawful) {w : World T} {p n : Nat} {i : Int}
    {s : List (Option T)} (v : T) (hp : p ≠ 0) (hb : w.heap p = some s) (hi : i = n)
    (hs : s[n]? = some none) :
    construct_at_copy ops p i v w = .ok () (w.upd p (s.set n (some v)) 1 0) := by
  unfold construct_at_copy
  simp only [hl.copy_eq]
  exact place_ok v hp hb hi hs

/-- What the append `insert` does to a container holding `xs`. -/
theorem insert_run (hl : ops.Lawful) {w : World T} {a : Nat} {xs : List T} (v : T)
    {cap : Nat} (h : Holds w a xs cap)
    (hgrow : xs.length < cap ∨
      (2 * (cap : Int) ≤ INT_MAX ∧ w.mallocFails w.mallocCalls = false)) :
    ∃ w1, Array.insert ops a (.obj v) w = .ok (xs.length : Int) w1
      ∧ Holds w1 a (xs ++ [v]) (if xs.length < cap then cap else if cap = 0 then 1 else 2 * cap)
      ∧ Frame w w1 a := by
  have hlen := h.len_le
  have hsz := h.size_eq
  have hcapmax := h.cap_le
  simp only [INT_MAX] at hcapmax
  obtain ⟨w1, he, hh, hf⟩ := ensure_capacity_room hl h hgrow
  have hnmax : (xs.length : Int) + 1 ≤ 2147483647 := by
    rcases hgrow with h1 | h1
    · omega
    · have := h1.1
      simp only [INT_MAX] at this
      omega
  generalize hcap1 : (if xs.length < cap then cap else if cap = 0 then 1 else 2 * cap)
    = cap1 at hh ⊢
  have hroom : xs.length < cap1 := by
    rw [← hcap1]
    split_ifs <;> omega
  have hc1 : cap1 ≠ 0 := by omega
  have hp1 := hh.data_ne hc1
  have hb1 := hh.buf hc1
  have hsz1 := hh.size_eq
  unfold Array.insert
  simp only [construct_at_copy_ref, construct_at_move_ref]
  rw [bind_ok (getObj_run a w), hsz]
  rw [bind_ok (toInt_ok _ _ (by simp only [INT_MIN]; omega) (by simp only [INT_MAX]; omega))]
  rw [bind_ok he, bind_ok (getObj_run a _)]
  rw [slotsOf_room _ _ hroom] at hb1
  have hget : (List.map some xs ++ none :: List.replicate (cap1 - xs.length - 1) none)[xs.length]?
      = some none := by
    have := getElem?_mid (xs.map some) (List.replicate (cap1 - xs.length - 1) none)
      (none : Option T)
    rwa [List.length_map] at this
  rw [hsz1, bind_ok (construct_at_copy_ok hl v hp1 hb1 rfl hget)]
  rw [bind_ok (toInt_ok _ _ (by simp only [INT_MIN]; omega) (by simp only [INT_MAX]; omega))]
  rw [bind_ok (setObj_run _ _ _), pure_run]
  refine ⟨_, rfl, holds_of_parts (p := (w1.objs a).data_) ?_ ?_ ?_ hh.cap_le ?_ ?_ ?_, ?_⟩
  · simp [hh.cap_eq]
  · intro _
    have hset := set_mid (xs.map some) (List.replicate (cap1 - xs.length - 1) none)
      (none : Option T) (some v)
    rw [List.length_map] at hset
    simp only [upd_heap_self]
    rw [hset, slotsOf_split]
    simp
    omega
  · simp only [List.length_append, List.length_cons, List.length_nil]
    omega
  · exact hh.brk_pos
  · exact hh.data_lt
  · exact hh.null_iff
  · exact hf.trans (Frame.local w1 a _ _ _ _ rfl)

theorem insert_rv_eq (hl : ops.Lawful) (a : Nat) (v : T) :
    Array.insert_rv ops a (.obj v) = Array.insert ops a (.obj v) := by
  unfold Array.insert_rv Array.insert
  simp only [construct_at_copy_ref, construct_at_move_ref]
  simp only [construct_at_move_eq_copy hl]

/-- Reading element `i` of a container holding `xs` through `operator[]`. -/
theorem subscript_ok {w : World T} {a : Nat} {xs : List T} {cap : Nat} (h : Holds w a xs cap)
    (i : Nat) (hi : i < xs.length) : Array.subscript a i w = .ok xs[i] w := by
  have hlen := h.len_le
  have hc : cap ≠ 0 := by omega
  unfold Array.subscript
  rw [bind_ok (getObj_run a w)]
  have hassert : decide ((i : Int) ≥ 0 ∧ (i : Int) < (w.objs a).size_) = true := by
    rw [h.size_eq]
    simp [hi]
  rw [hassert, bind_ok (assert_true w)]
  refine readSlot_ok (h.data_ne hc) (h.buf hc) rfl ?_
  unfold slotsOf
  rw [List.getElem?_append_left (by simpa using hi)]
  simp [hi]

theorem size_ok {w : World T} {a : Nat} {xs : List T} {cap : Nat} (h : Holds w a xs cap) :
    Array.size a w = .ok (xs.length : Int) w := by
  unfold Array.size
  rw [bind_ok (getObj_run a w), pure_run, h.size_eq]

theorem capacity_ok {w : World T} {a : Nat} {xs : List T} {cap : Nat} (h : Holds w a xs cap) :
    Array.capacity a w = .ok (cap : Int) w := by
  unfold Array.capacity
  rw [bind_ok (getObj_run a w), pure_run, h.cap_eq]

end Growth

section InsertClaims

variable {ops : ElemOps T}

theorem insert_overflow {w : World T} {a : Nat} (v : T)
    (h : (w.objs a).size_ = 2147483647) : Array.insert ops a (.obj v) w = .ub := by
  unfold Array.insert
  simp only [construct_at_copy_ref, construct_at_move_ref]
  rw [bind_ok (getObj_run a w), h]
  exact bind_ub rfl

end InsertClaims

section Appends

variable {ops : ElemOps T}

/-- The constructors allocate a buffer of the normalised capacity and hold nothing. -/
theorem new_cap_run (w : World T) (a : Nat) (c : Int) (hbrk : 0 < w.brk)
    (hm : w.mallocFails w.mallocCalls = false) (hc : normalize_capacity c ≤ INT_MAX) :
    ∃ w1, Array.new_cap a c w = .ok () w1
      ∧ Holds w1 a [] (normalize_capacity c).toNat
      ∧ w1.mallocFails = w.mallocFails := by
  have hpos : 0 < normalize_capacity c := by
    unfold normalize_capacity kDefaultCapacity
    split_ifs <;> omega
  unfold Array.new_cap
  rw [bind_ok (allocate_raw_ok hpos hbrk hm), setObj_run]
  refine ⟨_, rfl, holds_of_parts (p := w.brk) ?_ ?_ ?_ ?_ ?_ ?_ ?_, rfl⟩
  · simp [Int.toNat_of_nonneg hpos.le]
  · intro _
    simp [slotsOf]
  · simp
  · rw [Int.toNat_of_nonneg hpos.le]
    exact hc
  · simp
  · simp
  · constructor
    · intro h0
      omega
    · intro h0
      omega

theorem new_run (w : World T) (a : Nat) (hbrk : 0 < w.brk)
    (hm : w.mallocFails w.mallocCalls = false) :
    ∃ w1, Array.new a w = .ok () w1 ∧ Holds w1 a [] 8 ∧ w1.mallocFails = w.mallocFails := by
  have h := new_cap_run w a 0 hbrk hm (by decide)
  exact h

/-- A run of appends into a buffer whose capacity is `c0 * 2 ^ j`: as long as the total
fits a capacity `c0 * 2 ^ k` that is an `int`, every append succeeds. -/
theorem appendAll_run (hl : ops.Lawful) (a c0 k : Nat) (hc0 : 1 ≤ c0)
    (hmax : ((c0 * 2 ^ k : Nat) : Int) ≤ INT_MAX) (vs : List T) :
    ∀ (xs : List T) (w : World T) (j : Nat), Holds w a xs (c0 * 2 ^ j) →
      (∀ i, w.mallocFails i = false) → xs.length + vs.length ≤ c0 * 2 ^ k →
      ∃ w1 j1, appendAll ops a vs w = .ok () w1 ∧ Holds w1 a (xs ++ vs) (c0 * 2 ^ j1)
        ∧ (∀ i, w1.mallocFails i = false) := by
  induction vs with
  | nil =>
    intro xs w j h hm _
    exact ⟨w, j, rfl, by simpa using h, hm⟩
  | cons v vs ih =>
    intro xs w j h hm hfit
    simp only [List.length_cons] at hfit
    have hcpos : 0 < c0 * 2 ^ j := Nat.mul_pos hc0 (Nat.pos_pow_of_pos _ (by decide))
    have hgrow : xs.length < c0 * 2 ^ j ∨
        (2 * ((c0 * 2 ^ j : Nat) : Int) ≤ INT_MAX ∧ w.mallocFails w.mallocCalls = false) := by
      by_cases hfull : xs.length < c0 * 2 ^ j
      · exact Or.inl hfull
      · right
        refine ⟨?_, hm _⟩
        have h1 : c0 * 2 ^ j < c0 * 2 ^ k := by omega
        have h2 : 2 ^ j < 2 ^ k := Nat.lt_of_mul_lt_mul_left h1
        have h3 : j < k := (Nat.pow_lt_pow_iff_right (by decide)).mp h2
        have h4 : 2 ^ (j + 1) ≤ 2 ^ k := Nat.pow_le_pow_right (by decide) h3
        have h5 : c0 * 2 ^ (j + 1) ≤ c0 * 2 ^ k := Nat.mul_le_mul_left c0 h4
        have h6 : 2 * (c0 * 2 ^ j) = c0 * 2 ^ (j + 1) := by ring
        have h7 : ((2 * (c0 * 2 ^ j) : Nat) : Int) ≤ INT_MAX := by
          rw [h6]
          exact le_trans (Int.ofNat_le.mpr h5) hmax
        push_cast at h7 ⊢
        exact h7
    obtain ⟨w1, hrun, hh, hf⟩ := insert_run hl v h hgrow
    have hm1 : ∀ i, w1.mallocFails i = false := by
      intro i
      rw [hf.fails_eq]
      exact hm i
    have hcap1 : ∃ j1, (if xs.length < c0 * 2 ^ j then c0 * 2 ^ j
        else if c0 * 2 ^ j = 0 then 1 else 2 * (c0 * 2 ^ j)) = c0 * 2 ^ j1 := by
      by_cases hfull : xs.length < c0 * 2 ^ j
      · exact ⟨j, by simp [hfull]⟩
      · refine ⟨j + 1, ?_⟩
        have : c0 * 2 ^ j ≠ 0 := by omega
        simp only [hfull, this, if_false]
        ring
    obtain ⟨j1, hj1⟩ := hcap1
    rw [hj1] at hh
    obtain ⟨w2, j2, hrun2, hh2, hm2⟩ := ih (xs ++ [v]) w1 j1 hh hm1
      (by simp only [List.length_append, List.length_cons, List.length_nil]; omega)
    refine ⟨w2, j2, ?_, by simpa using hh2, hm2⟩
    unfold appendAll
    rw [bind_ok hrun]
    exact hrun2

theorem appendAll_append (a : Nat) (us vs : List T) (w : World T) :
    appendAll ops a (us ++ vs) w = (appendAll ops a us >>= fun _ => appendAll ops a vs) w := by
  induction us generalizing w with
  | nil => rfl
  | cons u us ih =>
    simp only [List.cons_append, appendAll, bind_run, M.bind]
    cases hr : Array.insert ops a (.obj u) w with
    | ok r w1 =>
      simp only []
      have := ih w1
      simp only [bind_run, M.bind] at this
      exact this
    | throw w1 => rfl
    | abort w1 => rfl
    | ub => rfl
    | diverge => rfl

/-- C4 (amended): for an element type whose constructors do not throw and preserve the
value, a container freshly constructed by `Array()` (initial capacity
`c0 = 8`) or by `Array(c)` (initial capacity `c0 = normalize_capacity c`), and for every
number n of appends that fits a capacity `c0 * 2^k` representable as `int`, when
`malloc` does not fail the n appends return and leave `size() == n` and
`capacity() >= n`, the container holding the appended values in order. -/
theorem C4_length_after_appends (ops : ElemOps T) (hl : ops.Lawful) (w0 : World T) (a : Nat)
    (ctor : M (World T) Unit) (c0 : Nat)
    (hctor : (ctor = Array.new a ∧ c0 = 8) ∨
      ∃ c : Int, ctor = Array.new_cap a c ∧ (c0 : Int) = normalize_capacity c)
    (vs : List T) (k : Nat) (hbrk : 0 < w0.brk) (hm : ∀ i, w0.mallocFails i = false)
    (hfit : vs.length ≤ c0 * 2 ^ k) (hmax : ((c0 * 2 ^ k : Nat) : Int) ≤ INT_MAX) :
    ∃ w1 cap, (ctor >>= fun _ => appendAll ops a vs) w0 = .ok () w1
      ∧ Holds w1 a vs cap
      ∧ Array.size a w1 = .ok (vs.length : Int) w1
      ∧ Array.capacity a w1 = .ok (cap : Int) w1
      ∧ vs.length ≤ cap := by
  have hc0max : (c0 : Int) ≤ INT_MAX := by
    refine le_trans (Int.ofNat_le.mpr ?_) hmax
    exact Nat.le_mul_of_pos_right c0 (Nat.pos_pow_of_pos _ (by decide))
  have hstart : ∃ w1, ctor w0 = .ok () w1 ∧ Holds w1 a [] c0 ∧ w1.mallocFails = w0.mallocFails
      ∧ 1 ≤ c0 := by
    rcases hctor with ⟨h1, h2⟩ | ⟨c, h1, h2⟩
    · subst h1 h2
      obtain ⟨w1, hr, hh, hf⟩ := new_run w0 a hbrk (hm _)
      exact ⟨w1, hr, hh, hf, by decide⟩
    · subst h1
      obtain ⟨w1, hr, hh, hf⟩ := new_cap_run w0 a c hbrk (hm _) (by rw [← h2]; exact hc0max)
      rw [← h2, Int.toNat_ofNat] at hh
      have hpos : 0 < normalize_capacity c := by
        unfold normalize_capacity kDefaultCapacity
        split_ifs <;> omega
      exact ⟨w1, hr, hh, hf, by omega⟩
  obtain ⟨w1, hr, hh, hf, hc0⟩ := hstart
  have hh0 : Holds w1 a [] (c0 * 2 ^ 0) := by simpa using hh
  obtain ⟨w2, j, hrun, hh2, _⟩ := appendAll_run hl a c0 k hc0 hmax vs [] w1 0 hh0
    (by intro i; rw [hf]; exact hm i) (by simpa using hfit)
  rw [List.nil_append] at hh2
  exact ⟨w2, c0 * 2 ^ j, by rw [bind_ok hr]; exact hrun, hh2, size_ok hh2, capacity_ok hh2,
    hh2.len_le⟩

/-- Witness of C4: nine appends to a default-constructed container (one growth, 8 to 16). -/
theorem C4_length_after_appends_witness :
    ((Array.new 1 = (Array.new 1 : M (World Int) Unit) ∧ 8 = 8) ∨
      ∃ c : Int, (Array.new 1 : M (World Int) Unit) = Array.new_cap 1 c
        ∧ ((8 : Nat) : Int) = normalize_capacity c)
    ∧ 0 < (World.init Int).brk ∧ (∀ i, (World.init Int).mallocFails i = false)
    ∧ [1, 2, 3, 4, 5, 6, 7, 8, 9].length ≤ 8 * 2 ^ 1
    ∧ ((8 * 2 ^ 1 : Nat) : Int) ≤ INT_MAX
    ∧ ∃ w1 cap, (Array.new 1 >>= fun _ => appendAll intOps 1 [1, 2, 3, 4, 5, 6, 7, 8, 9])
          (World.init Int) = .ok () w1
      ∧ Holds w1 1 [1, 2, 3, 4, 5, 6, 7, 8, 9] cap
      ∧ Array.size 1 w1 = .ok (([1, 2, 3, 4, 5, 6, 7, 8, 9] : List Int).length : Int) w1
      ∧ Array.capacity 1 w1 = .ok (cap : Int) w1
      ∧ [1, 2, 3, 4, 5, 6, 7, 8, 9].length ≤ cap :=
  ⟨Or.inl ⟨rfl, rfl⟩, by decide, fun _ => rfl, by decide, by decide,
    C4_length_after_appends intOps intOps_lawful (World.init Int) 1 (Array.new 1) 8
      (Or.inl ⟨rfl, rfl⟩) [1, 2, 3, 4, 5, 6, 7, 8, 9] 1 (by decide) (fun _ => rfl)
      (by decide) (by decide)⟩

/-- C4 as stated fails for n = 2147483648: after `Array(2147483647)` and 2147483647
appends the container is full with `size_ == INT_MAX`; the next append evaluates
`size_ + 1`, which overflows `int`, and does not return. -/
theorem C4_appends_int_overflow :
    (Array.new_cap 1 2147483647 >>= fun _ =>
      appendAll intOps 1 (List.replicate 2147483648 (0 : Int))) (World.init Int) = .ub := by
  obtain ⟨w1, hr, hh, hf⟩ := new_cap_run (World.init Int) 1 2147483647 (by decide) rfl
    (by decide)
  have hn : (normalize_capacity 2147483647).toNat = 2147483647 * 2 ^ 0 := by decide
  rw [hn] at hh
  obtain ⟨w2, j, hrun, hh2, _⟩ := appendAll_run intOps_lawful 1 2147483647 0 (by decide)
    (by decide) (List.replicate 2147483647 (0 : Int)) [] w1 0 hh
    (by intro i; rw [hf]; rfl)
    (by rw [List.length_replicate]; decide)
  have hrep : List.replicate 2147483648 (0 : Int) = List.replicate 2147483647 0 ++ [0] :=
    List.replicate_succ' (n := 2147483647) (a := (0 : Int))
  rw [bind_ok hr, hrep, appendAll_append, bind_ok hrun]
  unfold appendAll
  refine bind_ub (insert_overflow 0 ?_)
  rw [hh2.size_eq, List.nil_append, List.length_replicate]
  rfl

end Appends

section Copy

variable {ops : ElemOps T}

theorem put_put (w : World T) (a p : Nat) (r r1 : Array) (s s1 : List (Option T))
    (c d c1 d1 : Nat) :
    (w.put a r p s c d).put a r1 p s1 c1 d1 = w.put a r1 p s1 (c + c1) (d + d1) := by
  simp [World.put, Nat.add_assoc]

theorem put_self (w : World T) (a p : Nat) (s : List (Option T)) (h : w.heap p = some s) :
    w.put a (w.objs a) p s 0 0 = w := by
  cases w
  simp_all [World.put]

/-- The loop of the copy constructor copies the elements of `other`, in order, into the
raw slots of the new buffer and counts them in `size_`. -/
theorem copy_loop_ok (hl : ops.Lawful) (this other pb pa : Nat) (capB capA : Int)
    (hne : this ≠ other) (hpb : pb ≠ 0) (hpa : pa ≠ 0) (hpp : pb ≠ pa)
    (src : List (Option T)) (E : List (Option T)) (todo : List T) :
    ∀ (done : List T) (B : List (Option T)) (w : World T) (nA : Int) (i : Int),
      B.length = done.length →
      w.objs other = { data_ := pa, size_ := nA, capacity_ := capA } →
      w.objs this = { data_ := pb, size_ := (done.length : Nat), capacity_ := capB } →
      w.heap pa = some (B ++ (todo.map some ++ src)) →
      w.heap pb = some (done.map some ++ (List.replicate todo.length none ++ E)) →
      ((done.length + todo.length : Nat) : Int) ≤ INT_MAX →
      i = (done.length : Nat) →
      copy_loop ops this other todo.length i w
        = .ok () (w.put this
            { data_ := pb, size_ := ((done.length + todo.length : Nat) : Int), capacity_ := capB }
            pb ((done ++ todo).map some ++ E) todo.length 0) := by
  induction todo with
  | nil =>
    intro done B w nA i _ _ hthis _ hb _ _
    simp only [List.length_nil, copy_loop, pure_run, List.append_nil, List.replicate_zero,
      List.nil_append, Nat.add_zero] at *
    rw [← hthis, put_self _ _ _ _ hb]
  | cons x todo ih =>
    intro done B w nA i hB hother hthis hba hbb hmax hi
    simp only [List.length_cons, List.map_cons, List.cons_append, List.replicate_succ] at *
    unfold copy_loop
    rw [bind_ok (getObj_run other w), bind_ok (getObj_run this w), hother, hthis]
    simp only []
    have hget : (B ++ some x :: (List.map some todo ++ src))[done.length]? = some (some x) := by
      rw [← hB]
      exact getElem?_mid _ _ _
    rw [bind_ok (readSlot_ok hpa hba hi hget)]
    have hgetn : (List.map some done ++ none :: (List.replicate todo.length none ++ E))[done.length]?
        = some none := by
      have := getElem?_mid (done.map some) (List.replicate todo.length none ++ E) (none : Option T)
      rwa [List.length_map] at this
    rw [bind_ok (construct_at_copy_ok hl x hpb hbb hi hgetn)]
    have hmax2 := hmax
    simp only [INT_MAX] at hmax2
    rw [bind_ok (toInt_ok _ _ (by simp only [INT_MIN]; omega) (by simp only [INT_MAX]; omega))]
    rw [bind_ok (setObj_run _ _ _)]
    have hsetn := set_mid (done.map some) (List.replicate todo.length none ++ E) none (some x)
    rw [List.length_map] at hsetn
    rw [hsetn]
    rw [ih (done ++ [x]) (B ++ [some x]) _ nA (i + 1) (by simp [hB])
      (by simp [World.upd, hne.symm, hother])
      (by simp [World.upd])
      (by simp [World.upd, hpp.symm, hba])
      (by simp [World.upd])
      (by simp only [List.length_append, List.length_cons, List.length_nil]
          rw [Nat.add_assoc, Nat.add_comm 1]
          exact hmax)
      (by simp [hi])]
    simp only [World.put, World.upd, Function.update_idem, List.length_append,
      List.length_cons, List.length_nil, List.append_assoc, List.cons_append, List.nil_append]
    have e1 : done.length + (0 + 1) + todo.length = done.length + (todo.length + 1) := by omega
    have e2 : w.ctors + 1 + todo.length = w.ctors + (todo.length + 1) := by omega
    rw [e1, e2]

theorem Holds.obj_eq {w : World T} {a : Nat} {xs : List T} {cap : Nat} (h : Holds w a xs cap) :
    w.objs a = { data_ := (w.objs a).data_, size_ := xs.length, capacity_ := cap } := by
  rw [← h.size_eq, ← h.cap_eq]

/-- `Holds` only depends on the object, its block and the allocation frontier. -/
theorem Holds.frame {w w1 : World T} {a : Nat} {xs : List T} {cap : Nat} (h : Holds w a xs cap)
    (ho : w1.objs a = w.objs a) (hh : w1.heap (w.objs a).data_ = w.heap (w.objs a).data_)
    (hb : w.brk ≤ w1.brk) : Holds w1 a xs cap := by
  refine ⟨?_, ?_, h.len_le, h.cap_le, ?_, ?_, ?_, ?_⟩
  · rw [ho]
    exact h.size_eq
  · rw [ho]
    exact h.cap_eq
  · exact lt_of_lt_of_le h.brk_pos hb
  · rw [ho]
    exact lt_of_lt_of_le h.data_lt hb
  · rw [ho]
    exact h.null_iff
  · intro hc
    rw [ho, hh]
    exact h.buf hc

theorem tryCatch_ok {σ α : Type} {body handler : M σ α} {s s1 : σ} {x : α}
    (h : body s = .ok x s1) : tryCatch body handler s = .ok x s1 := by
  simp [tryCatch, h]

/-- The copy constructor: `this` receives a fresh buffer with a copy of every element
of `other`, which is not changed. -/
theorem copy_ctor_run (hl : ops.Lawful) {w : World T} {a b : Nat} {xs : List T} {cap : Nat}
    (h : Holds w a xs cap) (hab : b ≠ a) (hm : w.mallocFails w.mallocCalls = false) :
    ∃ w1, Array.copy_ctor ops b a w = .ok () w1
      ∧ Holds w1 b xs (if cap = 0 then 8 else cap)
      ∧ Holds w1 a xs cap
      ∧ (w1.objs b).data_ = w.brk
      ∧ (∀ o, o ≠ b → w1.objs o = w.objs o)
      ∧ (∀ q, q < w.brk → w1.heap q = w.heap q)
      ∧ w1.brk = w.brk + 1
      ∧ w1.mallocFails = w.mallocFails := by
  have hlen := h.len_le
  have hbrk := h.brk_pos
  have hcapmax := h.cap_le
  have hnb : w.brk ≠ 0 := by omega
  have hlt := h.data_lt
  have hnbp : w.brk ≠ (w.objs a).data_ := by omega
  have hobj := h.obj_eq
  generalize hcapB : (if cap = 0 then 8 else cap) = capB
  have hcapB2 : (if (w.objs a).capacity_ > 0 then (w.objs a).capacity_ else kDefaultCapacity)
      = (capB : Int) := by
    rw [h.cap_eq, ← hcapB, kDefaultCapacity]
    split_ifs <;> first | rfl | omega
  have hcapBpos : 0 < capB := by
    rw [← hcapB]
    split_ifs <;> omega
  have hcapBge : cap ≤ capB := by
    rw [← hcapB]
    split_ifs <;> omega
  have hcapBmax : (capB : Int) ≤ INT_MAX := by
    rw [← hcapB]
    split_ifs
    · decide
    · exact hcapmax
  unfold Array.copy_ctor
  rw [bind_ok (getObj_run a w)]
  simp only [hcapB2]
  rw [bind_ok (allocate_raw_ok (by omega) hbrk hm), bind_ok (setObj_run _ _ _)]
  simp only [Int.toNat_ofNat]
  have hsn : (w.objs a).size_.toNat = xs.length := by
    rw [h.size_eq]
    simp
  rw [hsn]
  have hrep : List.replicate capB (none : Option T)
      = List.replicate xs.length none ++ List.replicate (capB - xs.length) none := by
    rw [← List.replicate_add]
    congr 1
    omega
  by_cases hc : cap = 0
  · have hxs : xs = [] := by
      apply List.eq_nil_of_length_eq_zero
      omega
    subst hxs
    rw [tryCatch_ok (by rfl)]
    refine ⟨_, rfl, holds_of_parts (p := w.brk) ?_ ?_ ?_ hcapBmax ?_ ?_ ?_,
      h.frame ?_ ?_ ?_, ?_, ?_, ?_, rfl, rfl⟩
    · simp
    · intro _
      simp [slotsOf]
    · simp
    · simp
    · simp
    · constructor <;> intro h0 <;> omega
    · simp [hab.symm]
    · simp [hnbp.symm]
    · simp
    · simp
    · intro o ho
      simp [ho]
    · intro q hq
      have : q ≠ w.brk := by omega
      simp [this]
  · have hpa : (w.objs a).data_ ≠ 0 := h.data_ne hc
    have hb := h.buf hc
    have hloop := copy_loop_ok hl b a w.brk (w.objs a).data_ capB cap hab hnb
      hpa hnbp (List.replicate (cap - xs.length) none) (List.replicate (capB - xs.length) none)
      xs [] []
      { objs := Function.update w.objs b { data_ := w.brk, size_ := 0, capacity_ := capB },
        heap := Function.update w.heap w.brk (some (List.replicate capB none)),
        brk := w.brk + 1,
        mallocFails := w.mallocFails,
        mallocCalls := w.mallocCalls + 1,
        ctors := w.ctors,
        dtors := w.dtors } (xs.length : Int) 0 rfl
      (by simp only [Function.update_noteq hab.symm]; exact hobj)
      (by simp)
      (by simp only [Function.update_noteq hnbp.symm, List.nil_append]; exact hb)
      (by simp [hrep])
      (by simp only [List.length_nil, Nat.zero_add]
          exact le_trans (Int.ofNat_le.mpr (le_trans hlen hcapBge)) hcapBmax)
      (by simp)
    rw [tryCatch_ok hloop]
    refine ⟨_, rfl, holds_of_parts (p := w.brk) ?_ ?_ ?_ hcapBmax ?_ ?_ ?_,
      h.frame ?_ ?_ ?_, ?_, ?_, ?_, rfl, rfl⟩
    · simp [World.put]
    · intro _
      simp [World.put, slotsOf]
    · omega
    · simp [World.put]
    · simp [World.put]
    · constructor <;> intro h0 <;> omega
    · simp [World.put, hab.symm]
    · simp [World.put, hnbp.symm]
    · simp [World.put]
    · simp [World.put]
    · intro o ho
      simp [World.put, ho]
    · intro q hq
      have : q ≠ w.brk := by omega
      simp [World.put, this]

end Copy

section Move

theorem destroy_range_ok {w : World T} {a : Nat} {xs : List T} {cap : Nat} (h : Holds w a xs cap)
    (hc : cap ≠ 0) :
    destroy_range (w.objs a).data_ (w.objs a).size_ w
      = .ok () (w.upd (w.objs a).data_ (List.replicate cap none) 0 xs.length) := by
  have hdr := destroy_range_loop_ok (h.data_ne hc) xs [] (List.replicate (cap - xs.length) none)
    w 0 (by rw [h.buf hc]; rfl) rfl
  unfold destroy_range
  rw [h.size_eq, Int.toNat_ofNat, hdr]
  have hlen := h.len_le
  have e : ([] : List (Option T)) ++ (List.replicate xs.length none ++
      List.replicate (cap - xs.length) none) = List.replicate cap none := by
    rw [List.nil_append, ← List.replicate_add]
    congr 1
    omega
  rw [e]

/-- What `clear_and_free` does to a container holding `ys`: the elements are destroyed,
the buffer is released and the object is left in the empty state. -/
theorem clear_and_free_run {w : World T} {c : Nat} {ys : List T} {capC : Nat}
    (h : Holds w c ys capC) :
    clear_and_free c w = .ok ()
      { w with
        objs := Function.update w.objs c { data_ := 0, size_ := 0, capacity_ := 0 }
        heap := if capC = 0 then w.heap else Function.update w.heap (w.objs c).data_ none
        dtors := if capC = 0 then w.dtors else w.dtors + ys.length } := by
  unfold clear_and_free
  rw [bind_ok (getObj_run c w)]
  by_cases hc : capC = 0
  · have hp0 : (w.objs c).data_ = 0 := h.null_iff.mpr hc
    simp only [hp0, ne_eq, not_true_eq_false, if_false, hc, if_true]
    rw [bind_ok (pure_run _ _), setObj_run]
  · have hp := h.data_ne hc
    simp only [ne_eq, hp, not_false_eq_true, if_true, hc, if_false]
    have hin : (do
        destroy_range (w.objs c).data_ (w.objs c).size_
        free (w.objs c).data_ : M (World T) Unit) w
        = .ok () { (w.upd (w.objs c).data_ (List.replicate capC none) 0 ys.length) with
            heap := Function.update
              (w.upd (w.objs c).data_ (List.replicate capC none) 0 ys.length).heap
              (w.objs c).data_ none } := by
      rw [bind_ok (destroy_range_ok h hc)]
      exact free_ok hp (upd_heap_self _ _ _ _ _)
    rw [bind_ok hin, setObj_run]
    simp [World.upd]

/-- C6: moving the container at `a` (holding `xs` in `cap` slots) into `c`, by move
construction or by move assignment into a distinct target that owns a different
buffer, gives `c` exactly the elements, length, capacity and buffer of `a` without
constructing any element, and leaves `a` empty: `size() == 0`, `capacity() == 0`,
storage null. -/
theorem C6_move_transfers_contents (w : World T) (a c : Nat) (xs : List T) (cap : Nat)
    (h : Holds w a xs cap) (hca : c ≠ a) :
    (∃ w1, Array.move_ctor c a w = .ok () w1
      ∧ Holds w1 c xs cap ∧ (w1.objs c).data_ = (w.objs a).data_
      ∧ w1.objs a = { data_ := 0, size_ := 0, capacity_ := 0 }
      ∧ Array.size a w1 = .ok 0 w1 ∧ Array.capacity a w1 = .ok 0 w1
      ∧ w1.ctors = w.ctors)
    ∧ (∀ (ys : List T) (capC : Nat), Holds w c ys capC →
        (capC = 0 ∨ (w.objs c).data_ ≠ (w.objs a).data_) →
        ∃ w1, Array.move_assign c a w = .ok () w1
          ∧ Holds w1 c xs cap ∧ (w1.objs c).data_ = (w.objs a).data_
          ∧ w1.objs a = { data_ := 0, size_ := 0, capacity_ := 0 }
          ∧ Array.size a w1 = .ok 0 w1 ∧ Array.capacity a w1 = .ok 0 w1
          ∧ w1.ctors = w.ctors) := by
  have hobj := h.obj_eq
  constructor
  · refine ⟨_, rfl, holds_of_parts (p := (w.objs a).data_) ?_ ?_ h.len_le h.cap_le h.brk_pos
      h.data_lt h.null_iff, ?_, ?_, ?_, ?_, rfl⟩
    · simp [Function.update_noteq hca, h.size_eq, h.cap_eq]
    · exact h.buf
    · simp [Function.update_noteq hca]
    · simp
    · simp [Array.size, M.bind]
    · simp [Array.capacity, M.bind]
  · intro ys capC hc hsep
    unfold Array.move_assign
    simp only [hca, if_false]
    rw [bind_ok (clear_and_free_run hc)]
    simp only [bind_run, M.bind, getObj_run, setObj_run, Function.update_same,
      Function.update_idem, Function.update_noteq hca.symm]
    refine ⟨_, rfl, holds_of_parts (p := (w.objs a).data_) ?_ ?_ h.len_le h.cap_le h.brk_pos
      h.data_lt h.null_iff, ?_, ?_, ?_, ?_, ?_⟩
    · simp [Function.update_noteq hca, h.size_eq, h.cap_eq]
    · intro hcap
      have hpa := h.data_ne hcap
      by_cases hc0 : capC = 0
      · simp only [hc0, if_true]
        exact h.buf hcap
      · simp only [hc0, if_false]
        have hne : (w.objs a).data_ ≠ (w.objs c).data_ := by
          rcases hsep with h1 | h1
          · exact absurd h1 hc0
          · exact h1.symm
        rw [Function.update_noteq hne]
        exact h.buf hcap
    · simp [Function.update_noteq hca]
    · simp
    · simp [Array.size, M.bind]
    · simp [Array.capacity, M.bind]
    · rfl

/-- Witness of C6: moving object 2 (`[1,2,3]`, capacity 4) into object 1, by move
construction and by move assignment over its former contents (`[9]`, capacity 2). -/
theorem C6_move_transfers_contents_witness :
    Holds (World.pair [9] 2 [1, 2, 3] 4 false) 2 [1, 2, 3] 4 ∧ (1 : Nat) ≠ 2
    ∧ (∃ w1, Array.move_ctor 1 2 (World.pair [9] 2 [1, 2, 3] 4 false) = .ok () w1
      ∧ Holds w1 1 [1, 2, 3] 4
      ∧ (w1.objs 1).data_ = ((World.pair [9] 2 [1, 2, 3] 4 false).objs 2).data_
      ∧ w1.objs 2 = { data_ := 0, size_ := 0, capacity_ := 0 }
      ∧ Array.size 2 w1 = .ok 0 w1 ∧ Array.capacity 2 w1 = .ok 0 w1
      ∧ w1.ctors = (World.pair [9] 2 [1, 2, 3] 4 false).ctors)
    ∧ (∃ w1, Array.move_assign 1 2 (World.pair [9] 2 [1, 2, 3] 4 false) = .ok () w1
      ∧ Holds w1 1 [1, 2, 3] 4
      ∧ (w1.objs 1).data_ = ((World.pair [9] 2 [1, 2, 3] 4 false).objs 2).data_
      ∧ w1.objs 2 = { data_ := 0, size_ := 0, capacity_ := 0 }
      ∧ Array.size 2 w1 = .ok 0 w1 ∧ Array.capacity 2 w1 = .ok 0 w1
      ∧ w1.ctors = (World.pair [9] 2 [1, 2, 3] 4 false).ctors) :=
  have h1 : Holds (World.pair [9] 2 [1, 2, 3] 4 false) 1 [9] 2 :=
    ⟨rfl, rfl, by decide, by decide, by decide, by decide, by decide, fun _ => rfl⟩
  have h2 : Holds (World.pair [9] 2 [1, 2, 3] 4 false) 2 [1, 2, 3] 4 :=
    ⟨rfl, rfl, by decide, by decide, by decide, by decide, by decide, fun _ => rfl⟩
  have t := C6_move_transfers_contents (World.pair [9] 2 [1, 2, 3] 4 false) 2 1 [1, 2, 3] 4 h2
    (by decide)
  ⟨h2, by decide, t.1, t.2 [9] 2 h1 (Or.inr (by decide))⟩

end Move

section FrameRules

variable {σ α β : Type} {I : σ → Prop}

theorem Keeps.pure (x : α) (Q : α → Prop) (hq : Q x) : Keeps I (pure x : M σ α) Q :=
  fun _ hs => ⟨hs, hq⟩

theorem Keeps.raise (Q : α → Prop) : Keeps I (raise : M σ α) Q :=
  fun _ hs => hs

theorem Keeps.undefined (Q : α → Prop) : Keeps I (undefined : M σ α) Q :=
  fun _ _ => trivial

theorem Keeps.outOfFuel (Q : α → Prop) : Keeps I (outOfFuel : M σ α) Q :=
  fun _ _ => trivial

theorem Keeps.bind {m : M σ α} {f : α → M σ β} {Q : α → Prop} {Q1 : β → Prop}
    (h1 : Keeps I m Q) (h2 : ∀ x, Q x → Keeps I (f x) Q1) : Keeps I (m >>= f) Q1 := by
  intro s hs
  have h := h1 s hs
  simp only [bind_run, M.bind]
  cases hm : m s with
  | ok x s1 =>
    rw [hm] at h
    exact h2 x h.2 s1 h.1
  | throw s1 =>
    rw [hm] at h
    exact h
  | abort s1 =>
    rw [hm] at h
    exact h
  | ub => trivial
  | diverge => trivial

theorem Keeps.weaken {m : M σ α} {Q Q1 : α → Prop} (h : Keeps I m Q) (hq : ∀ x, Q x → Q1 x) :
    Keeps I m Q1 := by
  intro s hs
  have h1 := h s hs
  cases hm : m s with
  | ok x s1 =>
    rw [hm] at h1
    exact ⟨h1.1, hq x h1.2⟩
  | throw s1 =>
    rw [hm] at h1
    exact h1
  | abort s1 =>
    rw [hm] at h1
    exact h1
  | ub => trivial
  | diverge => trivial

theorem Keeps.ite {c : Prop} [Decidable c] {m1 m2 : M σ α} {Q : α → Prop}
    (h1 : c → Keeps I m1 Q) (h2 : ¬ c → Keeps I m2 Q) : Keeps I (if c then m1 else m2) Q := by
  by_cases hc : c
  · simp only [hc, if_true]
    exact h1 hc
  · simp only [hc, if_false]
    exact h2 hc

theorem Keeps.assert (c : Bool) : Keeps I (assert c : M σ Unit) (fun _ => c = true) := by
  intro s hs
  cases c
  · show I s
    exact hs
  · show I s ∧ true = true
    exact ⟨hs, rfl⟩

theorem Keeps.toInt (x : Int) :
    Keeps I (toInt x : M σ Int) (fun y => y = x ∧ INT_MIN ≤ x ∧ x ≤ INT_MAX) := by
  intro s hs
  unfold DynamicArray.toInt
  by_cases h : INT_MIN ≤ x ∧ x ≤ INT_MAX
  · rw [if_pos h]
    exact ⟨hs, rfl, h⟩
  · rw [if_neg h]
    trivial

theorem Keeps.tryCatch {body handler : M σ α} {Q : α → Prop} (h1 : Keeps I body Q)
    (h2 : Keeps I handler Q) : Keeps I (tryCatch body handler) Q := by
  intro s hs
  have h := h1 s hs
  unfold DynamicArray.tryCatch
  cases hm : body s with
  | ok x s1 =>
    rw [hm] at h
    exact h
  | throw s1 =>
    rw [hm] at h
    exact h2 s1 h
  | abort s1 =>
    rw [hm] at h
    exact h
  | ub => trivial
  | diverge => trivial

theorem Keeps.tryCatchLocal {L : Type} {body : σ → L × Res σ α} {handler : L → M σ α}
    {Q : α → Prop} (h1 : Keeps I (fun s => (body s).2) Q) (h2 : ∀ l, Keeps I (handler l) Q) :
    Keeps I (tryCatchLocal body handler) Q := by
  intro s hs
  have h := h1 s hs
  unfold DynamicArray.tryCatchLocal
  simp only [] at h
  rcases hb : body s with ⟨l, r⟩
  rw [hb] at h
  cases r with
  | ok x s1 => exact h
  | throw s1 => exact h2 l s1 h
  | abort s1 => exact h
  | ub => trivial
  | diverge => trivial

end FrameRules

section FramePrimitives

variable {a b : Nat} {xs : List T} {cap pa : Nat}

theorem Guard.reframe {w w1 : World T} (g : Guard a b xs cap pa w)
    (ho : w1.objs a = w.objs a) (hb : (w1.objs b).data_ = 0 ∨ (w1.objs b).data_ ≠ pa)
    (hh : w1.heap pa = w.heap pa) (hbrk : w.brk ≤ w1.brk) : Guard a b xs cap pa w1 :=
  ⟨g.holds.frame ho (by rw [g.data_eq]; exact hh) hbrk, by rw [ho]; exact g.data_eq, hb⟩

theorem block_null (w : World T) : w.block 0 = none := by
  simp [World.block]

theorem block_of_ne {w : World T} {p : Nat} (hp : p ≠ 0) : w.block p = w.heap p := by
  simp [World.block, hp]

/-- A write to a block other than the guarded one keeps the guard. -/
theorem Guard.heap_update {w : World T} (g : Guard a b xs cap pa w) {p : Nat} (hp : p ≠ pa)
    (v : Option (List (Option T))) (c d : Nat) :
    Guard a b xs cap pa { w with heap := Function.update w.heap p v, ctors := c, dtors := d } :=
  g.reframe rfl g.off (by simp [Function.update_noteq hp.symm]) (le_refl _)

theorem keeps_getObj_b :
    Keeps (Guard a b xs cap pa) (getObj b : M (World T) Array)
      (fun r => r.data_ = 0 ∨ r.data_ ≠ pa) :=
  fun _ g => ⟨g, g.off⟩

theorem keeps_setObj_b (hab : a ≠ b) (r : Array) (hr : r.data_ = 0 ∨ r.data_ ≠ pa) :
    Keeps (Guard a b xs cap pa) (setObj b r : M (World T) Unit) (fun _ => True) := by
  intro w g
  refine ⟨g.reframe ?_ ?_ rfl (le_refl _), trivial⟩
  · simp [Function.update_noteq hab]
  · simpa using hr

theorem keeps_readSlot (p : Nat) (i : Int) :
    Keeps (Guard a b xs cap pa) (readSlot p i : M (World T) T) (fun _ => True) := by
  intro w g
  unfold readSlot
  cases w.block p with
  | none => trivial
  | some slots =>
    simp only []
    split_ifs
    · cases slots[i.toNat]? with
      | none => trivial
      | some o =>
        cases o with
        | none => trivial
        | some v => exact ⟨g, trivial⟩
    · trivial

theorem keeps_writeSlot (p : Nat) (i : Int) (v : T) (hp : p = 0 ∨ p ≠ pa) :
    Keeps (Guard a b xs cap pa) (writeSlot p i v : M (World T) Unit) (fun _ => True) := by
  intro w g
  unfold writeSlot
  rcases hp with hp | hp
  · rw [hp, block_null]
    trivial
  · cases w.block p with
    | none => trivial
    | some slots =>
      simp only []
      split_ifs
      · cases slots[i.toNat]? with
        | none => trivial
        | some o =>
          cases o with
          | none => trivial
          | some v => exact ⟨g.heap_update hp _ _ _, trivial⟩
      · trivial

theorem keeps_place (p : Nat) (i : Int) (v : T) (hp : p = 0 ∨ p ≠ pa) :
    Keeps (Guard a b xs cap pa) (place p i v : M (World T) Unit) (fun _ => True) := by
  intro w g
  unfold place
  rcases hp with hp | hp
  · rw [hp, block_null]
    trivial
  · cases w.block p with
    | none => trivial
    | some slots =>
      simp only []
      split_ifs
      · cases slots[i.toNat]? with
        | none => trivial
        | some o =>
          cases o with
          | none => exact ⟨g.heap_update hp _ _ _, trivial⟩
          | some v => trivial
      · trivial

theorem keeps_destroy_one (p : Nat) (i : Int) (hp : p = 0 ∨ p ≠ pa) :
    Keeps (Guard a b xs cap pa) (destroy_one p i : M (World T) Unit) (fun _ => True) := by
  intro w g
  unfold destroy_one
  rcases hp with hp | hp
  · rw [hp, block_null]
    trivial
  · cases w.block p with
    | none => trivial
    | some slots =>
      simp only []
      split_ifs
      · cases slots[i.toNat]? with
        | none => trivial
        | some o =>
          cases o with
          | none => trivial
          | some v => exact ⟨g.heap_update hp _ _ _, trivial⟩
      · trivial

theorem keeps_malloc (n : Nat) :
    Keeps (Guard a b xs cap pa) (malloc n : M (World T) Nat) (fun x => x = 0 ∨ x ≠ pa) := by
  intro w g
  unfold malloc
  have hlt : pa < w.brk := by
    rw [← g.data_eq]
    exact g.holds.data_lt
  split_ifs
  · exact ⟨g.reframe rfl g.off rfl (le_refl _), Or.inl rfl⟩
  · refine ⟨g.reframe rfl g.off ?_ (Nat.le_succ _), Or.inr (by omega)⟩
    have : pa ≠ w.brk := by omega
    simp [Function.update_noteq this]

theorem keeps_free (p : Nat) (hp : p = 0 ∨ p ≠ pa) :
    Keeps (Guard a b xs cap pa) (free p : M (World T) Unit) (fun _ => True) := by
  intro w g
  unfold free
  by_cases h0 : p = 0
  · simp only [h0, if_true]
    exact ⟨g, trivial⟩
  · simp only [h0, if_false]
    have hne : p ≠ pa := by
      rcases hp with hp | hp
      · exact absurd hp h0
      · exact hp
    cases w.heap p with
    | none => trivial
    | some _ =>
      exact ⟨g.reframe rfl g.off (by simp [Function.update_noteq hne.symm]) (le_refl _), trivial⟩

end FramePrimitives

section FrameOps

variable {a b : Nat} {xs : List T} {cap pa : Nat} (ops : ElemOps T)

theorem keeps_allocate_raw (n : Int) :
    Keeps (Guard a b xs cap pa) (allocate_raw n : M (World T) Nat)
      (fun x => x = 0 ∨ x ≠ pa) := by
  unfold allocate_raw
  refine Keeps.ite (fun _ => Keeps.pure 0 _ (Or.inl rfl)) (fun _ => ?_)
  refine Keeps.bind (keeps_malloc _) (fun mem hmem => ?_)
  exact Keeps.ite (fun _ => Keeps.raise _) (fun _ => Keeps.pure mem _ hmem)

theorem keeps_destroy_range_loop (p : Nat) (hp : p = 0 ∨ p ≠ pa) :
    ∀ (k : Nat) (i : Int),
      Keeps (Guard a b xs cap pa) (destroy_range_loop p k i : M (World T) Unit) (fun _ => True)
  | 0, _ => Keeps.pure () _ trivial
  | k + 1, i => by
    unfold destroy_range_loop
    exact Keeps.bind (keeps_destroy_one p i hp)
      (fun _ _ => keeps_destroy_range_loop p hp k (i + 1))

theorem keeps_destroy_range (p : Nat) (n : Int) (hp : p = 0 ∨ p ≠ pa) :
    Keeps (Guard a b xs cap pa) (destroy_range p n : M (World T) Unit) (fun _ => True) :=
  keeps_destroy_range_loop p hp _ _

theorem keeps_construct_at_copy (p : Nat) (i : Int) (v : T) (hp : p = 0 ∨ p ≠ pa) :
    Keeps (Guard a b xs cap pa) (construct_at_copy ops p i v) (fun _ => True) := by
  unfold construct_at_copy
  cases ops.copy v with
  | none => exact Keeps.raise _
  | some y => exact keeps_place p i y hp

theorem keeps_construct_at_move (p : Nat) (i : Int) (v : T) (hp : p = 0 ∨ p ≠ pa) :
    Keeps (Guard a b xs cap pa) (construct_at_move ops p i v) (fun _ => True) := by
  unfold construct_at_move
  cases ops.move v with
  | none => exact Keeps.raise _
  | some y => exact keeps_place p i y.1 hp

theorem keeps_construct_at_from_slot (p : Nat) (i : Int) (q : Nat) (j : Int)
    (hp : p = 0 ∨ p ≠ pa) (hq : q = 0 ∨ q ≠ pa) :
    Keeps (Guard a b xs cap pa) (construct_at_from_slot ops p i q j) (fun _ => True) := by
  unfold construct_at_from_slot
  refine Keeps.ite (fun _ => ?_) (fun _ => ?_)
  · unfold construct_at_move_slot
    refine Keeps.bind (keeps_readSlot q j) (fun x _ => ?_)
    cases ops.move x with
    | none => exact Keeps.raise _
    | some y =>
      exact Keeps.bind (keeps_writeSlot q j y.2 hq) (fun _ _ => keeps_place p i y.1 hp)
  · exact Keeps.bind (keeps_readSlot q j) (fun x _ => keeps_construct_at_copy ops p i x hp)

theorem keeps_grow_loop (min : Int) :
    ∀ (fuel : Nat) (nc : Int),
      Keeps (Guard a b xs cap pa) (grow_loop min fuel nc : M (World T) Int) (fun _ => True)
  | 0, nc => by
    unfold grow_loop
    exact Keeps.ite (fun _ => Keeps.outOfFuel _) (fun _ => Keeps.pure nc _ trivial)
  | fuel + 1, nc => by
    unfold grow_loop
    refine Keeps.ite (fun _ => ?_) (fun _ => Keeps.pure nc _ trivial)
    refine Keeps.bind (Keeps.toInt _) (fun grown _ => ?_)
    refine Keeps.bind (Q := fun _ => True) ?_ (fun next _ => keeps_grow_loop min fuel next)
    exact Keeps.ite (fun _ => Keeps.pure grown _ trivial)
      (fun _ => (Keeps.toInt _).weaken (fun _ _ => trivial))

theorem keeps_relocate_loop (nb p : Nat) (hnb : nb = 0 ∨ nb ≠ pa) (hp : p = 0 ∨ p ≠ pa) :
    ∀ (k : Nat) (i c : Int),
      Keeps (Guard a b xs cap pa) (fun s => (relocate_loop ops nb p k i c s).2) (fun _ => True)
  | 0, _, _ => fun _ g => ⟨g, trivial⟩
  | k + 1, i, c => by
    intro w g
    have h := keeps_construct_at_from_slot ops nb i p i hnb hp w g
    simp only [relocate_loop]
    cases hm : construct_at_from_slot ops nb i p i w with
    | ok x w1 =>
      rw [hm] at h
      exact keeps_relocate_loop nb p hnb hp k (i + 1) (c + 1) w1 h.1
    | throw w1 =>
      rw [hm] at h
      exact h
    | abort w1 =>
      rw [hm] at h
      exact h
    | ub => trivial
    | diverge => trivial

theorem keeps_ensure_capacity (hab : a ≠ b) (min : Int) :
    Keeps (Guard a b xs cap pa) (ensure_capacity ops b min) (fun _ => True) := by
  unfold ensure_capacity
  refine Keeps.bind keeps_getObj_b (fun r hr => ?_)
  refine Keeps.ite (fun _ => Keeps.pure () _ trivial) (fun _ => ?_)
  refine Keeps.bind (keeps_grow_loop min _ _) (fun nc _ => ?_)
  refine Keeps.bind (keeps_allocate_raw nc) (fun nb hnb => ?_)
  refine Keeps.bind (Q := fun _ => True) ?_ (fun _ _ => ?_)
  · refine Keeps.tryCatchLocal (keeps_relocate_loop ops nb r.data_ hnb hr _ _ _) (fun l => ?_)
    refine Keeps.bind (keeps_destroy_range nb l hnb) (fun _ _ => ?_)
    exact Keeps.bind (keeps_free nb hnb) (fun _ _ => Keeps.raise _)
  · refine Keeps.bind (keeps_destroy_range r.data_ r.size_ hr) (fun _ _ => ?_)
    exact Keeps.bind (keeps_free r.data_ hr) (fun _ _ => keeps_setObj_b hab _ hnb)

theorem keeps_shift_right_loop (p : Nat) (hp : p = 0 ∨ p ≠ pa) :
    ∀ (k : Nat) (i : Int),
      Keeps (Guard a b xs cap pa) (shift_right_loop ops p k i) (fun _ => True)
  | 0, _ => Keeps.pure () _ trivial
  | k + 1, i => by
    unfold shift_right_loop
    refine Keeps.bind (keeps_construct_at_from_slot ops p i p (i - 1) hp hp) (fun _ _ => ?_)
    exact Keeps.bind (keeps_destroy_one p (i - 1) hp)
      (fun _ _ => keeps_shift_right_loop p hp k (i - 1))

theorem keeps_shift_left_loop (p : Nat) (hp : p = 0 ∨ p ≠ pa) :
    ∀ (k : Nat) (i : Int),
      Keeps (Guard a b xs cap pa) (shift_left_loop ops p k i) (fun _ => True)
  | 0, _ => Keeps.pure () _ trivial
  | k + 1, i => by
    unfold shift_left_loop
    refine Keeps.bind (keeps_construct_at_from_slot ops p i p (i + 1) hp hp) (fun _ _ => ?_)
    exact Keeps.bind (keeps_destroy_one p (i + 1) hp)
      (fun _ _ => keeps_shift_left_loop p hp k (i + 1))

theorem keeps_shift_right (idx : Int) :
    Keeps (Guard a b xs cap pa) (shift_right ops b idx) (fun _ => True) := by
  unfold shift_right
  exact Keeps.bind keeps_getObj_b (fun r hr => keeps_shift_right_loop ops r.data_ hr _ _)

theorem keeps_shift_left (idx : Int) :
    Keeps (Guard a b xs cap pa) (shift_left ops b idx) (fun _ => True) := by
  unfold shift_left
  refine Keeps.bind keeps_getObj_b (fun r hr => ?_)
  exact Keeps.bind (Keeps.toInt _) (fun _ _ => keeps_shift_left_loop ops r.data_ hr _ _)

theorem keeps_insert (hab : a ≠ b) (v : T) :
    Keeps (Guard a b xs cap pa) (Array.insert ops b (.obj v)) (fun _ => True) := by
  unfold Array.insert
  simp only [construct_at_copy_ref, construct_at_move_ref]
  refine Keeps.bind keeps_getObj_b (fun _ _ => ?_)
  refine Keeps.bind (Keeps.toInt _) (fun m _ => ?_)
  refine Keeps.bind (keeps_ensure_capacity ops hab m) (fun _ _ => ?_)
  refine Keeps.bind keeps_getObj_b (fun r hr => ?_)
  refine Keeps.bind (keeps_construct_at_copy ops r.data_ r.size_ v hr) (fun _ _ => ?_)
  refine Keeps.bind (Keeps.toInt _) (fun n _ => ?_)
  exact Keeps.bind (keeps_setObj_b hab _ hr) (fun _ _ => Keeps.pure _ _ trivial)

theorem keeps_insert_rv (hab : a ≠ b) (v : T) :
    Keeps (Guard a b xs cap pa) (Array.insert_rv ops b (.obj v)) (fun _ => True) := by
  unfold Array.insert_rv
  simp only [construct_at_copy_ref, construct_at_move_ref]
  refine Keeps.bind keeps_getObj_b (fun _ _ => ?_)
  refine Keeps.bind (Keeps.toInt _) (fun m _ => ?_)
  refine Keeps.bind (keeps_ensure_capacity ops hab m) (fun _ _ => ?_)
  refine Keeps.bind keeps_getObj_b (fun r hr => ?_)
  refine Keeps.bind (keeps_construct_at_move ops r.data_ r.size_ v hr) (fun _ _ => ?_)
  refine Keeps.bind (Keeps.toInt _) (fun n _ => ?_)
  exact Keeps.bind (keeps_setObj_b hab _ hr) (fun _ _ => Keeps.pure _ _ trivial)

theorem keeps_insert_at (hab : a ≠ b) (k : Int) (v : T) :
    Keeps (Guard a b xs cap pa) (Array.insert_at ops b k (.obj v)) (fun _ => True) := by
  unfold Array.insert_at
  simp only [construct_at_copy_ref, construct_at_move_ref]
  refine Keeps.bind keeps_getObj_b (fun _ _ => ?_)
  refine Keeps.bind (Keeps.assert _) (fun _ _ => ?_)
  refine Keeps.bind (Keeps.toInt _) (fun m _ => ?_)
  refine Keeps.bind (keeps_ensure_capacity ops hab m) (fun _ _ => ?_)
  refine Keeps.bind (keeps_shift_right ops k) (fun _ _ => ?_)
  refine Keeps.bind keeps_getObj_b (fun r hr => ?_)
  refine Keeps.bind (keeps_construct_at_copy ops r.data_ k v hr) (fun _ _ => ?_)
  refine Keeps.bind (Keeps.toInt _) (fun n _ => ?_)
  exact Keeps.bind (keeps_setObj_b hab _ hr) (fun _ _ => Keeps.pure _ _ trivial)

theorem keeps_insert_at_rv (hab : a ≠ b) (k : Int) (v : T) :
    Keeps (Guard a b xs cap pa) (Array.insert_at_rv ops b k (.obj v)) (fun _ => True) := by
  unfold Array.insert_at_rv
  simp only [construct_at_copy_ref, construct_at_move_ref]
  refine Keeps.bind keeps_getObj_b (fun _ _ => ?_)
  refine Keeps.bind (Keeps.assert _) (fun _ _ => ?_)
  refine Keeps.bind (Keeps.toInt _) (fun m _ => ?_)
  refine Keeps.bind (keeps_ensure_capacity ops hab m) (fun _ _ => ?_)
  refine Keeps.bind (keeps_shift_right ops k) (fun _ _ => ?_)
  refine Keeps.bind keeps_getObj_b (fun r hr => ?_)
  refine Keeps.bind (keeps_construct_at_move ops r.data_ k v hr) (fun _ _ => ?_)
  refine Keeps.bind (Keeps.toInt _) (fun n _ => ?_)
  exact Keeps.bind (keeps_setObj_b hab _ hr) (fun _ _ => Keeps.pure _ _ trivial)

theorem keeps_remove (hab : a ≠ b) (k : Int) :
    Keeps (Guard a b xs cap pa) (Array.remove ops b k) (fun _ => True) := by
  unfold Array.remove
  refine Keeps.bind keeps_getObj_b (fun r hr => ?_)
  refine Keeps.bind (Keeps.assert _) (fun _ _ => ?_)
  refine Keeps.bind (keeps_destroy_one r.data_ k hr) (fun _ _ => ?_)
  refine Keeps.bind (keeps_shift_left ops k) (fun _ _ => ?_)
  refine Keeps.bind keeps_getObj_b (fun r1 hr1 => ?_)
  refine Keeps.bind (Keeps.toInt _) (fun n _ => ?_)
  exact keeps_setObj_b hab _ hr1

theorem keeps_clear (hab : a ≠ b) :
    Keeps (Guard a b xs cap pa) (Array.clear b : M (World T) Unit) (fun _ => True) := by
  unfold Array.clear
  refine Keeps.bind keeps_getObj_b (fun r hr => ?_)
  exact Keeps.bind (keeps_destroy_range r.data_ r.size_ hr) (fun _ _ => keeps_setObj_b hab _ hr)

theorem keeps_subscript_assign (k : Int) (v : T) :
    Keeps (Guard a b xs cap pa) (Array.subscript_assign ops b k v) (fun _ => True) := by
  unfold Array.subscript_assign
  refine Keeps.bind keeps_getObj_b (fun r hr => ?_)
  refine Keeps.bind (Keeps.assert _) (fun _ _ => ?_)
  refine Keeps.bind (keeps_readSlot r.data_ k) (fun old _ => ?_)
  cases ops.assign old v with
  | none => exact Keeps.raise _
  | some y => exact keeps_writeSlot r.data_ k y hr

theorem keeps_iterator_set (it : Iterator) (hit : it.owner_ = b) (v : T) :
    Keeps (Guard a b xs cap pa) (it.set ops v) (fun _ => True) := by
  unfold Iterator.set
  refine Keeps.ite (fun _ => Keeps.undefined _) (fun _ => ?_)
  rw [hit]
  exact keeps_subscript_assign ops _ v

end FrameOps

section CopyClaims

variable {a b : Nat} {xs : List T} {cap pa : Nat} (ops : ElemOps T)

theorem keeps_mutation (hab : a ≠ b) (m : Mutation T) :
    Keeps (Guard a b xs cap pa) (m.run ops b) (fun _ => True) := by
  cases m with
  | set i v => exact keeps_subscript_assign ops i v
  | append v =>
    exact Keeps.bind (keeps_insert ops hab v) (fun _ _ => Keeps.pure () _ trivial)
  | append_rv v =>
    exact Keeps.bind (keeps_insert_rv ops hab v) (fun _ _ => Keeps.pure () _ trivial)
  | insert k v =>
    exact Keeps.bind (keeps_insert_at ops hab k v) (fun _ _ => Keeps.pure () _ trivial)
  | insert_rv k v =>
    exact Keeps.bind (keeps_insert_at_rv ops hab k v) (fun _ _ => Keeps.pure () _ trivial)
  | remove k => exact keeps_remove ops hab k
  | clear => exact keeps_clear hab

theorem keeps_runAll (hab : a ≠ b) :
    ∀ ms : List (Mutation T), Keeps (Guard a b xs cap pa) (runAll ops b ms) (fun _ => True)
  | [] => Keeps.pure () _ trivial
  | m :: ms => by
    unfold runAll
    exact Keeps.bind (keeps_mutation ops hab m) (fun _ _ => keeps_runAll hab ms)

/-- What `Keeps` says about the final state of a run. -/
theorem Keeps.final {σ α : Type} {I : σ → Prop} {m : M σ α} {Q : α → Prop} (h : Keeps I m Q)
    {s s1 : σ} (hs : I s) (hf : (m s).final = some s1) : I s1 := by
  have h1 := h s hs
  cases hm : m s with
  | ok x s2 =>
    rw [hm] at h1 hf
    cases hf
    exact h1.1
  | throw s2 =>
    rw [hm] at h1 hf
    cases hf
    exact h1
  | abort s2 =>
    rw [hm] at h1 hf
    cases hf
    exact h1
  | ub =>
    rw [hm] at hf
    cases hf
  | diverge =>
    rw [hm] at hf
    cases hf

/-- C5: for an element type whose constructors do not throw and preserve the value, a
container `A` (at `a`, holding `xs` in `cap` slots) and a distinct object `B` (at `b`),
when `malloc` succeeds the copy constructor returns with `B` holding the
same elements in a fresh buffer (`B.size() == A.size()`, `B[i] == A[i]`) of capacity
`cap`, or 8 when `cap` is 0; `A` is unchanged; and whatever sequence of mutations of
`B` (set, append, insert, remove, clear) follows, in whatever way it ends, `A` still
holds `xs` in `cap` slots of the same buffer. -/
theorem C5_copy_is_independent (ops : ElemOps T) (hl : ops.Lawful) (w : World T) (a b : Nat)
    (xs : List T) (cap : Nat) (h : Holds w a xs cap) (hab : b ≠ a)
    (hm : w.mallocFails w.mallocCalls = false) :
    ∃ w1, Array.copy_ctor ops b a w = .ok () w1
      ∧ Holds w1 b xs (if cap = 0 then 8 else cap)
      ∧ Array.size b w1 = .ok (xs.length : Int) w1
      ∧ Array.size a w1 = .ok (xs.length : Int) w1
      ∧ (∀ (i : Nat) (hi : i < xs.length),
          Array.subscript b i w1 = .ok xs[i] w1 ∧ Array.subscript a i w1 = .ok xs[i] w1)
      ∧ Array.capacity b w1 = .ok ((if cap = 0 then 8 else cap : Nat) : Int) w1
      ∧ Holds w1 a xs cap ∧ w1.objs a = w.objs a
      ∧ ∀ (ms : List (Mutation T)) (w2 : World T),
          (runAll ops b ms w1).final = some w2 →
          Holds w2 a xs cap ∧ w2.objs a = w.objs a := by
  obtain ⟨w1, hrun, hb, ha, hdata, hobjs, _, _, _⟩ := copy_ctor_run hl h hab hm
  have hg : Guard a b xs cap (w.objs a).data_ w1 := by
    refine ⟨ha, by rw [hobjs a hab.symm], Or.inr ?_⟩
    rw [hdata]
    have := h.data_lt
    omega
  refine ⟨w1, hrun, hb, size_ok hb, size_ok ha, ?_, capacity_ok hb, ha, hobjs a hab.symm, ?_⟩
  · intro i hi
    exact ⟨subscript_ok hb i hi, subscript_ok ha i hi⟩
  · intro ms w2 hf
    have hg2 := (keeps_runAll ops hab.symm ms).final hg hf
    refine ⟨hg2.holds, ?_⟩
    have e1 := hg2.holds.obj_eq
    have e2 := h.obj_eq
    rw [e1, e2, hg2.data_eq]

/-- Witness of C5: copying `[1,2,3]` (capacity 4) from object 1 into object 2. -/
theorem C5_copy_is_independent_witness :
    Holds (World.single [1, 2, 3] 4) 1 [1, 2, 3] 4 ∧ (2 : Nat) ≠ 1
    ∧ (World.single [1, 2, 3] 4).mallocFails (World.single [1, 2, 3] 4).mallocCalls = false
    ∧ ∃ w1, Array.copy_ctor intOps 2 1 (World.single [1, 2, 3] 4) = .ok () w1
      ∧ Holds w1 2 [1, 2, 3] (if 4 = 0 then 8 else 4)
      ∧ Array.size 2 w1 = .ok (([1, 2, 3] : List Int).length : Int) w1
      ∧ Array.size 1 w1 = .ok (([1, 2, 3] : List Int).length : Int) w1
      ∧ (∀ (i : Nat) (hi : i < ([1, 2, 3] : List Int).length),
          Array.subscript 2 i w1 = .ok ([1, 2, 3] : List Int)[i] w1
          ∧ Array.subscript 1 i w1 = .ok ([1, 2, 3] : List Int)[i] w1)
      ∧ Array.capacity 2 w1 = .ok ((if 4 = 0 then 8 else 4 : Nat) : Int) w1
      ∧ Holds w1 1 [1, 2, 3] 4 ∧ w1.objs 1 = (World.single [1, 2, 3] 4).objs 1
      ∧ ∀ (ms : List (Mutation Int)) (w2 : World Int),
          (runAll intOps 2 ms w1).final = some w2 →
          Holds w2 1 [1, 2, 3] 4 ∧ w2.objs 1 = (World.single [1, 2, 3] 4).objs 1 :=
  have hh : Holds (World.single [1, 2, 3] 4) 1 [1, 2, 3] 4 :=
    ⟨rfl, rfl, by decide, by decide, by decide, by decide, by decide, fun _ => rfl⟩
  ⟨hh, by decide, rfl,
    C5_copy_is_independent intOps intOps_lawful (World.single [1, 2, 3] 4) 1 2 [1, 2, 3] 4 hh
      (by decide) rfl⟩

end CopyClaims

section NoThrowRules

variable {σ α β : Type}

theorem noThrow_pure (x : α) : NoThrow (pure x : M σ α) :=
  fun _ => trivial

theorem noThrow_bind {m : M σ α} {f : α → M σ β} (h1 : NoThrow m) (h2 : ∀ x, NoThrow (f x)) :
    NoThrow (m >>= f) := by
  intro s
  have h := h1 s
  simp only [bind_run, M.bind]
  cases hm : m s with
  | ok x s1 => exact h2 x s1
  | throw s1 =>
    rw [hm] at h
    exact h
  | abort s1 =>
    rw [hm] at h
    exact h
  | ub => trivial
  | diverge => trivial

theorem noThrow_setObj (o : Nat) (r : Array) : NoThrow (setObj o r : M (World T) Unit) :=
  fun _ => trivial

theorem noThrow_destroy_one (p : Nat) (i : Int) :
    NoThrow (destroy_one p i : M (World T) Unit) := by
  intro w
  unfold destroy_one
  cases w.block p with
  | none => trivial
  | some slots =>
    simp only []
    split_ifs
    · cases slots[i.toNat]? with
      | none => trivial
      | some o =>
        cases o with
        | none => trivial
        | some v => trivial
    · trivial

theorem noThrow_destroy_range_loop (p : Nat) :
    ∀ (k : Nat) (i : Int), NoThrow (destroy_range_loop p k i : M (World T) Unit)
  | 0, _ => noThrow_pure ()
  | k + 1, i => by
    unfold destroy_range_loop
    exact noThrow_bind (noThrow_destroy_one p i) (fun _ => noThrow_destroy_range_loop p k (i + 1))

theorem noThrow_free (p : Nat) : NoThrow (free p : M (World T) Unit) := by
  intro w
  unfold free
  split_ifs
  · trivial
  · cases w.heap p with
    | none => trivial
    | some _ => trivial

theorem noThrow_swap (x y : Nat) : NoThrow (Array.swap x y : M (World T) Unit) :=
  fun _ => trivial

end NoThrowRules

section CopyAssign

variable {a b : Nat} {xs : List T} {cap pa : Nat} (ops : ElemOps T)

theorem Guard.toGuard0 {w : World T} (g : Guard a b xs cap pa w) : Guard0 a xs cap pa w :=
  ⟨g.holds, g.data_eq⟩

theorem keeps0_allocate_raw (n : Int) :
    Keeps (Guard0 a xs cap pa) (allocate_raw n : M (World T) Nat)
      (fun x => x = 0 ∨ x ≠ pa) := by
  intro w g
  have hlt : pa < w.brk := by
    rw [← g.data_eq]
    exact g.holds.data_lt
  unfold allocate_raw
  split_ifs
  · exact ⟨g, Or.inl rfl⟩
  · simp only [bind_run, M.bind, malloc]
    split_ifs with hf
    · exact ⟨g.holds.frame rfl rfl (le_refl _), g.data_eq⟩
    · simp only []
      have hne : w.brk ≠ pa := by omega
      have hpa : (w.objs a).data_ ≠ w.brk := by
        rw [g.data_eq]
        exact hne.symm
      split_ifs with h0
      · exact ⟨g.holds.frame rfl (by simp [Function.update_noteq hpa]) (Nat.le_succ _),
          g.data_eq⟩
      · exact ⟨⟨g.holds.frame rfl (by simp [Function.update_noteq hpa]) (Nat.le_succ _),
          g.data_eq⟩, Or.inr hne⟩

theorem keeps_getObj (o : Nat) :
    Keeps (Guard a b xs cap pa) (getObj o : M (World T) Array) (fun _ => True) :=
  fun _ g => ⟨g, trivial⟩

theorem keeps_copy_loop (hab : a ≠ b) (other : Nat) :
    ∀ (k : Nat) (i : Int),
      Keeps (Guard a b xs cap pa) (copy_loop ops b other k i) (fun _ => True)
  | 0, _ => Keeps.pure () _ trivial
  | k + 1, i => by
    unfold copy_loop
    refine Keeps.bind (keeps_getObj other) (fun o _ => ?_)
    refine Keeps.bind keeps_getObj_b (fun me hme => ?_)
    refine Keeps.bind (keeps_readSlot o.data_ i) (fun x _ => ?_)
    refine Keeps.bind (keeps_construct_at_copy ops me.data_ i x hme) (fun _ _ => ?_)
    refine Keeps.bind (Keeps.toInt _) (fun n _ => ?_)
    exact Keeps.bind (keeps_setObj_b hab _ hme) (fun _ _ => keeps_copy_loop hab other k (i + 1))

/-- The copy constructor, constructing `b` from any object, never touches another
container `a`: on return `b` owns a buffer other than that of `a`, and on every failure
exit `a` is exactly as before. -/
theorem copy_ctor_guard (hab : a ≠ b) (other : Nat) (w : World T)
    (g : Guard0 a xs cap pa w) :
    match Array.copy_ctor ops b other w with
    | .ok _ w1 => Guard a b xs cap pa w1
    | .throw w1 => Guard0 a xs cap pa w1
    | .abort w1 => Guard0 a xs cap pa w1
    | .ub => True
    | .diverge => True := by
  unfold Array.copy_ctor
  rw [bind_ok (getObj_run other w)]
  generalize (if (w.objs other).capacity_ > 0 then (w.objs other).capacity_
    else kDefaultCapacity) = c
  have k0 : Keeps (Guard0 a xs cap pa) (allocate_raw c : M (World T) Nat)
      (fun x => x = 0 ∨ x ≠ pa) := keeps0_allocate_raw c
  have k0 := k0 w g
  simp only [bind_run, M.bind]
  cases hal : allocate_raw c w with
  | ok p w1 =>
    rw [hal] at k0
    simp only [setObj_run]
    generalize hr : ({ data_ := p, size_ := 0, capacity_ := c } : Array) = r
    have hrd : r.data_ = 0 ∨ r.data_ ≠ pa := by
      rw [← hr]
      exact k0.2
    have g2 : Guard a b xs cap pa { w1 with objs := Function.update w1.objs b r } := by
      refine ⟨k0.1.holds.frame ?_ rfl (le_refl _), ?_, ?_⟩
      · simp [Function.update_noteq hab]
      · simp only [Function.update_noteq hab]
        exact k0.1.data_eq
      · simpa using hrd
    have hk : Keeps (Guard a b xs cap pa)
        (tryCatch (copy_loop ops b other (w.objs other).size_.toNat 0)
          (do
            let me ← getObj b
            destroy_range me.data_ me.size_
            free me.data_
            setObj b { data_ := 0, size_ := 0, capacity_ := 0 }
            raise)) (fun _ => True) := by
      refine Keeps.tryCatch (keeps_copy_loop ops hab other _ _) ?_
      refine Keeps.bind keeps_getObj_b (fun me hme => ?_)
      refine Keeps.bind (keeps_destroy_range me.data_ me.size_ hme) (fun _ _ => ?_)
      refine Keeps.bind (keeps_free me.data_ hme) (fun _ _ => ?_)
      exact Keeps.bind (keeps_setObj_b hab _ (Or.inl rfl)) (fun _ _ => Keeps.raise _)
    have h2 := hk _ g2
    revert h2
    cases tryCatch (copy_loop ops b other (w.objs other).size_.toNat 0)
          (do
            let me ← getObj b
            destroy_range me.data_ me.size_
            free me.data_
            setObj b { data_ := 0, size_ := 0, capacity_ := 0 }
            raise)
        { w1 with objs := Function.update w1.objs b r } with
    | ok x w2 => exact fun h2 => h2.1
    | throw w2 => exact fun h2 => h2.toGuard0
    | abort w2 => exact fun h2 => h2.toGuard0
    | ub => exact fun _ => trivial
    | diverge => exact fun _ => trivial
  | throw w1 =>
    rw [hal] at k0
    exact k0
  | abort w1 =>
    rw [hal] at k0
    exact k0
  | ub => trivial
  | diverge => trivial

theorem swap_run {x y : Nat} (hxy : x ≠ y) (w : World T) :
    Array.swap x y w = .ok ()
      { w with objs := Function.update (Function.update w.objs x (w.objs y)) y (w.objs x) } := by
  simp only [Array.swap, bind_run, M.bind, getObj_run, setObj_run, Function.update_same,
    Function.update_noteq hxy, Function.update_noteq hxy.symm]
  congr 2
  funext o
  by_cases h1 : o = y
  · subst h1
    simp
  · by_cases h2 : o = x
    · subst h2
      simp [Function.update_noteq h1]
    · simp [Function.update_noteq h1, Function.update_noteq h2]

/-- `Holds` for an object follows from `Holds` for another object with the same members. -/
theorem Holds.transfer {w w1 : World T} {o o1 : Nat} {zs : List T} {c : Nat}
    (h : Holds w o zs c) (ho : w1.objs o1 = w.objs o)
    (hh : w1.heap (w.objs o).data_ = w.heap (w.objs o).data_)
    (hb : w.brk ≤ w1.brk) : Holds w1 o1 zs c := by
  refine ⟨?_, ?_, h.len_le, h.cap_le, ?_, ?_, ?_, ?_⟩
  · rw [ho]
    exact h.size_eq
  · rw [ho]
    exact h.cap_eq
  · exact lt_of_lt_of_le h.brk_pos hb
  · rw [ho]
    exact lt_of_lt_of_le h.data_lt hb
  · rw [ho]
    exact h.null_iff
  · intro hc
    rw [ho, hh]
    exact h.buf hc

/-- Copy assignment between distinct containers with distinct buffers, when the copy
can be constructed. -/
theorem copy_assign_run (hl : ops.Lawful) {w : World T} {a b tmp : Nat} {xs ys : List T}
    {capA capB : Nat} (ha : Holds w a ys capA) (hb : Holds w b xs capB) (hab : a ≠ b)
    (hta : tmp ≠ a) (htb : tmp ≠ b)
    (hsep : capA = 0 ∨ (w.objs a).data_ ≠ (w.objs b).data_)
    (hm : w.mallocFails w.mallocCalls = false) :
    ∃ w1, Array.copy_assign ops a b tmp w = .ok () w1
      ∧ Holds w1 a xs (if capB = 0 then 8 else capB)
      ∧ Holds w1 b xs capB ∧ w1.objs b = w.objs b := by
  obtain ⟨w1, hrun, ht1, hb1, hdata, hobjs, hheap, hbrk, _⟩ := copy_ctor_run hl hb htb hm
  have halt := ha.data_lt
  have hblt := hb.data_lt
  have ha1 : Holds w1 a ys capA :=
    ha.frame (hobjs a hta.symm) (hheap _ halt) (by omega)
  unfold Array.copy_assign
  simp only [hab, if_false]
  rw [bind_ok hrun, bind_ok (swap_run hta.symm w1)]
  have ht2 : Holds { w1 with
      objs := (Function.update (Function.update w1.objs a (w1.objs tmp)) tmp (w1.objs a)) }
      tmp ys capA :=
    ha1.transfer (by simp) rfl (le_refl _)
  unfold Array.dtor
  rw [clear_and_free_run ht2]
  simp only [Function.update_same, Function.update_idem]
  have hobja : w1.objs a = w.objs a := hobjs a hta.symm
  have hobjb : w1.objs b = w.objs b := hobjs b htb.symm
  have hne1 : capA ≠ 0 → (w1.objs tmp).data_ ≠ (w1.objs a).data_ := by
    intro _
    rw [hdata, hobja]
    omega
  have hne2 : capA ≠ 0 → (w1.objs b).data_ ≠ (w1.objs a).data_ := by
    intro hc
    rw [hobjb, hobja]
    rcases hsep with h1 | h1
    · exact absurd h1 hc
    · exact h1.symm
  refine ⟨_, rfl, ht1.transfer ?_ ?_ (le_refl _), hb1.transfer ?_ ?_ (le_refl _), ?_⟩
  · simp [Function.update_noteq hta.symm]
  · by_cases hc : capA = 0
    · simp [hc]
    · simp [hc, Function.update_noteq (hne1 hc)]
  · simp [Function.update_noteq htb.symm, Function.update_noteq hab.symm]
  · by_cases hc : capA = 0
    · simp [hc]
    · simp [hc, Function.update_noteq (hne2 hc)]
  · simp [Function.update_noteq htb.symm, Function.update_noteq hab.symm, hobjb]

/-- C7: copy assignment `a = b` (with `tmp` the local copy). (1) When `a` and `b` are the
same container nothing changes. (2) Between distinct containers with distinct buffers,
when the copy can be constructed, `a` ends up holding the elements, length and
capacity that copy-constructing from `b` gives, and `b` is unchanged. (3) When
construction of the copy throws, the assignment throws with the same state, in which
`a` is exactly as before: same elements, length, capacity and buffer. -/
theorem C7_copy_assign_strong_guarantee (ops : ElemOps T) (w : World T) (a b tmp : Nat)
    (xs ys : List T) (capA capB : Nat) (ha : Holds w a ys capA) (hb : Holds w b xs capB)
    (hta : tmp ≠ a) (htb : tmp ≠ b) :
    Array.copy_assign ops a a tmp w = .ok () w
    ∧ (ops.Lawful → a ≠ b → (capA = 0 ∨ (w.objs a).data_ ≠ (w.objs b).data_) →
        w.mallocFails w.mallocCalls = false →
        ∃ w1 w2, Array.copy_assign ops a b tmp w = .ok () w1
          ∧ Array.copy_ctor ops tmp b w = .ok () w2
          ∧ Holds w2 tmp xs (if capB = 0 then 8 else capB)
          ∧ Holds w1 a xs (if capB = 0 then 8 else capB)
          ∧ Holds w1 b xs capB ∧ w1.objs b = w.objs b)
    ∧ (a ≠ b → ∀ w1, Array.copy_ctor ops tmp b w = .throw w1 →
        Array.copy_assign ops a b tmp w = .throw w1
          ∧ Holds w1 a ys capA ∧ w1.objs a = w.objs a) := by
  refine ⟨?_, ?_, ?_⟩
  · simp [Array.copy_assign]
  · intro hl hab hsep hm
    obtain ⟨w1, h1, h2, h3, h4⟩ := copy_assign_run ops hl ha hb hab hta htb hsep hm
    obtain ⟨w2, h5, h6, _⟩ := copy_ctor_run hl hb htb hm
    exact ⟨w1, w2, h1, h5, h6, h2, h3, h4⟩
  · intro hab w1 hthrow
    have hg := copy_ctor_guard ops hta.symm b w
      (⟨ha, rfl⟩ : Guard0 a ys capA (w.objs a).data_ w)
    rw [hthrow] at hg
    refine ⟨?_, hg.holds, ?_⟩
    · unfold Array.copy_assign
      simp only [hab, if_false, bind_run, M.bind, hthrow]
    · rw [hg.holds.obj_eq, ha.obj_eq, hg.data_eq]

/-- Witness of C7: assigning object 2 (`[1,2,3]`, capacity 4) to object 1 (`[9]`,
capacity 2) with the local copy at object 3. -/
theorem C7_copy_assign_strong_guarantee_witness :
    Holds (World.pair [9] 2 [1, 2, 3] 4 false) 1 [9] 2
    ∧ Holds (World.pair [9] 2 [1, 2, 3] 4 false) 2 [1, 2, 3] 4
    ∧ (3 : Nat) ≠ 1 ∧ (3 : Nat) ≠ 2
    ∧ Array.copy_assign intOps 1 1 3 (World.pair [9] 2 [1, 2, 3] 4 false)
        = .ok () (World.pair [9] 2 [1, 2, 3] 4 false)
    ∧ (∃ w1 w2, Array.copy_assign intOps 1 2 3 (World.pair [9] 2 [1, 2, 3] 4 false) = .ok () w1
        ∧ Array.copy_ctor intOps 3 2 (World.pair [9] 2 [1, 2, 3] 4 false) = .ok () w2
        ∧ Holds w2 3 [1, 2, 3] (if 4 = 0 then 8 else 4)
        ∧ Holds w1 1 [1, 2, 3] (if 4 = 0 then 8 else 4)
        ∧ Holds w1 2 [1, 2, 3] 4
        ∧ w1.objs 2 = (World.pair [9] 2 [1, 2, 3] 4 false).objs 2)
    ∧ ((1 : Nat) ≠ 2 → ∀ w1,
        Array.copy_ctor intOps 3 2 (World.pair [9] 2 [1, 2, 3] 4 false) = .throw w1 →
        Array.copy_assign intOps 1 2 3 (World.pair [9] 2 [1, 2, 3] 4 false) = .throw w1
          ∧ Holds w1 1 [9] 2
          ∧ w1.objs 1 = (World.pair [9] 2 [1, 2, 3] 4 false).objs 1) :=
  have h1 : Holds (World.pair [9] 2 [1, 2, 3] 4 false) 1 [9] 2 :=
    ⟨rfl, rfl, by decide, by decide, by decide, by decide, by decide, fun _ => rfl⟩
  have h2 : Holds (World.pair [9] 2 [1, 2, 3] 4 false) 2 [1, 2, 3] 4 :=
    ⟨rfl, rfl, by decide, by decide, by decide, by decide, by decide, fun _ => rfl⟩
  have t := C7_copy_assign_strong_guarantee intOps (World.pair [9] 2 [1, 2, 3] 4 false) 1 2 3
    [1, 2, 3] [9] 2 4 h1 h2 (by decide) (by decide)
  ⟨h1, h2, by decide, by decide, t.1,
    t.2.1 intOps_lawful (by decide) (Or.inr (by decide)) rfl, t.2.2⟩

/-- The failure case of C7 on a concrete input: with a failing `malloc`, assigning
object 2 to object 1 throws and leaves object 1 and its block as they were. -/
theorem copy_assign_oom_example :
    (Array.copy_assign intOps 1 2 3 (World.pair [9] 2 [1, 2, 3] 4 true)).thrown.map
        (fun w1 => (w1.objs 1, w1.heap 1))
      = some ((World.pair [9] 2 [1, 2, 3] 4 true).objs 1,
          (World.pair [9] 2 [1, 2, 3] 4 true).heap 1) := by
  rfl

/-- When `malloc` fails the copy constructor throws before touching any object, so the
failure case of C7 does occur. -/
theorem copy_ctor_throws_on_oom (w : World T) (b other : Nat)
    (hm : w.mallocFails w.mallocCalls = true) :
    Array.copy_ctor ops b other w = .throw { w with mallocCalls := w.mallocCalls + 1 } := by
  unfold Array.copy_ctor
  rw [bind_ok (getObj_run other w)]
  have hpos : ¬ (if (w.objs other).capacity_ > 0 then (w.objs other).capacity_
      else kDefaultCapacity) ≤ 0 := by
    unfold kDefaultCapacity
    split_ifs <;> omega
  simp [allocate_raw, hpos, malloc, hm, M.bind, raise]

end CopyAssign

section GrowthFailure

/-- C8 fails on the code for an element type with a throwing move constructor: the
container `[1, 2]` with capacity 2 grows (`ensure_capacity(3)`); element 0 is moved
into the new block, the move of element 1 throws, the new block is rolled back and
the exception propagates, but the container, with the same buffer, length 2 and
capacity 2, now holds `[0, 2]`: element 0 is left in its moved-from state. -/
theorem C8_growth_failure_loses_moved_elements :
    (ensure_capacity throwingMoveOps 1 3 (World.single [1, 2] 2)).thrown.map
        (fun w1 => (w1.objs 1, w1.heap 1))
      = some ({ data_ := 1, size_ := 2, capacity_ := 2 }, some [some 0, some 2])
    ∧ (ensure_capacity throwingMoveOps 1 3 (World.single [1, 2] 2)).thrown.map
        (fun w1 => (w1.objs 1, w1.heap 1))
      ≠ some ({ data_ := 1, size_ := 2, capacity_ := 2 }, some [some 1, some 2])
    ∧ (Array.insert throwingMoveOps 1 (.obj 3) (World.single [1, 2] 2)).thrown.map
        (fun w1 => (w1.objs 1, w1.heap 1))
      = some ({ data_ := 1, size_ := 2, capacity_ := 2 }, some [some 0, some 2]) := by
  refine ⟨by rfl, ?_, by rfl⟩
  have h : (ensure_capacity throwingMoveOps 1 3 (World.single [1, 2] 2)).thrown.map
        (fun w1 => (w1.objs 1, w1.heap 1))
      = some ({ data_ := 1, size_ := 2, capacity_ := 2 }, some [some 0, some 2]) := by rfl
  rw [h]
  decide

/-- The sound part of C8, allocation failure: when `malloc` returns null during growth,
`ensure_capacity` throws and the container is exactly as before (same members, same
block); only the allocator's call count changed. -/
theorem ensure_capacity_alloc_failure (ops : ElemOps T) {w : World T} {a : Nat} {xs : List T}
    {cap : Nat} (h : Holds w a xs cap) (min nc : Int) (hmin : (cap : Int) < min)
    (hg : ∀ s : World T, grow_loop min (min - (if (cap : Int) ≤ 0 then 1 else (cap : Int))).toNat
        (if (cap : Int) ≤ 0 then 1 else (cap : Int)) s = .ok nc s)
    (hnc : 0 < nc) (hm : w.mallocFails w.mallocCalls = true) :
    ensure_capacity ops a min w = .throw { w with mallocCalls := w.mallocCalls + 1 }
      ∧ Holds { w with mallocCalls := w.mallocCalls + 1 } a xs cap := by
  refine ⟨?_, h.frame rfl rfl (le_refl _)⟩
  unfold ensure_capacity
  rw [bind_ok (getObj_run a w)]
  have hcond : ¬ min ≤ (w.objs a).capacity_ := by
    rw [h.cap_eq]
    omega
  simp only [hcond, if_false]
  rw [h.cap_eq, bind_ok (hg w)]
  have hpos : ¬ nc ≤ 0 := by omega
  simp [allocate_raw, hpos, malloc, hm, M.bind, raise]

/-- The sound part of C8, relocation by copy: for an element type without a move
constructor whose copy constructor throws for the value 2, the failed growth of
`[1, 2]` leaves the container holding `[1, 2]` in the same buffer. -/
theorem ensure_capacity_copy_failure_example :
    (ensure_capacity throwingCopyOps 1 3 (World.single [1, 2] 2)).thrown.map
        (fun w1 => (w1.objs 1, w1.heap 1, w1.heap 2))
      = some ({ data_ := 1, size_ := 2, capacity_ := 2 }, some [some 1, some 2], none) := by
  rfl

variable {a : Nat} {xs : List T} {cap pa : Nat}

theorem Guard0.heap_update0 {w : World T} (g : Guard0 a xs cap pa w) {p : Nat} (hp : p ≠ pa)
    (v : Option (List (Option T))) (c d : Nat) :
    Guard0 a xs cap pa { w with heap := Function.update w.heap p v, ctors := c, dtors := d } :=
  ⟨g.holds.frame rfl (by rw [g.data_eq]; simp [Function.update_noteq hp.symm]) (le_refl _),
    g.data_eq⟩

/-- Rewriting a block with its own contents keeps the guard. -/
theorem Guard0.heap_same {w : World T} (g : Guard0 a xs cap pa w) {p : Nat}
    {s : List (Option T)} (hs : w.heap p = some s) (c d : Nat) :
    Guard0 a xs cap pa
      { w with heap := Function.update w.heap p (some s), ctors := c, dtors := d } := by
  refine ⟨g.holds.frame rfl ?_ (le_refl _), g.data_eq⟩
  rw [g.data_eq]
  by_cases hp : pa = p
  · subst hp
    simp [hs]
  · simp [Function.update_noteq hp]

theorem keeps0_place (p : Nat) (i : Int) (v : T) (hp : p = 0 ∨ p ≠ pa) :
    Keeps (Guard0 a xs cap pa) (place p i v : M (World T) Unit) (fun _ => True) := by
  intro w g
  unfold place
  rcases hp with hp | hp
  · rw [hp, block_null]
    trivial
  · cases w.block p with
    | none => trivial
    | some slots =>
      simp only []
      split_ifs
      · cases slots[i.toNat]? with
        | none => trivial
        | some o =>
          cases o with
          | none => exact ⟨g.heap_update0 hp _ _ _, trivial⟩
          | some v => trivial
      · trivial

theorem keeps0_destroy_one (p : Nat) (i : Int) (hp : p = 0 ∨ p ≠ pa) :
    Keeps (Guard0 a xs cap pa) (destroy_one p i : M (World T) Unit) (fun _ => True) := by
  intro w g
  unfold destroy_one
  rcases hp with hp | hp
  · rw [hp, block_null]
    trivial
  · cases w.block p with
    | none => trivial
    | some slots =>
      simp only []
      split_ifs
      · cases slots[i.toNat]? with
        | none => trivial
        | some o =>
          cases o with
          | none => trivial
          | some v => exact ⟨g.heap_update0 hp _ _ _, trivial⟩
      · trivial

theorem keeps0_destroy_range_loop (p : Nat) (hp : p = 0 ∨ p ≠ pa) :
    ∀ (k : Nat) (i : Int),
      Keeps (Guard0 a xs cap pa) (destroy_range_loop p k i : M (World T) Unit) (fun _ => True)
  | 0, _ => Keeps.pure () _ trivial
  | k + 1, i => by
    unfold destroy_range_loop
    exact Keeps.bind (keeps0_destroy_one p i hp)
      (fun _ _ => keeps0_destroy_range_loop p hp k (i + 1))

theorem keeps0_free (p : Nat) (hp : p = 0 ∨ p ≠ pa) :
    Keeps (Guard0 a xs cap pa) (free p : M (World T) Unit) (fun _ => True) := by
  intro w g
  unfold free
  by_cases h0 : p = 0
  · simp only [h0, if_true]
    exact ⟨g, trivial⟩
  · simp only [h0, if_false]
    have hne : p ≠ pa := by
      rcases hp with hp | hp
      · exact absurd hp h0
      · exact hp
    cases w.heap p with
    | none => trivial
    | some _ =>
      refine ⟨⟨g.holds.frame rfl ?_ (le_refl _), g.data_eq⟩, trivial⟩
      rw [g.data_eq]
      simp [Function.update_noteq hne.symm]

/-- Relocation-construct of a slot of another block from any live slot, for a
source-keeping element type, leaves the guarded container as it was. -/
theorem keeps0_construct_at_from_slot (ops : ElemOps T) (hsk : ops.SourceKeeping)
    (p : Nat) (i : Int) (q : Nat) (j : Int) (hp : p = 0 ∨ p ≠ pa) :
    Keeps (Guard0 a xs cap pa) (construct_at_from_slot ops p i q j) (fun _ => True) := by
  intro w g
  unfold construct_at_from_slot
  by_cases hm : ops.is_move_constructible = true
  · have hkeep : ∀ x y x1, ops.move x = some (y, x1) → x1 = x := by
      rcases hsk with h | h
      · rw [h] at hm
        cases hm
      · exact h
    simp only [hm, if_true]
    unfold construct_at_move_slot
    simp only [bind_run, M.bind, readSlot, writeSlot]
    cases hb : w.block q with
    | none => trivial
    | some slots =>
      simp only []
      by_cases hj : 0 ≤ j
      · simp only [hj, if_true]
        cases hs : slots[j.toNat]? with
        | none => trivial
        | some o =>
          cases o with
          | none => trivial
          | some x =>
            simp only []
            cases hmv : ops.move x with
            | none => exact g
            | some yx =>
              obtain ⟨y, x1⟩ := yx
              have hx1 : x1 = x := hkeep x y x1 hmv
              subst hx1
              simp only [bind_run, M.bind, writeSlot, hb, hj, if_true, hs]
              have hq0 : q ≠ 0 := by
                intro h0
                rw [h0, block_null] at hb
                cases hb
              have hheap : w.heap q = some slots := by
                rw [← block_of_ne hq0]
                exact hb
              rw [set_same_of_getElem? _ _ _ hs]
              exact keeps0_place p i y hp _ (g.heap_same hheap _ _)
      · simp only [hj, if_false]
  · simp only [hm, Bool.false_eq_true, if_false]
    simp only [bind_run, M.bind, readSlot]
    cases w.block q with
    | none => trivial
    | some slots =>
      simp only []
      split_ifs
      · cases slots[j.toNat]? with
        | none => trivial
        | some o =>
          cases o with
          | none => trivial
          | some x =>
            simp only []
            unfold construct_at_copy
            cases ops.copy x with
            | none => exact g
            | some y => exact keeps0_place p i y hp w g
      · trivial

theorem keeps0_relocate_loop (ops : ElemOps T) (hsk : ops.SourceKeeping) (nb p : Nat)
    (hnb : nb = 0 ∨ nb ≠ pa) :
    ∀ (k : Nat) (i c : Int),
      Keeps (Guard0 a xs cap pa) (fun s => (relocate_loop ops nb p k i c s).2) (fun _ => True)
  | 0, _, _ => fun _ g => ⟨g, trivial⟩
  | k + 1, i, c => by
    intro w g
    have h := keeps0_construct_at_from_slot ops hsk nb i p i hnb w g
    simp only [relocate_loop]
    cases hm : construct_at_from_slot ops nb i p i w with
    | ok x w1 =>
      rw [hm] at h
      exact keeps0_relocate_loop ops hsk nb p hnb k (i + 1) (c + 1) w1 h.1
    | throw w1 =>
      rw [hm] at h
      exact h
    | abort w1 =>
      rw [hm] at h
      exact h
    | ub => trivial
    | diverge => trivial

theorem ThrowKeeps.of_keeps {σ α : Type} {I : σ → Prop} {m : M σ α} {Q : α → Prop}
    (h : Keeps I m Q) : ThrowKeeps I m := by
  intro s hs s1 hm
  have h1 := h s hs
  rw [hm] at h1
  exact h1

theorem ThrowKeeps.of_noThrow {σ α : Type} {I : σ → Prop} {m : M σ α} (h : NoThrow m) :
    ThrowKeeps I m := by
  intro s _ s1 hm
  have h1 := h s
  rw [hm] at h1
  exact h1.elim

theorem ThrowKeeps.bind_keeps {σ α β : Type} {I : σ → Prop} {m : M σ α} {f : α → M σ β}
    {Q : α → Prop} (h1 : Keeps I m Q) (h2 : ∀ x, Q x → ThrowKeeps I (f x)) :
    ThrowKeeps I (m >>= f) := by
  intro s hs s1 hm
  have h := h1 s hs
  simp only [bind_run, M.bind] at hm
  cases hr : m s with
  | ok x s2 =>
    rw [hr] at h hm
    exact h2 x h.2 s2 h.1 s1 hm
  | throw s2 =>
    rw [hr] at h hm
    cases hm
    exact h
  | abort s2 =>
    rw [hr] at hm
    cases hm
  | ub =>
    rw [hr] at hm
    cases hm
  | diverge =>
    rw [hr] at hm
    cases hm

theorem ThrowKeeps.ite_of {σ α : Type} {I : σ → Prop} {c : Prop} [Decidable c] {m1 m2 : M σ α}
    (h1 : ThrowKeeps I m1) (h2 : ThrowKeeps I m2) : ThrowKeeps I (if c then m1 else m2) := by
  split_ifs
  · exact h1
  · exact h2

theorem keeps0_getObj (o : Nat) :
    Keeps (Guard0 a xs cap pa) (getObj o : M (World T) Array) (fun r => r = r) :=
  fun _ g => ⟨g, rfl⟩

theorem keeps0_grow_loop (min : Int) :
    ∀ (fuel : Nat) (nc : Int),
      Keeps (Guard0 a xs cap pa) (grow_loop min fuel nc : M (World T) Int) (fun _ => True)
  | 0, nc => by
    unfold grow_loop
    exact Keeps.ite (fun _ => Keeps.outOfFuel _) (fun _ => Keeps.pure nc _ trivial)
  | fuel + 1, nc => by
    unfold grow_loop
    refine Keeps.ite (fun _ => ?_) (fun _ => Keeps.pure nc _ trivial)
    refine Keeps.bind (Keeps.toInt _) (fun grown _ => ?_)
    refine Keeps.bind (Q := fun _ => True) ?_ (fun next _ => keeps0_grow_loop min fuel next)
    exact Keeps.ite (fun _ => Keeps.pure grown _ trivial)
      (fun _ => (Keeps.toInt _).weaken (fun _ _ => trivial))

/-- The sound part of C8 in general: for a source-keeping element type (relocation by
copy, or a move constructor that does not modify its source), whenever
`ensure_capacity` throws, be it on allocation failure or on a relocation that throws
partway through, the container is exactly as before: same buffer, same elements, same
length and capacity. -/
theorem ensure_capacity_strong_guarantee (ops : ElemOps T) (hsk : ops.SourceKeeping)
    (w : World T) (a : Nat) (xs : List T) (cap : Nat) (h : Holds w a xs cap) (min : Int)
    (w1 : World T) (hthrow : ensure_capacity ops a min w = .throw w1) :
    Holds w1 a xs cap ∧ w1.objs a = w.objs a := by
  have hk : ThrowKeeps (Guard0 a xs cap (w.objs a).data_) (ensure_capacity ops a min) := by
    unfold ensure_capacity
    refine ThrowKeeps.bind_keeps (keeps0_getObj a) (fun r _ => ?_)
    refine ThrowKeeps.ite_of (ThrowKeeps.of_noThrow (noThrow_pure ())) ?_
    refine ThrowKeeps.bind_keeps (keeps0_grow_loop min _ _) (fun nc _ => ?_)
    refine ThrowKeeps.bind_keeps (keeps0_allocate_raw nc) (fun nb hnb => ?_)
    refine ThrowKeeps.bind_keeps (Q := fun _ => True) ?_ (fun _ _ => ?_)
    · refine Keeps.tryCatchLocal (keeps0_relocate_loop ops hsk nb r.data_ hnb _ _ _)
        (fun l => ?_)
      refine Keeps.bind (keeps0_destroy_range_loop nb hnb _ _) (fun _ _ => ?_)
      exact Keeps.bind (keeps0_free nb hnb) (fun _ _ => Keeps.raise _)
    · refine ThrowKeeps.of_noThrow ?_
      refine noThrow_bind (noThrow_destroy_range_loop _ _ _) (fun _ => ?_)
      exact noThrow_bind (noThrow_free _) (fun _ => noThrow_setObj _ _)
  have g1 := hk w ⟨h, rfl⟩ w1 hthrow
  refine ⟨g1.holds, ?_⟩
  rw [g1.holds.obj_eq, h.obj_eq, g1.data_eq]

end GrowthFailure

section Traversal

theorem hasNext_forward {w : World T} {a : Nat} {xs : List T} {cap : Nat} (h : Holds w a xs cap)
    (ha0 : a ≠ 0) (p : Int) :
    Iterator.hasNext { owner_ := a, pos_ := p, reverse_ := false } w
      = .ok (decide (p < (xs.length : Int))) w := by
  simp only [Iterator.hasNext, ha0, if_false, bind_run, M.bind, Array.size, getObj_run,
    pure_run, h.size_eq, Bool.false_eq_true]

theorem hasNext_reverse {w : World T} {a : Nat} (ha0 : a ≠ 0) (p : Int) :
    Iterator.hasNext { owner_ := a, pos_ := p, reverse_ := true } w
      = .ok (decide (p ≥ 0)) w := by
  simp only [Iterator.hasNext, ha0, if_false, if_true, pure_run]

theorem iterator_get {w : World T} {a : Nat} {xs : List T} {cap : Nat} (h : Holds w a xs cap)
    (ha0 : a ≠ 0) (i : Nat) (hi : i < xs.length) (r : Bool) :
    Iterator.get { owner_ := a, pos_ := (i : Int), reverse_ := r } w = .ok xs[i] w := by
  simp only [Iterator.get, ha0, if_false]
  exact subscript_ok h i hi

/-- The forward traversal from position `done.length` yields the remaining elements. -/
theorem traverse_forward {w : World T} {a : Nat} {cap : Nat} (ha0 : a ≠ 0) (todo : List T) :
    ∀ (done : List T) (fuel : Nat), Holds w a (done ++ todo) cap → todo.length ≤ fuel →
      traverse fuel { owner_ := a, pos_ := (done.length : Nat), reverse_ := false } w
        = .ok todo w := by
  induction todo with
  | nil =>
    intro done fuel h _
    have hn := hasNext_forward h ha0 (done.length : Nat)
    simp only [List.append_nil, lt_self_iff_false, decide_False] at hn
    cases fuel with
    | zero =>
      unfold traverse
      rw [bind_ok hn]
      rfl
    | succ f =>
      unfold traverse
      rw [bind_ok hn]
      rfl
  | cons x todo ih =>
    intro done fuel h hf
    have hn := hasNext_forward h ha0 (done.length : Nat)
    have hlt : ((done.length : Nat) : Int) < ((done ++ x :: todo).length : Nat) := by
      simp
    simp only [hlt, decide_True] at hn
    have hmax := h.size_le
    simp only [INT_MAX, List.length_append, List.length_cons] at hmax
    cases fuel with
    | zero => simp at hf
    | succ f =>
      unfold traverse
      rw [bind_ok hn]
      simp only [if_true]
      have hin : done.length < (done ++ x :: todo).length := by simp
      have hget := iterator_get h ha0 done.length hin false
      have hx : (done ++ x :: todo)[done.length] = x := by
        have hq := getElem?_mid done todo x
        rw [List.getElem?_eq_getElem hin] at hq
        exact Option.some.inj hq
      rw [hx] at hget
      rw [bind_ok hget]
      have hnext : Iterator.next { owner_ := a, pos_ := (done.length : Nat), reverse_ := false } w
          = .ok { owner_ := a, pos_ := ((done ++ [x]).length : Nat), reverse_ := false } w := by
        unfold Iterator.next
        simp only [Bool.false_eq_true, if_false]
        rw [bind_ok (toInt_ok _ _ (by simp only [INT_MIN]; omega)
          (by simp only [INT_MAX]; omega))]
        simp
      rw [bind_ok hnext]
      have h2 : Holds w a ((done ++ [x]) ++ todo) cap := by
        simpa using h
      rw [bind_ok (ih (done ++ [x]) f h2 (by simpa using hf))]
      rfl

/-- The reverse traversal from position `todo.length - 1` yields `todo` backwards. -/
theorem traverse_reverse {w : World T} {a : Nat} {cap : Nat} (ha0 : a ≠ 0) (todo : List T) :
    ∀ (rest : List T) (fuel : Nat), Holds w a (todo ++ rest) cap → todo.length ≤ fuel →
      traverse fuel { owner_ := a, pos_ := (todo.length : Int) - 1, reverse_ := true } w
        = .ok todo.reverse w := by
  induction todo using List.reverseRecOn with
  | nil =>
    intro rest fuel h _
    have hn := hasNext_reverse (w := w) ha0 ((([] : List T).length : Int) - 1)
    have hneg : ¬ ((([] : List T).length : Int) - 1 ≥ 0) := by simp
    simp only [hneg, decide_False] at hn
    cases fuel with
    | zero =>
      unfold traverse
      rw [bind_ok hn]
      rfl
    | succ f =>
      unfold traverse
      rw [bind_ok hn]
      rfl
  | append_singleton todo x ih =>
    intro rest fuel h hf
    have hpos : (((todo ++ [x]).length : Nat) : Int) - 1 = (todo.length : Nat) := by
      simp
    rw [hpos]
    have hn := hasNext_reverse (w := w) ha0 (todo.length : Nat)
    have hge : ((todo.length : Nat) : Int) ≥ 0 := by omega
    simp only [hge, decide_True] at hn
    simp only [List.length_append, List.length_cons, List.length_nil] at hf
    cases fuel with
    | zero => omega
    | succ f =>
      unfold traverse
      rw [bind_ok hn]
      simp only [if_true]
      have h2 : Holds w a (todo ++ x :: rest) cap := by
        simpa using h
      have hin : todo.length < (todo ++ x :: rest).length := by simp
      have hget := iterator_get h2 ha0 todo.length hin true
      have hx : (todo ++ x :: rest)[todo.length] = x := by
        have hq := getElem?_mid todo rest x
        rw [List.getElem?_eq_getElem hin] at hq
        exact Option.some.inj hq
      rw [hx] at hget
      rw [bind_ok hget]
      have hmax := h2.size_le
      simp only [INT_MAX, List.length_append, List.length_cons] at hmax
      have hnext : Iterator.next { owner_ := a, pos_ := (todo.length : Nat), reverse_ := true } w
          = .ok { owner_ := a, pos_ := (todo.length : Int) - 1, reverse_ := true } w := by
        unfold Iterator.next
        simp only [if_true]
        rw [bind_ok (toInt_ok _ _ (by simp only [INT_MIN]; omega)
          (by simp only [INT_MAX]; omega))]
        rfl
      rw [bind_ok hnext]
      rw [bind_ok (ih (x :: rest) f h2 (by omega))]
      simp

theorem next_forward (w : World T) (a : Nat) (p : Int) (h1 : INT_MIN ≤ p)
    (h2 : p + 1 ≤ INT_MAX) :
    Iterator.next { owner_ := a, pos_ := p, reverse_ := false } w
      = .ok { owner_ := a, pos_ := p + 1, reverse_ := false } w := by
  unfold Iterator.next
  simp only [Bool.false_eq_true, if_false]
  rw [bind_ok (toInt_ok _ _ (by omega) h2)]
  rfl

theorem next_reverse (w : World T) (a : Nat) (p : Int) (h1 : INT_MIN ≤ p - 1)
    (h2 : p ≤ INT_MAX) :
    Iterator.next { owner_ := a, pos_ := p, reverse_ := true } w
      = .ok { owner_ := a, pos_ := p - 1, reverse_ := true } w := by
  unfold Iterator.next
  simp only [if_true]
  rw [bind_ok (toInt_ok _ _ h1 (by omega))]
  rfl

theorem advanceN_forward (w : World T) (a : Nat) :
    ∀ (j : Nat) (p : Int), INT_MIN ≤ p → p + j ≤ INT_MAX →
      advanceN j { owner_ := a, pos_ := p, reverse_ := false } w
        = .ok { owner_ := a, pos_ := p + j, reverse_ := false } w
  | 0, p, _, _ => by
    simp [advanceN]
  | j + 1, p, h1, h2 => by
    unfold advanceN
    push_cast at h2
    rw [bind_ok (next_forward w a p h1 (by omega))]
    rw [advanceN_forward w a j (p + 1) (by omega) (by omega)]
    congr 2
    push_cast
    ring

theorem advanceN_reverse (w : World T) (a : Nat) :
    ∀ (j : Nat) (p : Int), INT_MIN ≤ p - j → p ≤ INT_MAX →
      advanceN j { owner_ := a, pos_ := p, reverse_ := true } w
        = .ok { owner_ := a, pos_ := p - j, reverse_ := true } w
  | 0, p, _, _ => by
    simp [advanceN]
  | j + 1, p, h1, h2 => by
    unfold advanceN
    push_cast at h1
    rw [bind_ok (next_reverse w a p (by omega) h2)]
    rw [advanceN_reverse w a j (p - 1) (by omega) (by omega)]
    congr 2
    push_cast
    ring

theorem reverseIterator_run {w : World T} {a : Nat} {xs : List T} {cap : Nat}
    (h : Holds w a xs cap) :
    Array.reverseIterator a w
      = .ok { owner_ := a, pos_ := (xs.length : Int) - 1, reverse_ := true } w := by
  have hmax := h.size_le
  simp only [INT_MAX] at hmax
  unfold Array.reverseIterator
  rw [bind_ok (getObj_run a w), h.size_eq]
  by_cases hn : (xs.length : Int) > 0
  · simp only [hn, if_true]
    rw [bind_ok (toInt_ok _ _ (by simp only [INT_MIN]; omega) (by simp only [INT_MAX]; omega))]
    rfl
  · simp only [hn, if_false]
    rw [bind_ok (pure_run _ _), pure_run]
    have : (xs.length : Int) = 0 := by omega
    rw [this]
    rfl

/-- C9: for a container holding `xs` (length n), the forward view of `iterator()`,
used by `get()` then `next()` while `hasNext()`, yields exactly `xs` in order; the
first `get()` returns element 0; after `j ≤ n` advances the view is at position `j`
and `hasNext()` is false exactly when that position equals n; at a position `p < n`,
`it++` returns a view still at `p` (dereferencing to element `p`) and leaves the
iterator at `p + 1`, while `++it` returns the view at `p + 1`. -/
theorem C9_forward_view (w : World T) (a : Nat) (xs : List T) (cap : Nat)
    (h : Holds w a xs cap) (ha0 : a ≠ 0) :
    (∀ fuel, xs.length ≤ fuel → (Array.iterator a >>= traverse fuel) w = .ok xs w)
    ∧ (∀ h0 : 0 < xs.length, (Array.iterator a >>= fun it => it.get) w = .ok xs[0] w)
    ∧ (∀ j : Nat, j ≤ xs.length →
        ∃ it r, (Array.iterator a >>= advanceN j) w = .ok it w ∧ it.pos_ = j
          ∧ it.hasNext w = .ok r w ∧ (r = false ↔ it.pos_ = xs.length))
    ∧ (∀ (p : Nat) (hp : p < xs.length),
        Iterator.post_incr { owner_ := a, pos_ := p, reverse_ := false } w
          = .ok ({ owner_ := a, pos_ := p, reverse_ := false },
                 { owner_ := a, pos_ := (p : Int) + 1, reverse_ := false }) w
        ∧ Iterator.deref { owner_ := a, pos_ := p, reverse_ := false } w = .ok xs[p] w
        ∧ Iterator.pre_incr { owner_ := a, pos_ := p, reverse_ := false } w
          = .ok { owner_ := a, pos_ := (p : Int) + 1, reverse_ := false } w) := by
  have hmax := h.size_le
  simp only [INT_MAX] at hmax
  have hit : Array.iterator a w = .ok { owner_ := a, pos_ := 0, reverse_ := false } w := rfl
  refine ⟨?_, ?_, ?_, ?_⟩
  · intro fuel hf
    rw [bind_ok hit]
    exact traverse_forward ha0 xs [] fuel (by simpa using h) hf
  · intro h0
    rw [bind_ok hit]
    exact iterator_get h ha0 0 h0 false
  · intro j hj
    have hadv := advanceN_forward w a j 0 (by simp only [INT_MIN]; omega)
      (by simp only [INT_MAX]; omega)
    rw [zero_add] at hadv
    refine ⟨{ owner_ := a, pos_ := (j : Int), reverse_ := false },
      decide ((j : Int) < (xs.length : Int)), by rw [bind_ok hit]; exact hadv, rfl,
      hasNext_forward h ha0 _, ?_⟩
    rw [decide_eq_false_iff_not]
    constructor
    · intro hge
      show (j : Int) = (xs.length : Int)
      omega
    · intro heq
      have heq2 : (j : Int) = (xs.length : Int) := heq
      omega
  · intro p hp
    have hnext := next_forward w a (p : Int) (by simp only [INT_MIN]; omega)
      (by simp only [INT_MAX]; omega)
    refine ⟨?_, iterator_get h ha0 p hp false, hnext⟩
    unfold Iterator.post_incr
    rw [bind_ok hnext]
    rfl

/-- Witness of C9: the forward view over `[10, 20, 30]`. -/
theorem C9_forward_view_witness :
    Holds (World.single [10, 20, 30] 8) 1 [10, 20, 30] 8 ∧ (1 : Nat) ≠ 0
    ∧ (∀ fuel, [10, 20, 30].length ≤ fuel →
        (Array.iterator 1 >>= traverse fuel) (World.single [10, 20, 30] 8)
          = .ok [10, 20, 30] (World.single [10, 20, 30] 8))
    ∧ (∀ h0 : 0 < ([10, 20, 30] : List Int).length,
        (Array.iterator 1 >>= fun it => it.get) (World.single [10, 20, 30] 8)
          = .ok ([10, 20, 30] : List Int)[0] (World.single [10, 20, 30] 8))
    ∧ (∀ j : Nat, j ≤ ([10, 20, 30] : List Int).length →
        ∃ it r, (Array.iterator 1 >>= advanceN j) (World.single [10, 20, 30] 8)
            = .ok it (World.single [10, 20, 30] 8) ∧ it.pos_ = j
          ∧ it.hasNext (World.single [10, 20, 30] 8) = .ok r (World.single [10, 20, 30] 8)
          ∧ (r = false ↔ it.pos_ = ([10, 20, 30] : List Int).length))
    ∧ (∀ (p : Nat) (hp : p < ([10, 20, 30] : List Int).length),
        Iterator.post_incr { owner_ := 1, pos_ := p, reverse_ := false }
            (World.single [10, 20, 30] 8)
          = .ok ({ owner_ := 1, pos_ := p, reverse_ := false },
                 { owner_ := 1, pos_ := (p : Int) + 1, reverse_ := false })
              (World.single [10, 20, 30] 8)
        ∧ Iterator.deref { owner_ := 1, pos_ := p, reverse_ := false }
            (World.single [10, 20, 30] 8)
          = .ok ([10, 20, 30] : List Int)[p] (World.single [10, 20, 30] 8)
        ∧ Iterator.pre_incr { owner_ := 1, pos_ := p, reverse_ := false }
            (World.single [10, 20, 30] 8)
          = .ok { owner_ := 1, pos_ := (p : Int) + 1, reverse_ := false }
              (World.single [10, 20, 30] 8)) :=
  have hh : Holds (World.single [10, 20, 30] 8) 1 [10, 20, 30] 8 :=
    ⟨rfl, rfl, by decide, by decide, by decide, by decide, by decide, fun _ => rfl⟩
  ⟨hh, by decide, C9_forward_view (World.single [10, 20, 30] 8) 1 [10, 20, 30] 8 hh (by decide)⟩

/-- C10: for a container holding `xs` (length n), the reverse view of
`reverseIterator()`, used by `get()` then `next()` while `hasNext()`, yields exactly
the elements at indices n-1, n-2, ..., 0 in that order; after these n advances it is
at position -1 and `hasNext()` is false; for an empty container it yields nothing. -/
theorem C10_reverse_view (w : World T) (a : Nat) (xs : List T) (cap : Nat)
    (h : Holds w a xs cap) (ha0 : a ≠ 0) :
    (∀ fuel, xs.length ≤ fuel →
        (Array.reverseIterator a >>= traverse fuel) w = .ok xs.reverse w)
    ∧ ((Array.reverseIterator a >>= advanceN xs.length) w
        = .ok { owner_ := a, pos_ := -1, reverse_ := true } w
      ∧ Iterator.hasNext { owner_ := a, pos_ := -1, reverse_ := true } w = .ok false w)
    ∧ (xs = [] → ∀ fuel, (Array.reverseIterator a >>= traverse fuel) w = .ok [] w) := by
  have hmax := h.size_le
  simp only [INT_MAX] at hmax
  have hrun : ∀ fuel, xs.length ≤ fuel →
      (Array.reverseIterator a >>= traverse fuel) w = .ok xs.reverse w := by
    intro fuel hf
    rw [bind_ok (reverseIterator_run h)]
    exact traverse_reverse ha0 xs [] fuel (by simpa using h) hf
  refine ⟨hrun, ⟨?_, ?_⟩, ?_⟩
  · rw [bind_ok (reverseIterator_run h)]
    rw [advanceN_reverse w a xs.length _ (by simp only [INT_MIN]; omega)
      (by simp only [INT_MAX]; omega)]
    congr 2
    omega
  · rw [hasNext_reverse ha0]
    rfl
  · intro hnil fuel
    have := hrun fuel (by simp [hnil])
    simpa [hnil] using this

/-- Witness of C10: the reverse view over `[1, 2, 3]`. -/
theorem C10_reverse_view_witness :
    Holds (World.single [1, 2, 3] 8) 1 [1, 2, 3] 8 ∧ (1 : Nat) ≠ 0
    ∧ (∀ fuel, [1, 2, 3].length ≤ fuel →
        (Array.reverseIterator 1 >>= traverse fuel) (World.single [1, 2, 3] 8)
          = .ok [1, 2, 3].reverse (World.single [1, 2, 3] 8))
    ∧ ((Array.reverseIterator 1 >>= advanceN [1, 2, 3].length) (World.single [1, 2, 3] 8)
        = .ok { owner_ := 1, pos_ := -1, reverse_ := true } (World.single [1, 2, 3] 8)
      ∧ Iterator.hasNext { owner_ := 1, pos_ := -1, reverse_ := true }
          (World.single [1, 2, 3] 8) = .ok false (World.single [1, 2, 3] 8))
    ∧ (([1, 2, 3] : List Int) = [] → ∀ fuel,
        (Array.reverseIterator 1 >>= traverse fuel) (World.single [1, 2, 3] 8)
          = .ok [] (World.single [1, 2, 3] 8)) :=
  have hh : Holds (World.single [1, 2, 3] 8) 1 [1, 2, 3] 8 :=
    ⟨rfl, rfl, by decide, by decide, by decide, by decide, by decide, fun _ => rfl⟩
  ⟨hh, by decide, C10_reverse_view (World.single [1, 2, 3] 8) 1 [1, 2, 3] 8 hh (by decide)⟩

end Traversal

section Modify

variable {ops : ElemOps T}

/-- Replacing the contents of the buffer by as many elements keeps the representation. -/
theorem Holds.upd_contents {w : World T} {a : Nat} {xs : List T} {cap : Nat}
    (h : Holds w a xs cap) (ys : List T) (hlen : ys.length = xs.length) (c d : Nat) :
    Holds (w.upd (w.objs a).data_ (slotsOf ys cap) c d) a ys cap := by
  refine ⟨?_, ?_, ?_, h.cap_le, h.brk_pos, h.data_lt, h.null_iff, ?_⟩
  · rw [upd_objs, h.size_eq, hlen]
  · rw [upd_objs, h.cap_eq]
  · rw [hlen]
    exact h.len_le
  · intro _
    rw [upd_objs]
    exact upd_heap_self _ _ _ _ _

/-- What `a[i] = v` does to a container holding `pre ++ x :: post`, at `i = pre.length`. -/
theorem subscript_assign_run (hl : ops.Lawful) {w : World T} {a : Nat} {pre post : List T}
    {x : T} {cap : Nat} (h : Holds w a (pre ++ x :: post) cap) (v : T) :
    Array.subscript_assign ops a pre.length v w
      = .ok () (w.upd (w.objs a).data_ (slotsOf (pre ++ v :: post) cap) 0 0) := by
  have hlen := h.len_le
  have hc : cap ≠ 0 := by
    simp only [List.length_append, List.length_cons] at hlen
    omega
  have hp := h.data_ne hc
  have hb := h.buf hc
  rw [slotsOf_split] at hb
  have hget := getElem?_mid (pre.map some)
    (post.map some ++ List.replicate (cap - (pre ++ x :: post).length) none) (some x)
  rw [List.length_map] at hget
  unfold Array.subscript_assign
  rw [bind_ok (getObj_run a w)]
  have hassert : decide ((pre.length : Int) ≥ 0 ∧ (pre.length : Int) < (w.objs a).size_)
      = true := by
    rw [h.size_eq]
    simp
  rw [hassert, bind_ok (assert_true w), bind_ok (readSlot_ok hp hb rfl hget)]
  simp only [hl.assign_eq]
  rw [writeSlot_ok v hp hb rfl hget]
  have hset := set_mid (pre.map some)
    (post.map some ++ List.replicate (cap - (pre ++ x :: post).length) none) (some x) (some v)
  rw [List.length_map] at hset
  rw [hset, slotsOf_split]
  simp

/-- The iterate-and-modify loop from position `done.length` applies `f` to each of the
remaining elements, in place. -/
theorem iterateAndModify_run (hl : ops.Lawful) {a : Nat} {cap : Nat} (ha0 : a ≠ 0) (f : T → T)
    (todo : List T) :
    ∀ (done : List T) (fuel : Nat) (w : World T), Holds w a (done ++ todo) cap →
      todo.length ≤ fuel →
      ∃ w1, iterateAndModify ops f fuel
          { owner_ := a, pos_ := (done.length : Nat), reverse_ := false } w = .ok () w1
        ∧ Holds w1 a (done ++ todo.map f) cap ∧ w1.objs = w.objs
        ∧ w1.ctors = w.ctors ∧ w1.dtors = w.dtors ∧ w1.mallocCalls = w.mallocCalls := by
  induction todo with
  | nil =>
    intro done fuel w h _
    have hn := hasNext_forward h ha0 (done.length : Nat)
    simp only [List.append_nil, lt_self_iff_false, decide_False] at hn
    refine ⟨w, ?_, by simpa using h, rfl, rfl, rfl, rfl⟩
    cases fuel with
    | zero =>
      unfold iterateAndModify
      rw [bind_ok hn]
      rfl
    | succ g =>
      unfold iterateAndModify
      rw [bind_ok hn]
      rfl
  | cons x todo ih =>
    intro done fuel w h hf
    have hn := hasNext_forward h ha0 (done.length : Nat)
    have hlt : ((done.length : Nat) : Int) < ((done ++ x :: todo).length : Nat) := by
      simp
    simp only [hlt, decide_True] at hn
    have hmax := h.size_le
    simp only [INT_MAX, List.length_append, List.length_cons] at hmax
    cases fuel with
    | zero => simp at hf
    | succ g =>
      unfold iterateAndModify
      rw [bind_ok hn]
      simp only [if_true]
      have hin : done.length < (done ++ x :: todo).length := by simp
      have hget := iterator_get h ha0 done.length hin false
      have hx : (done ++ x :: todo)[done.length] = x := by
        have hq := getElem?_mid done todo x
        rw [List.getElem?_eq_getElem hin] at hq
        exact Option.some.inj hq
      rw [hx] at hget
      rw [bind_ok hget]
      have hset : Iterator.set ops { owner_ := a, pos_ := (done.length : Nat), reverse_ := false }
          (f x) w = .ok () (w.upd (w.objs a).data_ (slotsOf (done ++ f x :: todo) cap) 0 0) := by
        simp only [Iterator.set, ha0, if_false]
        exact subscript_assign_run hl h (f x)
      rw [bind_ok hset]
      have h1 : Holds (w.upd (w.objs a).data_ (slotsOf (done ++ f x :: todo) cap) 0 0) a
          (done ++ f x :: todo) cap := h.upd_contents _ (by simp) 0 0
      have hnext : Iterator.next { owner_ := a, pos_ := (done.length : Nat), reverse_ := false }
          (w.upd (w.objs a).data_ (slotsOf (done ++ f x :: todo) cap) 0 0)
          = .ok { owner_ := a, pos_ := ((done ++ [f x]).length : Nat), reverse_ := false }
              (w.upd (w.objs a).data_ (slotsOf (done ++ f x :: todo) cap) 0 0) := by
        unfold Iterator.next
        simp only [Bool.false_eq_true, if_false]
        rw [bind_ok (toInt_ok _ _ (by simp only [INT_MIN]; omega)
          (by simp only [INT_MAX]; omega))]
        simp
      rw [bind_ok hnext]
      have h2 : Holds (w.upd (w.objs a).data_ (slotsOf (done ++ f x :: todo) cap) 0 0) a
          ((done ++ [f x]) ++ todo) cap := by
        simpa using h1
      obtain ⟨w1, hrun, hh, hobjs, hc, hd, hmc⟩ := ih (done ++ [f x]) g _ h2 (by simpa using hf)
      refine ⟨w1, hrun, by simpa using hh, by rw [hobjs, upd_objs], ?_, ?_, ?_⟩
      · rw [hc]
        simp [World.upd]
      · rw [hd]
        simp [World.upd]
      · rw [hmc]
        rfl

/-- C11: for a container holding `xs` in `cap` slots (element assignment storing the
assigned value) and every function `f`, the loop
`for (it = a.iterator(); it.hasNext(); it.next()) it.set(f(it.get()))` terminates
(any budget of at least `length` iterations is enough) and leaves the container with
the same length, capacity and buffer and with element `i` equal to `f` of the former
element `i`, for every `i` in `[0, length)`; no element is constructed or destroyed. -/
theorem C11_iterate_and_modify (ops : ElemOps T) (hl : ops.Lawful) (w : World T) (a : Nat)
    (xs : List T) (cap : Nat) (h : Holds w a xs cap) (ha0 : a ≠ 0) (f : T → T) (fuel : Nat)
    (hf : xs.length ≤ fuel) :
    ∃ w1, (Array.iterator a >>= iterateAndModify ops f fuel) w = .ok () w1
      ∧ Holds w1 a (xs.map f) cap
      ∧ Array.size a w1 = .ok (xs.length : Int) w1
      ∧ Array.capacity a w1 = .ok (cap : Int) w1
      ∧ w1.objs a = w.objs a
      ∧ w1.ctors = w.ctors ∧ w1.dtors = w.dtors
      ∧ ∀ (i : Nat) (hi : i < xs.length), Array.subscript a i w1 = .ok (f xs[i]) w1 := by
  have hit : Array.iterator a w = .ok { owner_ := a, pos_ := 0, reverse_ := false } w := rfl
  obtain ⟨w1, hrun, hh, hobjs, hc, hd, _⟩ :=
    iterateAndModify_run hl ha0 f xs [] fuel w (by simpa using h) hf
  simp only [List.nil_append] at hh
  refine ⟨w1, ?_, hh, ?_, capacity_ok hh, by rw [hobjs], hc, hd, ?_⟩
  · rw [bind_ok hit]
    exact hrun
  · have := size_ok hh
    simpa using this
  · intro i hi
    have := subscript_ok hh i (by simpa using hi)
    simpa using this

/-- Witness of C11: doubling the elements of `[1, 2, 3]` in place. -/
theorem C11_iterate_and_modify_witness :
    intOps.Lawful ∧ Holds (World.single [1, 2, 3] 8) 1 [1, 2, 3] 8 ∧ (1 : Nat) ≠ 0
    ∧ [1, 2, 3].length ≤ 3
    ∧ ∃ w1, (Array.iterator 1 >>= iterateAndModify intOps (fun x => x * 2) 3)
          (World.single [1, 2, 3] 8) = .ok () w1
      ∧ Holds w1 1 ([1, 2, 3].map (fun x => x * 2)) 8
      ∧ Array.size 1 w1 = .ok (([1, 2, 3] : List Int).length : Int) w1
      ∧ Array.capacity 1 w1 = .ok ((8 : Nat) : Int) w1
      ∧ w1.objs 1 = (World.single [1, 2, 3] 8).objs 1
      ∧ w1.ctors = (World.single [1, 2, 3] 8).ctors
      ∧ w1.dtors = (World.single [1, 2, 3] 8).dtors
      ∧ ∀ (i : Nat) (hi : i < ([1, 2, 3] : List Int).length),
          Array.subscript 1 i w1 = .ok ((fun x => x * 2) ([1, 2, 3] : List Int)[i]) w1 :=
  have hh : Holds (World.single [1, 2, 3] 8) 1 [1, 2, 3] 8 :=
    ⟨rfl, rfl, by decide, by decide, by decide, by decide, by decide, fun _ => rfl⟩
  ⟨intOps_lawful, hh, by decide, by decide,
    C11_iterate_and_modify intOps intOps_lawful (World.single [1, 2, 3] 8) 1 [1, 2, 3] 8 hh
      (by decide) (fun x => x * 2) 3 (by decide)⟩

end Modify

section SwapClear

/-- Swapping a container with itself changes nothing. -/
theorem swap_self (a : Nat) (w : World T) : Array.swap a a w = .ok () w := by
  simp only [Array.swap, bind_run, M.bind, getObj_run, setObj_run, Function.update_same,
    Function.update_idem]
  congr 1
  cases w
  simp only [World.mk.injEq, and_true]
  exact Function.update_eq_self _ _

/-- C12: `a.swap(b)` on two containers leaves `a` with exactly the buffer, elements,
length and capacity `b` had and `b` with those `a` had; the heap is untouched (no
element value is changed, copied or destroyed), no element constructor or destructor
runs and nothing is allocated; swapping a container with itself changes nothing. -/
theorem C12_swap_exchanges (w : World T) (a b : Nat) (xs ys : List T) (capA capB : Nat)
    (ha : Holds w a xs capA) (hb : Holds w b ys capB) :
    (a ≠ b → ∃ w1, Array.swap a b w = .ok () w1
      ∧ Holds w1 a ys capB ∧ Holds w1 b xs capA
      ∧ w1.objs a = w.objs b ∧ w1.objs b = w.objs a
      ∧ Array.size a w1 = .ok (ys.length : Int) w1
      ∧ Array.capacity a w1 = .ok (capB : Int) w1
      ∧ Array.size b w1 = .ok (xs.length : Int) w1
      ∧ Array.capacity b w1 = .ok (capA : Int) w1
      ∧ (∀ o, o ≠ a → o ≠ b → w1.objs o = w.objs o)
      ∧ w1.heap = w.heap ∧ w1.brk = w.brk
      ∧ w1.ctors = w.ctors ∧ w1.dtors = w.dtors ∧ w1.mallocCalls = w.mallocCalls)
    ∧ Array.swap a a w = .ok () w := by
  refine ⟨fun hab => ?_, swap_self a w⟩
  have h1 : Holds { w with objs := (Function.update (Function.update w.objs a (w.objs b)) b
      (w.objs a)) } a ys capB :=
    hb.transfer (by simp [Function.update_noteq hab]) rfl (le_refl _)
  have h2 : Holds { w with objs := (Function.update (Function.update w.objs a (w.objs b)) b
      (w.objs a)) } b xs capA :=
    ha.transfer (by simp) rfl (le_refl _)
  refine ⟨_, swap_run hab w, h1, h2, by simp [Function.update_noteq hab], by simp,
    size_ok h1, capacity_ok h1, size_ok h2, capacity_ok h2, ?_, rfl, rfl, rfl, rfl, rfl⟩
  intro o hoa hob
  simp [Function.update_noteq hoa, Function.update_noteq hob]

/-- Witness of C12: swapping `[9]` (capacity 2) with `[1, 2, 3]` (capacity 4). -/
theorem C12_swap_exchanges_witness :
    Holds (World.pair [9] 2 [1, 2, 3] 4 false) 1 [9] 2
    ∧ Holds (World.pair [9] 2 [1, 2, 3] 4 false) 2 [1, 2, 3] 4
    ∧ ((1 : Nat) ≠ 2 → ∃ w1, Array.swap 1 2 (World.pair [9] 2 [1, 2, 3] 4 false) = .ok () w1
      ∧ Holds w1 1 [1, 2, 3] 4 ∧ Holds w1 2 [9] 2
      ∧ w1.objs 1 = (World.pair [9] 2 [1, 2, 3] 4 false).objs 2
      ∧ w1.objs 2 = (World.pair [9] 2 [1, 2, 3] 4 false).objs 1
      ∧ Array.size 1 w1 = .ok (([1, 2, 3] : List Int).length : Int) w1
      ∧ Array.capacity 1 w1 = .ok ((4 : Nat) : Int) w1
      ∧ Array.size 2 w1 = .ok (([9] : List Int).length : Int) w1
      ∧ Array.capacity 2 w1 = .ok ((2 : Nat) : Int) w1
      ∧ (∀ o, o ≠ 1 → o ≠ 2 → w1.objs o = (World.pair [9] 2 [1, 2, 3] 4 false).objs o)
      ∧ w1.heap = (World.pair [9] 2 [1, 2, 3] 4 false).heap
      ∧ w1.brk = (World.pair [9] 2 [1, 2, 3] 4 false).brk
      ∧ w1.ctors = (World.pair [9] 2 [1, 2, 3] 4 false).ctors
      ∧ w1.dtors = (World.pair [9] 2 [1, 2, 3] 4 false).dtors
      ∧ w1.mallocCalls = (World.pair [9] 2 [1, 2, 3] 4 false).mallocCalls)
    ∧ Array.swap 1 1 (World.pair [9] 2 [1, 2, 3] 4 false)
        = .ok () (World.pair [9] 2 [1, 2, 3] 4 false) :=
  have h1 : Holds (World.pair [9] 2 [1, 2, 3] 4 false) 1 [9] 2 :=
    ⟨rfl, rfl, by decide, by decide, by decide, by decide, by decide, fun _ => rfl⟩
  have h2 : Holds (World.pair [9] 2 [1, 2, 3] 4 false) 2 [1, 2, 3] 4 :=
    ⟨rfl, rfl, by decide, by decide, by decide, by decide, by decide, fun _ => rfl⟩
  ⟨h1, h2, C12_swap_exchanges (World.pair [9] 2 [1, 2, 3] 4 false) 1 2 [9] [1, 2, 3] 2 4 h1 h2⟩

/-- What `clear()` does to a container holding `xs`: the elements are destroyed, the
length becomes 0, the buffer and the capacity stay. -/
theorem clear_run {w : World T} {a : Nat} {xs : List T} {cap : Nat} (h : Holds w a xs cap) :
    ∃ w1, Array.clear a w = .ok () w1 ∧ Holds w1 a [] cap
      ∧ (w1.objs a).data_ = (w.objs a).data_ ∧ Frame w w1 a
      ∧ w1.ctors = w.ctors ∧ w1.dtors = w.dtors + xs.length
      ∧ w1.mallocCalls = w.mallocCalls := by
  have hlen := h.len_le
  unfold Array.clear
  rw [bind_ok (getObj_run a w)]
  by_cases hc : cap = 0
  · have hx : xs = [] := List.eq_nil_of_length_eq_zero (by omega)
    subst hx
    have hdr : destroy_range (w.objs a).data_ (w.objs a).size_ w = .ok () w := by
      rw [h.size_eq]
      rfl
    rw [bind_ok hdr, setObj_run]
    refine ⟨_, rfl, holds_of_parts (p := (w.objs a).data_) ?_ ?_ (by simp) h.cap_le h.brk_pos
      h.data_lt h.null_iff, by simp, ⟨?_, ?_, le_refl _, rfl, ?_⟩, rfl, rfl, rfl⟩
    · simp [h.cap_eq]
    · intro hne
      exact absurd hc hne
    · intro o ho
      simp [Function.update_noteq ho]
    · intro q _ _
      rfl
    · left
      simp
  · rw [bind_ok (destroy_range_ok h hc), setObj_run]
    refine ⟨_, rfl, holds_of_parts (p := (w.objs a).data_) ?_ ?_ (by simp) h.cap_le h.brk_pos
      h.data_lt h.null_iff, by simp, Frame.local w a _ _ _ _ rfl, ?_, ?_, rfl⟩
    · simp [h.cap_eq]
    · intro _
      simp [slotsOf]
    · simp [World.upd]
    · simp [World.upd]

/-- C13: for a container holding `xs` in `cap` slots, `clear()` returns and leaves
`size() == 0`, `empty() == true`, `capacity()` still `cap` and the same buffer
(nothing is deallocated); every element is destroyed once and none is constructed. -/
theorem C13_clear_keeps_capacity (w : World T) (a : Nat) (xs : List T) (cap : Nat)
    (h : Holds w a xs cap) :
    ∃ w1, Array.clear a w = .ok () w1
      ∧ Array.size a w1 = .ok 0 w1
      ∧ Array.empty a w1 = .ok true w1
      ∧ Array.capacity a w1 = .ok (cap : Int) w1
      ∧ Array.capacity a w = .ok (cap : Int) w
      ∧ (w1.objs a).data_ = (w.objs a).data_
      ∧ Holds w1 a [] cap
      ∧ w1.dtors = w.dtors + xs.length ∧ w1.ctors = w.ctors
      ∧ w1.mallocCalls = w.mallocCalls := by
  obtain ⟨w1, hrun, hh, hd, _, hc, hdt, hmc⟩ := clear_run h
  refine ⟨w1, hrun, ?_, ?_, capacity_ok hh, capacity_ok h, hd, hh, hdt, hc, hmc⟩
  · have := size_ok hh
    simpa using this
  · unfold Array.empty
    rw [bind_ok (getObj_run a w1), pure_run, hh.size_eq]
    rfl

/-- Witness of C13: clearing `[1, 2, 3]` in a buffer of 4 slots. -/
theorem C13_clear_keeps_capacity_witness :
    Holds (World.single [1, 2, 3] 4) 1 [1, 2, 3] 4
    ∧ ∃ w1, Array.clear 1 (World.single [1, 2, 3] 4) = .ok () w1
      ∧ Array.size 1 w1 = .ok 0 w1
      ∧ Array.empty 1 w1 = .ok true w1
      ∧ Array.capacity 1 w1 = .ok ((4 : Nat) : Int) w1
      ∧ Array.capacity 1 (World.single [1, 2, 3] 4) = .ok ((4 : Nat) : Int)
          (World.single [1, 2, 3] 4)
      ∧ (w1.objs 1).data_ = ((World.single [1, 2, 3] 4).objs 1).data_
      ∧ Holds w1 1 [] 4
      ∧ w1.dtors = (World.single [1, 2, 3] 4).dtors + ([1, 2, 3] : List Int).length
      ∧ w1.ctors = (World.single [1, 2, 3] 4).ctors
      ∧ w1.mallocCalls = (World.single [1, 2, 3] 4).mallocCalls :=
  have hh : Holds (World.single [1, 2, 3] 4) 1 [1, 2, 3] 4 :=
    ⟨rfl, rfl, by decide, by decide, by decide, by decide, by decide, fun _ => rfl⟩
  ⟨hh, C13_clear_keeps_capacity (World.single [1, 2, 3] 4) 1 [1, 2, 3] 4 hh⟩

end SwapClear

section Constructors

theorem allocate_raw_fails {w : World T} {n : Int} (hn : 0 < n)
    (hm : w.mallocFails w.mallocCalls = true) :
    allocate_raw n w = .throw { w with mallocCalls := w.mallocCalls + 1 } := by
  have h1 : ¬ n ≤ 0 := by omega
  simp [allocate_raw, h1, malloc, hm, M.bind, raise]

theorem normalize_capacity_pos (c : Int) : 0 < normalize_capacity c := by
  unfold normalize_capacity
  split_ifs with h
  · exact h
  · decide

/-- C15: for every `int` value `c`, `Array(c)` either throws `bad_alloc` (when the
allocation fails, and then no container exists) or constructs a container with
`size() == 0`, `empty()`, and `capacity() == c` when `c > 0`, `capacity() == 8` when
`c <= 0`; `Array()` likewise constructs a container with `size() == 0` and
`capacity() == 8`.  The buffer is a fresh block of `capacity()` raw slots. -/
theorem C15_constructor_capacity (w : World T) (a : Nat) (c : Int) (hc : c ≤ INT_MAX)
    (hbrk : 0 < w.brk) :
    (w.mallocFails w.mallocCalls = false →
      (∃ w1, Array.new_cap a c w = .ok () w1
        ∧ Array.size a w1 = .ok 0 w1
        ∧ Array.empty a w1 = .ok true w1
        ∧ Array.capacity a w1 = .ok (if c > 0 then c else 8) w1
        ∧ Holds w1 a [] (if c > 0 then c.toNat else 8))
      ∧ (∃ w1, Array.new a w = .ok () w1
        ∧ Array.size a w1 = .ok 0 w1
        ∧ Array.empty a w1 = .ok true w1
        ∧ Array.capacity a w1 = .ok 8 w1
        ∧ Holds w1 a [] 8))
    ∧ (w.mallocFails w.mallocCalls = true →
      Array.new_cap a c w = .throw { w with mallocCalls := w.mallocCalls + 1 }
      ∧ Array.new a w = .throw { w with mallocCalls := w.mallocCalls + 1 }) := by
  have hempty : ∀ {w1 : World T} {cap : Nat}, Holds w1 a [] cap →
      Array.size a w1 = .ok 0 w1 ∧ Array.empty a w1 = .ok true w1 := by
    intro w1 cap hh
    refine ⟨by simpa using size_ok hh, ?_⟩
    unfold Array.empty
    rw [bind_ok (getObj_run a w1), pure_run, hh.size_eq]
    rfl
  refine ⟨fun hm => ⟨?_, ?_⟩, fun hm => ⟨?_, ?_⟩⟩
  · have hn : normalize_capacity c ≤ INT_MAX := by
      unfold normalize_capacity
      split_ifs
      · exact hc
      · decide
    obtain ⟨w1, hrun, hh, _⟩ := new_cap_run w a c hbrk hm hn
    have hcap : (normalize_capacity c).toNat = if c > 0 then c.toNat else 8 := by
      unfold normalize_capacity
      split_ifs
      · rfl
      · rfl
    rw [hcap] at hh
    refine ⟨w1, hrun, (hempty hh).1, (hempty hh).2, ?_, hh⟩
    have := capacity_ok hh
    rw [this]
    congr 1
    split_ifs with hpos
    · exact Int.toNat_of_nonneg hpos.le
    · rfl
  · obtain ⟨w1, hrun, hh, _⟩ := new_run w a hbrk hm
    exact ⟨w1, hrun, (hempty hh).1, (hempty hh).2, capacity_ok hh, hh⟩
  · unfold Array.new_cap
    simp only [bind_run, M.bind, allocate_raw_fails (normalize_capacity_pos c) hm]
  · unfold Array.new
    simp only [bind_run, M.bind, allocate_raw_fails (by decide : 0 < kDefaultCapacity) hm]

/-- Witness of C15: `Array(5)` and `Array()` at program start. -/
theorem C15_constructor_capacity_witness :
    (5 : Int) ≤ INT_MAX ∧ 0 < (World.init Int).brk
    ∧ ((World.init Int).mallocFails (World.init Int).mallocCalls = false →
      (∃ w1, Array.new_cap 1 5 (World.init Int) = .ok () w1
        ∧ Array.size 1 w1 = .ok 0 w1
        ∧ Array.empty 1 w1 = .ok true w1
        ∧ Array.capacity 1 w1 = .ok (if (5 : Int) > 0 then 5 else 8) w1
        ∧ Holds w1 1 [] (if (5 : Int) > 0 then (5 : Int).toNat else 8))
      ∧ (∃ w1, Array.new 1 (World.init Int) = .ok () w1
        ∧ Array.size 1 w1 = .ok 0 w1
        ∧ Array.empty 1 w1 = .ok true w1
        ∧ Array.capacity 1 w1 = .ok 8 w1
        ∧ Holds w1 1 [] 8))
    ∧ ((World.init Int).mallocFails (World.init Int).mallocCalls = true →
      Array.new_cap 1 5 (World.init Int)
        = .throw { World.init Int with mallocCalls := (World.init Int).mallocCalls + 1 }
      ∧ Array.new 1 (World.init Int)
        = .throw { World.init Int with mallocCalls := (World.init Int).mallocCalls + 1 }) :=
  ⟨by decide, by decide, C15_constructor_capacity (World.init Int) 1 5 (by decide) (by decide)⟩

end Constructors

section Guards

variable {σ α β : Type}

theorem noAbort_pure (x : α) : NoAbort (pure x : M σ α) :=
  fun _ _ h => nomatch h

theorem noAbort_raise : NoAbort (raise : M σ α) :=
  fun _ _ h => nomatch h

theorem noAbort_undefined : NoAbort (undefined : M σ α) :=
  fun _ _ h => nomatch h

theorem noAbort_outOfFuel : NoAbort (outOfFuel : M σ α) :=
  fun _ _ h => nomatch h

theorem noAbort_bind {m : M σ α} {f : α → M σ β} (h1 : NoAbort m) (h2 : ∀ x, NoAbort (f x)) :
    NoAbort (m >>= f) := by
  intro s s1 h
  simp only [bind_run, M.bind] at h
  cases hm : m s with
  | ok x s2 =>
    rw [hm] at h
    exact h2 x s2 s1 h
  | throw s2 =>
    rw [hm] at h
    cases h
  | abort s2 => exact h1 s s2 hm
  | ub =>
    rw [hm] at h
    cases h
  | diverge =>
    rw [hm] at h
    cases h

theorem noAbort_ite {c : Prop} [Decidable c] {m1 m2 : M σ α} (h1 : NoAbort m1)
    (h2 : NoAbort m2) : NoAbort (if c then m1 else m2) := by
  split_ifs
  · exact h1
  · exact h2

theorem noAbort_toInt (x : Int) : NoAbort (toInt x : M σ Int) := by
  unfold toInt
  exact noAbort_ite (noAbort_pure x) noAbort_undefined

theorem noAbort_tryCatchLocal {L : Type} {body : σ → L × Res σ α} {handler : L → M σ α}
    (h1 : ∀ s s1, (body s).2 ≠ .abort s1) (h2 : ∀ l, NoAbort (handler l)) :
    NoAbort (tryCatchLocal body handler) := by
  intro s s1 h
  unfold tryCatchLocal at h
  have hb := h1 s
  rcases hbody : body s with ⟨l, r⟩
  rw [hbody] at h hb
  cases r with
  | ok x s2 => cases h
  | throw s2 => exact h2 l s2 s1 h
  | abort s2 => exact hb s2 rfl
  | ub => cases h
  | diverge => cases h

theorem noAbort_getObj (o : Nat) : NoAbort (getObj o : M (World T) Array) :=
  fun _ _ h => nomatch h

theorem noAbort_setObj (o : Nat) (r : Array) : NoAbort (setObj o r : M (World T) Unit) :=
  fun _ _ h => nomatch h

theorem noAbort_readSlot (p : Nat) (i : Int) : NoAbort (readSlot p i : M (World T) T) := by
  intro w w1 h
  unfold readSlot at h
  split at h
  · cases h
  · split at h
    · split at h <;> cases h
    · cases h

theorem noAbort_writeSlot (p : Nat) (i : Int) (v : T) :
    NoAbort (writeSlot p i v : M (World T) Unit) := by
  intro w w1 h
  unfold writeSlot at h
  split at h
  · cases h
  · split at h
    · split at h <;> cases h
    · cases h

theorem noAbort_place (p : Nat) (i : Int) (v : T) :
    NoAbort (place p i v : M (World T) Unit) := by
  intro w w1 h
  unfold place at h
  split at h
  · cases h
  · split at h
    · split at h <;> cases h
    · cases h

theorem noAbort_destroy_one (p : Nat) (i : Int) :
    NoAbort (destroy_one p i : M (World T) Unit) := by
  intro w w1 h
  unfold destroy_one at h
  split at h
  · cases h
  · split at h
    · split at h <;> cases h
    · cases h

theorem noAbort_malloc (n : Nat) : NoAbort (malloc n : M (World T) Nat) := by
  intro w w1 h
  unfold malloc at h
  split at h <;> cases h

theorem noAbort_free (p : Nat) : NoAbort (free p : M (World T) Unit) := by
  intro w w1 h
  unfold free at h
  split at h
  · cases h
  · split at h <;> cases h

theorem noAbort_allocate_raw (n : Int) : NoAbort (allocate_raw n : M (World T) Nat) := by
  unfold allocate_raw
  refine noAbort_ite (noAbort_pure 0) (noAbort_bind (noAbort_malloc _) (fun mem => ?_))
  exact noAbort_ite noAbort_raise (noAbort_pure mem)

theorem noAbort_destroy_range_loop (p : Nat) :
    ∀ (k : Nat) (i : Int), NoAbort (destroy_range_loop p k i : M (World T) Unit)
  | 0, _ => noAbort_pure ()
  | k + 1, i => by
    unfold destroy_range_loop
    exact noAbort_bind (noAbort_destroy_one p i) (fun _ => noAbort_destroy_range_loop p k (i + 1))

theorem noAbort_construct_at_copy (ops : ElemOps T) (p : Nat) (i : Int) (v : T) :
    NoAbort (construct_at_copy ops p i v) := by
  unfold construct_at_copy
  cases ops.copy v with
  | none => exact noAbort_raise
  | some y => exact noAbort_place p i y

theorem noAbort_construct_at_move (ops : ElemOps T) (p : Nat) (i : Int) (v : T) :
    NoAbort (construct_at_move ops p i v) := by
  unfold construct_at_move
  cases ops.move v with
  | none => exact noAbort_raise
  | some y => exact noAbort_place p i y.1

theorem noAbort_construct_at_from_slot (ops : ElemOps T) (p : Nat) (i : Int) (q : Nat)
    (j : Int) : NoAbort (construct_at_from_slot ops p i q j) := by
  unfold construct_at_from_slot
  refine noAbort_ite ?_ (noAbort_bind (noAbort_readSlot q j)
    (fun x => noAbort_construct_at_copy ops p i x))
  unfold construct_at_move_slot
  refine noAbort_bind (noAbort_readSlot q j) (fun x => ?_)
  cases ops.move x with
  | none => exact noAbort_raise
  | some y =>
    exact noAbort_bind (noAbort_writeSlot q j y.2) (fun _ => noAbort_place p i y.1)

theorem noAbort_grow_loop (min : Int) :
    ∀ (fuel : Nat) (nc : Int), NoAbort (grow_loop min fuel nc : M σ Int)
  | 0, nc => by
    unfold grow_loop
    exact noAbort_ite noAbort_outOfFuel (noAbort_pure nc)
  | fuel + 1, nc => by
    unfold grow_loop
    refine noAbort_ite ?_ (noAbort_pure nc)
    refine noAbort_bind (noAbort_toInt _) (fun grown => ?_)
    refine noAbort_bind ?_ (fun next => noAbort_grow_loop min fuel next)
    exact noAbort_ite (noAbort_pure grown) (noAbort_toInt _)

theorem noAbort_relocate_loop (ops : ElemOps T) (nb p : Nat) :
    ∀ (k : Nat) (i c : Int) (s s1 : World T), (relocate_loop ops nb p k i c s).2 ≠ .abort s1
  | 0, _, _, _, _ => fun h => nomatch h
  | k + 1, i, c, s, s1 => by
    simp only [relocate_loop]
    cases hm : construct_at_from_slot ops nb i p i s with
    | ok x s2 => exact noAbort_relocate_loop ops nb p k (i + 1) (c + 1) s2 s1
    | throw s2 => exact fun h => nomatch h
    | abort s2 => exact absurd hm (noAbort_construct_at_from_slot ops nb i p i s s2)
    | ub => exact fun h => nomatch h
    | diverge => exact fun h => nomatch h

theorem noAbort_ensure_capacity (ops : ElemOps T) (a : Nat) (min : Int) :
    NoAbort (ensure_capacity ops a min) := by
  unfold ensure_capacity
  refine noAbort_bind (noAbort_getObj a) (fun r => ?_)
  refine noAbort_ite (noAbort_pure ()) ?_
  refine noAbort_bind (noAbort_grow_loop _ _ _) (fun nc => ?_)
  refine noAbort_bind (noAbort_allocate_raw nc) (fun nb => ?_)
  refine noAbort_bind ?_ (fun _ => ?_)
  · refine noAbort_tryCatchLocal (noAbort_relocate_loop ops nb r.data_ _ _ _) (fun l => ?_)
    refine noAbort_bind (noAbort_destroy_range_loop _ _ _) (fun _ => ?_)
    exact noAbort_bind (noAbort_free nb) (fun _ => noAbort_raise)
  · refine noAbort_bind (noAbort_destroy_range_loop _ _ _) (fun _ => ?_)
    exact noAbort_bind (noAbort_free _) (fun _ => noAbort_setObj _ _)

theorem noAbort_shift_right_loop (ops : ElemOps T) (p : Nat) :
    ∀ (k : Nat) (i : Int), NoAbort (shift_right_loop ops p k i)
  | 0, _ => noAbort_pure ()
  | k + 1, i => by
    unfold shift_right_loop
    refine noAbort_bind (noAbort_construct_at_from_slot ops p i p (i - 1)) (fun _ => ?_)
    exact noAbort_bind (noAbort_destroy_one p (i - 1))
      (fun _ => noAbort_shift_right_loop ops p k (i - 1))

theorem noAbort_shift_left_loop (ops : ElemOps T) (p : Nat) :
    ∀ (k : Nat) (i : Int), NoAbort (shift_left_loop ops p k i)
  | 0, _ => noAbort_pure ()
  | k + 1, i => by
    unfold shift_left_loop
    refine noAbort_bind (noAbort_construct_at_from_slot ops p i p (i + 1)) (fun _ => ?_)
    exact noAbort_bind (noAbort_destroy_one p (i + 1))
      (fun _ => noAbort_shift_left_loop ops p k (i + 1))

theorem noAbort_shift_right (ops : ElemOps T) (a : Nat) (idx : Int) :
    NoAbort (shift_right ops a idx) := by
  unfold shift_right
  exact noAbort_bind (noAbort_getObj a) (fun r => noAbort_shift_right_loop ops _ _ _)

theorem noAbort_shift_left (ops : ElemOps T) (a : Nat) (idx : Int) :
    NoAbort (shift_left ops a idx) := by
  unfold shift_left
  refine noAbort_bind (noAbort_getObj a) (fun r => ?_)
  exact noAbort_bind (noAbort_toInt _) (fun last => noAbort_shift_left_loop ops _ _ _)

/-- C14: `operator[](index)` (read or write through the returned reference) and
`remove(index)` fail their guard exactly when `index < 0` or `index >= size_`, and
the positional `insert(index, value)` overloads exactly when `index < 0` or
`index > size_`; a guard failure leaves the state exactly as it was (no change to the
buffer, the length or the capacity), and when the guard holds no assertion fails in
the rest of the operation.  This holds from every state and for every element type. -/
theorem C14_guards (ops : ElemOps T) (w : World T) (a : Nat) (index : Int) (v : T) :
    Array.size a w = .ok (w.objs a).size_ w
    ∧ ((index < 0 ∨ index ≥ (w.objs a).size_) →
        Array.subscript a index w = .abort w
        ∧ Array.subscript_assign ops a index v w = .abort w
        ∧ Array.remove ops a index w = .abort w)
    ∧ (¬ (index < 0 ∨ index ≥ (w.objs a).size_) → ∀ w1,
        Array.subscript a index w ≠ .abort w1
        ∧ Array.subscript_assign ops a index v w ≠ .abort w1
        ∧ Array.remove ops a index w ≠ .abort w1)
    ∧ ((index < 0 ∨ index > (w.objs a).size_) →
        Array.insert_at ops a index (.obj v) w = .abort w
        ∧ Array.insert_at_rv ops a index (.obj v) w = .abort w)
    ∧ (¬ (index < 0 ∨ index > (w.objs a).size_) → ∀ w1,
        Array.insert_at ops a index (.obj v) w ≠ .abort w1
        ∧ Array.insert_at_rv ops a index (.obj v) w ≠ .abort w1) := by
  refine ⟨rfl, fun hout => ?_, fun hin w1 => ?_, fun hout => ?_, fun hin w1 => ?_⟩
  · have hc : decide (index ≥ 0 ∧ index < (w.objs a).size_) = false := by
      rw [decide_eq_false_iff_not]
      omega
    refine ⟨?_, ?_, ?_⟩
    · unfold Array.subscript
      rw [bind_ok (getObj_run a w), hc]
      rfl
    · unfold Array.subscript_assign
      rw [bind_ok (getObj_run a w), hc]
      rfl
    · unfold Array.remove
      rw [bind_ok (getObj_run a w), hc]
      rfl
  · have hc : decide (index ≥ 0 ∧ index < (w.objs a).size_) = true := by
      rw [decide_eq_true_iff]
      omega
    refine ⟨?_, ?_, ?_⟩
    · unfold Array.subscript
      rw [bind_ok (getObj_run a w), hc, bind_ok (assert_true w)]
      exact noAbort_readSlot _ _ w w1
    · unfold Array.subscript_assign
      rw [bind_ok (getObj_run a w), hc, bind_ok (assert_true w)]
      refine noAbort_bind (noAbort_readSlot _ _) (fun old => ?_) w w1
      cases ops.assign old v with
      | none => exact noAbort_raise
      | some y => exact noAbort_writeSlot _ _ y
    · unfold Array.remove
      rw [bind_ok (getObj_run a w), hc, bind_ok (assert_true w)]
      refine noAbort_bind (noAbort_destroy_one _ _) (fun _ => ?_) w w1
      refine noAbort_bind (noAbort_shift_left ops a index) (fun _ => ?_)
      refine noAbort_bind (noAbort_getObj a) (fun r => ?_)
      exact noAbort_bind (noAbort_toInt _) (fun n => noAbort_setObj _ _)
  · have hc : decide (index ≥ 0 ∧ index ≤ (w.objs a).size_) = false := by
      rw [decide_eq_false_iff_not]
      omega
    refine ⟨?_, ?_⟩
    · unfold Array.insert_at
      simp only [construct_at_copy_ref, construct_at_move_ref]
      rw [bind_ok (getObj_run a w), hc]
      rfl
    · unfold Array.insert_at_rv
      simp only [construct_at_copy_ref, construct_at_move_ref]
      rw [bind_ok (getObj_run a w), hc]
      rfl
  · have hc : decide (index ≥ 0 ∧ index ≤ (w.objs a).size_) = true := by
      rw [decide_eq_true_iff]
      omega
    refine ⟨?_, ?_⟩
    · unfold Array.insert_at
      simp only [construct_at_copy_ref, construct_at_move_ref]
      rw [bind_ok (getObj_run a w), hc, bind_ok (assert_true w)]
      refine noAbort_bind (noAbort_toInt _) (fun m => ?_) w w1
      refine noAbort_bind (noAbort_ensure_capacity ops a m) (fun _ => ?_)
      refine noAbort_bind (noAbort_shift_right ops a index) (fun _ => ?_)
      refine noAbort_bind (noAbort_getObj a) (fun r => ?_)
      refine noAbort_bind (noAbort_construct_at_copy ops _ _ _) (fun _ => ?_)
      refine noAbort_bind (noAbort_toInt _) (fun n => ?_)
      exact noAbort_bind (noAbort_setObj _ _) (fun _ => noAbort_pure _)
    · unfold Array.insert_at_rv
      simp only [construct_at_copy_ref, construct_at_move_ref]
      rw [bind_ok (getObj_run a w), hc, bind_ok (assert_true w)]
      refine noAbort_bind (noAbort_toInt _) (fun m => ?_) w w1
      refine noAbort_bind (noAbort_ensure_capacity ops a m) (fun _ => ?_)
      refine noAbort_bind (noAbort_shift_right ops a index) (fun _ => ?_)
      refine noAbort_bind (noAbort_getObj a) (fun r => ?_)
      refine noAbort_bind (noAbort_construct_at_move ops _ _ _) (fun _ => ?_)
      refine noAbort_bind (noAbort_toInt _) (fun n => ?_)
      exact noAbort_bind (noAbort_setObj _ _) (fun _ => noAbort_pure _)

/-- Witness of C14 on `[1, 2, 3]`: index 7 fails the guard of `remove` and index 4 that
of positional `insert`, both leaving the state as it was; index 3 passes the guard of
positional `insert`. -/
theorem C14_guards_witness :
    Array.remove intOps 1 7 (World.single [1, 2, 3] 4) = .abort (World.single [1, 2, 3] 4)
    ∧ Array.insert_at intOps 1 4 (.obj 0) (World.single [1, 2, 3] 4)
        = .abort (World.single [1, 2, 3] 4)
    ∧ ∀ w1, Array.insert_at intOps 1 3 (.obj 0) (World.single [1, 2, 3] 4) ≠ .abort w1 :=
  ⟨((C14_guards intOps (World.single [1, 2, 3] 4) 1 7 0).2.1 (Or.inr (by decide))).2.2,
    ((C14_guards intOps (World.single [1, 2, 3] 4) 1 4 0).2.2.2.1 (Or.inr (by decide))).1,
    fun w1 => ((C14_guards intOps (World.single [1, 2, 3] 4) 1 3 0).2.2.2.2
      (by decide) w1).1⟩

end Guards

section GrowthPolicy

variable {ops : ElemOps T}

/-- The capacity loop doubles: started from `nc ≥ 1` with enough budget, it returns
`nc * 2 ^ k` for the smallest `k` with `nc * 2 ^ k ≥ min`, provided that value fits
an `int`. -/
theorem grow_loop_pow {σ : Type} (min : Int) (s : σ) :
    ∀ (k fuel : Nat) (nc : Int), 1 ≤ nc → (min - nc).toNat ≤ fuel → nc * 2 ^ k ≤ INT_MAX →
      min ≤ nc * 2 ^ k → (∀ j, j < k → nc * 2 ^ j < min) →
      grow_loop min fuel nc s = .ok (nc * 2 ^ k) s := by
  intro k
  induction k with
  | zero =>
    intro fuel nc _ _ _ hmin _
    simp only [pow_zero, mul_one] at hmin ⊢
    have hn : ¬ nc < min := by omega
    cases fuel with
    | zero =>
      unfold grow_loop
      rw [if_neg hn]
      rfl
    | succ f =>
      unfold grow_loop
      rw [if_neg hn]
      rfl
  | succ k ih =>
    intro fuel nc hnc hfuel hmax hmin hsmall
    have hlt : nc < min := by
      have := hsmall 0 (by omega)
      simpa using this
    have hpow : (1 : Int) ≤ 2 ^ k := one_le_pow₀ (by norm_num)
    have he : nc * 2 ^ (k + 1) = nc * 2 * 2 ^ k := by
      rw [pow_succ]
      ring
    have h2nc : nc * 2 ≤ nc * 2 * 2 ^ k := by
      have : 0 ≤ nc * 2 := by omega
      nlinarith
    rw [he] at hmax hmin ⊢
    cases fuel with
    | zero => omega
    | succ f =>
      unfold grow_loop
      rw [if_pos hlt]
      have h3 : INT_MIN ≤ nc * kGrowthFactor := by
        simp only [INT_MIN, kGrowthFactor]
        omega
      have h4 : nc * kGrowthFactor ≤ INT_MAX := by
        simp only [kGrowthFactor]
        omega
      rw [bind_ok (toInt_ok _ _ h3 h4)]
      have h5 : nc * kGrowthFactor > nc := by
        simp only [kGrowthFactor]
        omega
      simp only [h5, if_true]
      rw [bind_ok (pure_run _ _)]
      simp only [kGrowthFactor]
      refine ih f (nc * 2) (by omega) (by omega) hmax hmin ?_
      intro j hj
      have := hsmall (j + 1) (by omega)
      rw [pow_succ] at this
      calc nc * 2 * 2 ^ j = nc * (2 ^ j * 2) := by ring
        _ < min := this

/-- When doubling leaves the `int` range before reaching `min`, the capacity
computation is undefined: here for a single doubling. -/
theorem grow_loop_overflow {σ : Type} (min nc : Int) (fuel : Nat) (s : σ) (h1 : nc < min)
    (h2 : INT_MAX < nc * 2) : grow_loop min (fuel + 1) nc s = .ub := by
  unfold grow_loop
  rw [if_pos h1]
  have : ¬ (INT_MIN ≤ nc * kGrowthFactor ∧ nc * kGrowthFactor ≤ INT_MAX) := by
    simp only [kGrowthFactor]
    omega
  simp only [bind_run, M.bind, toInt, this, if_false]
  rfl

/-- C17: for a container of capacity `cap` and a required minimum `m`: when
`m <= cap`, `ensure_capacity(m)` changes nothing; when `m > cap`, let `k` be the
smallest number with `max(cap, 1) * 2^k >= m`: if that value fits an `int`, the
capacity computation terminates with exactly `max(cap, 1) * 2^k` and, the allocation
succeeding, this is the adopted capacity (it is `>= m` and `> cap`) with the elements
kept; in particular an append to a full container of capacity `cap >= 1` adopts
`2 * cap`, and an append to a capacity-0 container adopts 1. -/
theorem C17_growth_policy (ops : ElemOps T) (hl : ops.Lawful) (w : World T) (a : Nat)
    (xs : List T) (cap : Nat) (h : Holds w a xs cap) (m : Int) :
    (m ≤ cap → ensure_capacity ops a m w = .ok () w)
    ∧ (∀ k : Nat, (cap : Int) < m → m ≤ (max cap 1 : Nat) * 2 ^ k →
        (∀ j, j < k → ((max cap 1 : Nat) : Int) * 2 ^ j < m) →
        ((max cap 1 : Nat) : Int) * 2 ^ k ≤ INT_MAX →
        (∀ s : World T, grow_loop m (m - (max cap 1 : Nat)).toNat (max cap 1 : Nat) s
            = .ok (((max cap 1 : Nat) : Int) * 2 ^ k) s)
        ∧ (w.mallocFails w.mallocCalls = false →
            ∃ w1, ensure_capacity ops a m w = .ok () w1
              ∧ Holds w1 a xs (max cap 1 * 2 ^ k)
              ∧ Array.capacity a w1 = .ok ((max cap 1 * 2 ^ k : Nat) : Int) w1
              ∧ m ≤ ((max cap 1 * 2 ^ k : Nat) : Int)
              ∧ cap < max cap 1 * 2 ^ k))
    ∧ (xs.length = cap → 2 * (cap : Int) ≤ INT_MAX → w.mallocFails w.mallocCalls = false →
        ∃ w1, ensure_capacity ops a ((xs.length : Int) + 1) w = .ok () w1
          ∧ Array.capacity a w1 = .ok ((if cap = 0 then 1 else 2 * cap : Nat) : Int) w1) := by
  refine ⟨fun hle => ?_, fun k hlt hge hsmall hmax => ?_, fun hfull hov hm => ?_⟩
  · apply ensure_capacity_noop
    rw [h.cap_eq]
    exact hle
  · have hstart : (if (cap : Int) ≤ 0 then (1 : Int) else (cap : Int)) = ((max cap 1 : Nat) : Int) := by
      by_cases hc : cap = 0
      · subst hc
        rfl
      · have h1 : ¬ (cap : Int) ≤ 0 := by omega
        have h2 : max cap 1 = cap := by omega
        rw [if_neg h1, h2]
    have hg : ∀ s : World T, grow_loop m (m - (max cap 1 : Nat)).toNat (max cap 1 : Nat) s
        = .ok (((max cap 1 : Nat) : Int) * 2 ^ k) s := by
      intro s
      exact grow_loop_pow m s k _ _ (by omega) (le_refl _) hmax hge hsmall
    refine ⟨hg, fun hm => ?_⟩
    have hg2 : ∀ s : World T,
        grow_loop m (m - (if (cap : Int) ≤ 0 then 1 else (cap : Int))).toNat
          (if (cap : Int) ≤ 0 then 1 else (cap : Int)) s
          = .ok (((max cap 1 : Nat) : Int) * 2 ^ k) s := by
      rw [hstart]
      exact hg
    obtain ⟨w1, hrun, hh, _⟩ := ensure_capacity_grow hl h m _ hlt hg2 hge hmax hm
    have hto : (((max cap 1 : Nat) : Int) * 2 ^ k).toNat = max cap 1 * 2 ^ k := by
      have : (((max cap 1 : Nat) : Int) * 2 ^ k) = ((max cap 1 * 2 ^ k : Nat) : Int) := by
        rw [Nat.cast_mul, Nat.cast_pow]
        rfl
      rw [this]
      rfl
    rw [hto] at hh
    have hcast : ((max cap 1 * 2 ^ k : Nat) : Int) = ((max cap 1 : Nat) : Int) * 2 ^ k := by
      rw [Nat.cast_mul, Nat.cast_pow]
      rfl
    refine ⟨w1, hrun, hh, capacity_ok hh, ?_, ?_⟩
    · rw [hcast]
      exact hge
    · have : (cap : Int) < ((max cap 1 * 2 ^ k : Nat) : Int) := by
        rw [hcast]
        omega
      exact_mod_cast this
  · obtain ⟨w1, hrun, hh, _⟩ := ensure_capacity_room hl h (Or.inr ⟨hov, hm⟩)
    have hnot : ¬ xs.length < cap := by omega
    simp only [hnot, if_false] at hh
    exact ⟨w1, hrun, capacity_ok hh⟩

/-- Witness of C17: a full container of capacity 3 asked for room for 4. -/
theorem C17_growth_policy_witness :
    intOps.Lawful ∧ Holds (World.single [1, 2, 3] 3) 1 [1, 2, 3] 3
    ∧ ∃ w1, ensure_capacity intOps 1 4 (World.single [1, 2, 3] 3) = .ok () w1
        ∧ Holds w1 1 [1, 2, 3] (max 3 1 * 2 ^ 1)
        ∧ Array.capacity 1 w1 = .ok ((max 3 1 * 2 ^ 1 : Nat) : Int) w1
        ∧ (4 : Int) ≤ ((max 3 1 * 2 ^ 1 : Nat) : Int)
        ∧ 3 < max 3 1 * 2 ^ 1 :=
  have hh : Holds (World.single [1, 2, 3] 3) 1 [1, 2, 3] 3 :=
    ⟨rfl, rfl, by decide, by decide, by decide, by decide, by decide, fun _ => rfl⟩
  ⟨intOps_lawful, hh,
    ((C17_growth_policy intOps intOps_lawful (World.single [1, 2, 3] 3) 1 [1, 2, 3] 3 hh 4).2.1
      1 (by decide) (by decide) (by decide) (by decide)).2 rfl⟩

/-- Counterexample to C17 as stated: for capacity `2^30` and required minimum
`2^30 + 1` the smallest doubling that reaches the minimum is `2^31`, which is not an
`int`: `static_cast<int>(new_capacity * 2.0)` is out of range and the capacity
computation is undefined; no capacity `max(c, 1) * 2^k` is adopted. -/
theorem C17_growth_int_overflow :
    Holds (World.single [] 1073741824) 1 [] 1073741824
    ∧ (∀ s : World Int, grow_loop 1073741825 (1073741825 - 1073741824 : Int).toNat
        1073741824 s = .ub)
    ∧ ensure_capacity intOps 1 1073741825 (World.single [] 1073741824) = .ub := by
  refine ⟨⟨rfl, rfl, by decide, by decide, by decide, by decide, by decide, fun _ => rfl⟩,
    fun s => ?_, ?_⟩
  · exact grow_loop_overflow 1073741825 1073741824 0 s (by decide) (by decide)
  · unfold ensure_capacity
    rw [bind_ok (getObj_run 1 _)]
    have hc : ¬ ((1073741825 : Int) ≤ ((World.single [] 1073741824).objs 1).capacity_) := by
      decide
    rw [if_neg hc]
    exact bind_ub (grow_loop_overflow 1073741825 1073741824 0 _ (by decide) (by decide))

end GrowthPolicy

section LiveSlots

/-- C19 fails on the code: positional `insert(index, value)` shifts the tail before it
constructs the new value and has no rollback.  For the container `[1, 3]` with
capacity 4 and an element type whose copy constructor throws for the value 2,
`insert(0, 2)` relocates both elements one slot up, then the copy construction of the
new value throws and the exception propagates with `size_` still 2: slot 0, inside
`[0, length)`, is raw, and slot 2, outside `[0, length)`, holds a live element.  The
destructor of that container then invokes a destructor on the raw slot 0 (undefined
behaviour), and so does `clear()`; reading element 0 is undefined too. -/
theorem C19_failed_insert_leaves_raw_slot :
    Holds (World.single [1, 3] 4) 1 [1, 3] 4
    ∧ (Array.insert_at copyThrowsOps 1 0 (.obj 2) (World.single [1, 3] 4)).thrown.map
        (fun w1 => (w1.objs 1, w1.heap 1))
      = some ({ data_ := 1, size_ := 2, capacity_ := 4 }, some [none, some 1, some 3, none])
    ∧ (Array.insert_at copyThrowsOps 1 0 (.obj 2) (World.single [1, 3] 4)).thrown.map
        (fun w1 => (Array.dtor 1 w1).final.isSome) = some false
    ∧ (Array.insert_at copyThrowsOps 1 0 (.obj 2) (World.single [1, 3] 4)).thrown.map
        (fun w1 => (Array.clear 1 w1).final.isSome) = some false
    ∧ (Array.insert_at copyThrowsOps 1 0 (.obj 2) (World.single [1, 3] 4)).thrown.map
        (fun w1 => (Array.subscript 1 0 w1).final.isSome) = some false :=
  ⟨⟨rfl, rfl, by decide, by decide, by decide, by decide, by decide, fun _ => rfl⟩,
    by rfl, by rfl, by rfl, by rfl⟩

end LiveSlots

section HoareRules

variable {σ α β : Type}

theorem Hoare.seq {P : σ → Prop} {m : M σ α} {f : α → M σ β} {Q : α → σ → Prop}
    {Q1 : β → σ → Prop} {E : σ → Prop} (h1 : Hoare P m Q E)
    (h2 : ∀ x, Hoare (Q x) (f x) Q1 E) : Hoare P (m >>= f) Q1 E := by
  intro s hs
  have h := h1 s hs
  simp only [bind_run, M.bind]
  cases hm : m s with
  | ok x s1 =>
    rw [hm] at h
    exact h2 x s1 h
  | throw s1 =>
    rw [hm] at h
    exact h
  | abort s1 =>
    rw [hm] at h
    exact h
  | ub => trivial
  | diverge => trivial

theorem Hoare.conseq {P P1 : σ → Prop} {m : M σ α} {Q Q1 : α → σ → Prop} {E E1 : σ → Prop}
    (h : Hoare P m Q E) (hp : ∀ s, P1 s → P s) (hq : ∀ x s, Q x s → Q1 x s)
    (he : ∀ s, E s → E1 s) : Hoare P1 m Q1 E1 := by
  intro s hs
  have h1 := h s (hp s hs)
  cases hm : m s with
  | ok x s1 =>
    rw [hm] at h1
    exact hq x s1 h1
  | throw s1 =>
    rw [hm] at h1
    exact he s1 h1
  | abort s1 =>
    rw [hm] at h1
    exact he s1 h1
  | ub => trivial
  | diverge => trivial

theorem Hoare.pure_of {P : σ → Prop} {Q : α → σ → Prop} {E : σ → Prop} (x : α)
    (h : ∀ s, P s → Q x s) : Hoare P (pure x : M σ α) Q E :=
  fun s hs => h s hs

theorem Hoare.raise_of {P : σ → Prop} {Q : α → σ → Prop} {E : σ → Prop}
    (h : ∀ s, P s → E s) : Hoare P (raise : M σ α) Q E :=
  fun s hs => h s hs

theorem Hoare.cond {P : σ → Prop} {c : Prop} [Decidable c] {m1 m2 : M σ α}
    {Q : α → σ → Prop} {E : σ → Prop} (h1 : c → Hoare P m1 Q E) (h2 : ¬ c → Hoare P m2 Q E) :
    Hoare P (if c then m1 else m2) Q E := by
  split_ifs with h
  · exact h1 h
  · exact h2 h

theorem Hoare.tryCatch_of {P : σ → Prop} {body handler : M σ α} {Q : α → σ → Prop}
    {E : σ → Prop} (h1 : Hoare P body Q E) (h2 : Hoare E handler Q E) :
    Hoare P (tryCatch body handler) Q E := by
  intro s hs
  have h := h1 s hs
  unfold tryCatch
  cases hm : body s with
  | ok x s1 =>
    rw [hm] at h
    exact h
  | throw s1 =>
    rw [hm] at h
    exact h2 s1 h
  | abort s1 =>
    rw [hm] at h
    exact h
  | ub => trivial
  | diverge => trivial

theorem Hoare.tryCatchLocal_of {L : Type} {P : σ → Prop} {body : σ → L × Res σ α}
    {handler : L → M σ α} {Q : α → σ → Prop} {E : σ → Prop}
    (h1 : Hoare P (fun s => (body s).2) Q E) (h2 : ∀ l, Hoare E (handler l) Q E) :
    Hoare P (tryCatchLocal body handler) Q E := by
  intro s hs
  have h := h1 s hs
  unfold tryCatchLocal
  simp only [] at h
  rcases hb : body s with ⟨l, r⟩
  rw [hb] at h
  cases r with
  | ok x s1 => exact h
  | throw s1 => exact h2 l s1 h
  | abort s1 => exact h
  | ub => trivial
  | diverge => trivial

/-- What a Hoare triple says about the final state of a run. -/
theorem Hoare.final_state {P : σ → Prop} {m : M σ α} {E : σ → Prop}
    (h : Hoare P m (fun _ => E) E) {s s1 : σ} (hs : P s) (hf : (m s).final = some s1) :
    E s1 := by
  have h1 := h s hs
  cases hm : m s with
  | ok x s2 =>
    rw [hm] at h1 hf
    cases hf
    exact h1
  | throw s2 =>
    rw [hm] at h1 hf
    cases hf
    exact h1
  | abort s2 =>
    rw [hm] at h1 hf
    cases hf
    exact h1
  | ub =>
    rw [hm] at hf
    cases hf
  | diverge =>
    rw [hm] at hf
    cases hf

end HoareRules

section HeapOnlyRules

variable {α β : Type}

theorem heapOnly_pure (x : α) : HeapOnly (pure x : M (World T) α) :=
  fun _ => ⟨rfl, le_refl _⟩

theorem heapOnly_raise : HeapOnly (raise : M (World T) α) :=
  fun _ => ⟨rfl, le_refl _⟩

theorem heapOnly_undefined : HeapOnly (undefined : M (World T) α) :=
  fun _ => trivial

theorem heapOnly_outOfFuel : HeapOnly (outOfFuel : M (World T) α) :=
  fun _ => trivial

theorem heapOnly_bind {m : M (World T) α} {f : α → M (World T) β} (h1 : HeapOnly m)
    (h2 : ∀ x, HeapOnly (f x)) : HeapOnly (m >>= f) := by
  intro w
  have h := h1 w
  simp only [bind_run, M.bind]
  cases hm : m w with
  | ok x w1 =>
    rw [hm] at h
    have h3 := h2 x w1
    dsimp only
    cases hf : f x w1 with
    | ok y w2 =>
      rw [hf] at h3
      exact ⟨by rw [h3.1, h.1], le_trans h.2 h3.2⟩
    | throw w2 =>
      rw [hf] at h3
      exact ⟨by rw [h3.1, h.1], le_trans h.2 h3.2⟩
    | abort w2 =>
      rw [hf] at h3
      exact ⟨by rw [h3.1, h.1], le_trans h.2 h3.2⟩
    | ub => trivial
    | diverge => trivial
  | throw w1 =>
    rw [hm] at h
    exact h
  | abort w1 =>
    rw [hm] at h
    exact h
  | ub => trivial
  | diverge => trivial

theorem heapOnly_ite {c : Prop} [Decidable c] {m1 m2 : M (World T) α} (h1 : HeapOnly m1)
    (h2 : HeapOnly m2) : HeapOnly (if c then m1 else m2) := by
  split_ifs
  · exact h1
  · exact h2

theorem heapOnly_toInt (x : Int) : HeapOnly (toInt x : M (World T) Int) := by
  unfold toInt
  exact heapOnly_ite (heapOnly_pure x) heapOnly_undefined

theorem heapOnly_assert (c : Bool) : HeapOnly (assert c : M (World T) Unit) := by
  intro w
  unfold assert
  cases c
  · exact ⟨rfl, le_refl _⟩
  · exact ⟨rfl, le_refl _⟩

theorem heapOnly_getObj (o : Nat) : HeapOnly (getObj o : M (World T) Array) :=
  fun _ => ⟨rfl, le_refl _⟩

theorem heapOnly_readSlot (p : Nat) (i : Int) : HeapOnly (readSlot p i : M (World T) T) := by
  intro w
  unfold readSlot
  cases w.block p with
  | none => trivial
  | some slots =>
    simp only []
    split_ifs
    · cases slots[i.toNat]? with
      | none => trivial
      | some o =>
        cases o with
          | none => trivial
          | some v => exact ⟨rfl, le_refl _⟩
    · trivial

theorem heapOnly_writeSlot (p : Nat) (i : Int) (v : T) :
    HeapOnly (writeSlot p i v : M (World T) Unit) := by
  intro w
  unfold writeSlot
  cases w.block p with
  | none => trivial
  | some slots =>
    simp only []
    split_ifs
    · cases slots[i.toNat]? with
      | none => trivial
      | some o =>
        cases o with
          | none => trivial
          | some v => exact ⟨rfl, le_refl _⟩
    · trivial

theorem heapOnly_place (p : Nat) (i : Int) (v : T) :
    HeapOnly (place p i v : M (World T) Unit) := by
  intro w
  unfold place
  cases w.block p with
  | none => trivial
  | some slots =>
    simp only []
    split_ifs
    · cases slots[i.toNat]? with
      | none => trivial
      | some o =>
        cases o with
          | none => exact ⟨rfl, le_refl _⟩
          | some v => trivial
    · trivial

theorem heapOnly_destroy_one (p : Nat) (i : Int) :
    HeapOnly (destroy_one p i : M (World T) Unit) := by
  intro w
  unfold destroy_one
  cases w.block p with
  | none => trivial
  | some slots =>
    simp only []
    split_ifs
    · cases slots[i.toNat]? with
      | none => trivial
      | some o =>
        cases o with
          | none => trivial
          | some v => exact ⟨rfl, le_refl _⟩
    · trivial

theorem heapOnly_malloc (n : Nat) : HeapOnly (malloc n : M (World T) Nat) := by
  intro w
  unfold malloc
  split_ifs
  · exact ⟨rfl, le_refl _⟩
  · exact ⟨rfl, Nat.le_succ _⟩

theorem heapOnly_free (p : Nat) : HeapOnly (free p : M (World T) Unit) := by
  intro w
  unfold free
  split_ifs
  · exact ⟨rfl, le_refl _⟩
  · cases w.heap p with
    | none => trivial
    | some _ => exact ⟨rfl, le_refl _⟩

theorem heapOnly_allocate_raw (n : Int) : HeapOnly (allocate_raw n : M (World T) Nat) := by
  unfold allocate_raw
  refine heapOnly_ite (heapOnly_pure 0) (heapOnly_bind (heapOnly_malloc _) (fun mem => ?_))
  exact heapOnly_ite heapOnly_raise (heapOnly_pure mem)

theorem heapOnly_destroy_range_loop (p : Nat) :
    ∀ (k : Nat) (i : Int), HeapOnly (destroy_range_loop p k i : M (World T) Unit)
  | 0, _ => heapOnly_pure ()
  | k + 1, i => by
    unfold destroy_range_loop
    exact heapOnly_bind (heapOnly_destroy_one p i)
      (fun _ => heapOnly_destroy_range_loop p k (i + 1))

theorem heapOnly_destroy_range (p : Nat) (n : Int) :
    HeapOnly (destroy_range p n : M (World T) Unit) :=
  heapOnly_destroy_range_loop p _ _

theorem heapOnly_construct_at_copy (ops : ElemOps T) (p : Nat) (i : Int) (v : T) :
    HeapOnly (construct_at_copy ops p i v) := by
  unfold construct_at_copy
  cases ops.copy v with
  | none => exact heapOnly_raise
  | some y => exact heapOnly_place p i y

theorem heapOnly_construct_at_move (ops : ElemOps T) (p : Nat) (i : Int) (v : T) :
    HeapOnly (construct_at_move ops p i v) := by
  unfold construct_at_move
  cases ops.move v with
  | none => exact heapOnly_raise
  | some y => exact heapOnly_place p i y.1

theorem heapOnly_construct_at_from_slot (ops : ElemOps T) (p : Nat) (i : Int) (q : Nat)
    (j : Int) : HeapOnly (construct_at_from_slot ops p i q j) := by
  unfold construct_at_from_slot
  refine heapOnly_ite ?_ (heapOnly_bind (heapOnly_readSlot q j)
    (fun x => heapOnly_construct_at_copy ops p i x))
  unfold construct_at_move_slot
  refine heapOnly_bind (heapOnly_readSlot q j) (fun x => ?_)
  cases ops.move x with
  | none => exact heapOnly_raise
  | some y =>
    exact heapOnly_bind (heapOnly_writeSlot q j y.2) (fun _ => heapOnly_place p i y.1)

theorem heapOnly_construct_at_move_slot (ops : ElemOps T) (p : Nat) (i : Int) (q : Nat)
    (j : Int) : HeapOnly (construct_at_move_slot ops p i q j) := by
  unfold construct_at_move_slot
  refine heapOnly_bind (heapOnly_readSlot q j) (fun x => ?_)
  cases ops.move x with
  | none => exact heapOnly_raise
  | some y =>
    exact heapOnly_bind (heapOnly_writeSlot q j y.2) (fun _ => heapOnly_place p i y.1)

theorem heapOnly_construct_at_copy_ref (ops : ElemOps T) (p : Nat) (i : Int) (r : Ref T) :
    HeapOnly (construct_at_copy_ref ops p i r) := by
  cases r with
  | obj v => exact heapOnly_construct_at_copy ops p i v
  | slot q j =>
    exact heapOnly_bind (heapOnly_readSlot q j) (fun x => heapOnly_construct_at_copy ops p i x)

theorem heapOnly_construct_at_move_ref (ops : ElemOps T) (p : Nat) (i : Int) (r : Ref T) :
    HeapOnly (construct_at_move_ref ops p i r) := by
  cases r with
  | obj v => exact heapOnly_construct_at_move ops p i v
  | slot q j => exact heapOnly_construct_at_move_slot ops p i q j

theorem heapOnly_relocate_loop (ops : ElemOps T) (nb p : Nat) :
    ∀ (k : Nat) (i c : Int), HeapOnly (fun s => (relocate_loop ops nb p k i c s).2)
  | 0, _, _ => fun _ => ⟨rfl, le_refl _⟩
  | k + 1, i, c => by
    intro w
    have h := heapOnly_construct_at_from_slot ops nb i p i w
    simp only [relocate_loop]
    cases hm : construct_at_from_slot ops nb i p i w with
    | ok x w1 =>
      rw [hm] at h
      have h3 := heapOnly_relocate_loop ops nb p k (i + 1) (c + 1) w1
      simp only [] at h h3 ⊢
      cases hf : (relocate_loop ops nb p k (i + 1) (c + 1) w1).2 with
      | ok y w2 =>
        rw [hf] at h3
        exact ⟨by rw [h3.1, h.1], le_trans h.2 h3.2⟩
      | throw w2 =>
        rw [hf] at h3
        exact ⟨by rw [h3.1, h.1], le_trans h.2 h3.2⟩
      | abort w2 =>
        rw [hf] at h3
        exact ⟨by rw [h3.1, h.1], le_trans h.2 h3.2⟩
      | ub => trivial
      | diverge => trivial
    | throw w1 =>
      rw [hm] at h
      exact h
    | abort w1 =>
      rw [hm] at h
      exact h
    | ub => trivial
    | diverge => trivial

theorem heapOnly_shift_right_loop (ops : ElemOps T) (p : Nat) :
    ∀ (k : Nat) (i : Int), HeapOnly (shift_right_loop ops p k i)
  | 0, _ => heapOnly_pure ()
  | k + 1, i => by
    unfold shift_right_loop
    refine heapOnly_bind (heapOnly_construct_at_from_slot ops p i p (i - 1)) (fun _ => ?_)
    exact heapOnly_bind (heapOnly_destroy_one p (i - 1))
      (fun _ => heapOnly_shift_right_loop ops p k (i - 1))

theorem heapOnly_shift_left_loop (ops : ElemOps T) (p : Nat) :
    ∀ (k : Nat) (i : Int), HeapOnly (shift_left_loop ops p k i)
  | 0, _ => heapOnly_pure ()
  | k + 1, i => by
    unfold shift_left_loop
    refine heapOnly_bind (heapOnly_construct_at_from_slot ops p i p (i + 1)) (fun _ => ?_)
    exact heapOnly_bind (heapOnly_destroy_one p (i + 1))
      (fun _ => heapOnly_shift_left_loop ops p k (i + 1))

theorem heapOnly_shift_right (ops : ElemOps T) (a : Nat) (idx : Int) :
    HeapOnly (shift_right ops a idx) := by
  unfold shift_right
  exact heapOnly_bind (heapOnly_getObj a) (fun r => heapOnly_shift_right_loop ops _ _ _)

theorem heapOnly_shift_left (ops : ElemOps T) (a : Nat) (idx : Int) :
    HeapOnly (shift_left ops a idx) := by
  unfold shift_left
  refine heapOnly_bind (heapOnly_getObj a) (fun r => ?_)
  exact heapOnly_bind (heapOnly_toInt _) (fun last => heapOnly_shift_left_loop ops _ _ _)

end HeapOnlyRules

section WellFormed

variable {α : Type} {R R1 RE : (Nat → Array) → Prop}

theorem ObjInv.mono {w : World T} (h : ObjInv R w) (hr : ∀ o, R o → R1 o) : ObjInv R1 w :=
  ⟨h.1, hr _ h.2⟩

theorem oi_heapOnly {m : M (World T) α} (hm : HeapOnly m) (hE : ∀ o, R o → RE o) :
    Hoare (ObjInv R) m (fun _ => ObjInv R) (ObjInv RE) := by
  intro w hw
  have h := hm w
  cases hr : m w with
  | ok x w1 =>
    rw [hr] at h
    exact ⟨lt_of_lt_of_le hw.1 h.2, by rw [h.1]; exact hw.2⟩
  | throw w1 =>
    rw [hr] at h
    exact ⟨lt_of_lt_of_le hw.1 h.2, by rw [h.1]; exact hE _ hw.2⟩
  | abort w1 =>
    rw [hr] at h
    exact ⟨lt_of_lt_of_le hw.1 h.2, by rw [h.1]; exact hE _ hw.2⟩
  | ub => trivial
  | diverge => trivial

theorem oi_getObj (a : Nat) :
    Hoare (ObjInv R) (getObj a : M (World T) Array) (fun r => ObjInv (fun o => R o ∧ o a = r))
      (ObjInv RE) :=
  fun _ hw => ⟨hw.1, hw.2, rfl⟩

theorem oi_setObj {S : (Nat → Array) → Prop} (a : Nat) (r : Array)
    (h : ∀ o, R o → S (Function.update o a r)) :
    Hoare (ObjInv R) (setObj a r : M (World T) Unit) (fun _ => ObjInv S) (ObjInv RE) :=
  fun _ hw => ⟨hw.1, h _ hw.2⟩

theorem oi_assert (c : Bool) (hE : ∀ o, R o → RE o) :
    Hoare (ObjInv R) (assert c : M (World T) Unit) (fun _ => ObjInv (fun o => R o ∧ c = true))
      (ObjInv RE) := by
  intro w hw
  cases c
  · exact hw.mono hE
  · exact ⟨hw.1, hw.2, rfl⟩

theorem oi_toInt (x : Int) :
    Hoare (ObjInv R) (toInt x : M (World T) Int)
      (fun y => ObjInv (fun o => R o ∧ y = x ∧ INT_MIN ≤ x ∧ x ≤ INT_MAX)) (ObjInv RE) := by
  intro w hw
  unfold toInt
  by_cases h : INT_MIN ≤ x ∧ x ≤ INT_MAX
  · rw [if_pos h]
    exact ⟨hw.1, hw.2, rfl, h⟩
  · rw [if_neg h]
    trivial

theorem oi_allocate_raw (n : Int) (hE : ∀ o, R o → RE o) :
    Hoare (ObjInv R) (allocate_raw n : M (World T) Nat)
      (fun x => ObjInv (fun o => R o ∧ (0 < n → x ≠ 0))) (ObjInv RE) := by
  intro w hw
  unfold allocate_raw
  by_cases hn : n ≤ 0
  · rw [if_pos hn]
    exact ⟨hw.1, hw.2, fun h => absurd h (by omega)⟩
  · rw [if_neg hn]
    simp only [bind_run, M.bind, malloc]
    by_cases hm : w.mallocFails w.mallocCalls = true
    · simp only [hm, if_true]
      exact ⟨hw.1, hE _ hw.2⟩
    · simp only [hm, Bool.false_eq_true, if_false]
      have hb : w.brk ≠ 0 := by
        have := hw.1
        omega
      simp only [hb, if_false]
      exact ⟨Nat.succ_pos _, hw.2, fun _ => hb⟩

theorem oi_grow_loop (min : Int) :
    ∀ (fuel : Nat) (nc : Int),
      Hoare (ObjInv R) (grow_loop min fuel nc : M (World T) Int)
        (fun r => ObjInv (fun o => R o ∧ min ≤ r)) (ObjInv RE)
  | 0, nc => by
    unfold grow_loop
    refine Hoare.cond (fun _ => fun _ _ => trivial) (fun h => Hoare.pure_of nc ?_)
    exact fun s hs => ⟨hs.1, hs.2, by omega⟩
  | fuel + 1, nc => by
    unfold grow_loop
    refine Hoare.cond (fun _ => ?_) (fun h => Hoare.pure_of nc ?_)
    · refine Hoare.seq (oi_toInt _) (fun grown => ?_)
      refine Hoare.seq (Q := fun _ => ObjInv R) ?_ (fun next => oi_grow_loop min fuel next)
      refine Hoare.cond (fun _ => Hoare.pure_of grown (fun s hs => hs.mono (fun _ h => h.1)))
        (fun _ => ?_)
      exact Hoare.conseq (oi_toInt _) (fun s hs => hs) (fun _ s hs => hs.mono (fun _ h => h.1.1))
        (fun s hs => hs)
    · exact fun s hs => ⟨hs.1, hs.2, by omega⟩

/-- The well-formed member triples. -/
theorem wellFormed_empty : ({ data_ := 0, size_ := 0, capacity_ := 0 } : Array).WellFormed :=
  ⟨le_refl _, le_refl _, by simp⟩

theorem wellFormed_update {o : Nat → Array} (h : ∀ x, (o x).WellFormed) (a : Nat) (r : Array)
    (hr : r.WellFormed) : ∀ x, (Function.update o a r x).WellFormed := by
  intro x
  by_cases hx : x = a
  · subst hx
    simpa using hr
  · simpa [Function.update_noteq hx] using h x

/-- `ensure_capacity(min)` keeps every object well formed, on every exit; when it
returns, the length is unchanged and the capacity is at least `min`. -/
theorem oi_ensure_capacity (ops : ElemOps T) (this : Nat) (min : Int) (r0 : Array) :
    Hoare (ObjInv (fun o => (∀ x, (o x).WellFormed) ∧ o this = r0))
      (ensure_capacity ops this min)
      (fun _ => ObjInv (fun o => (∀ x, (o x).WellFormed) ∧ (o this).size_ = r0.size_
        ∧ min ≤ (o this).capacity_))
      (ObjInv (fun o => ∀ x, (o x).WellFormed)) := by
  unfold ensure_capacity
  refine Hoare.seq (oi_getObj this) (fun r => ?_)
  refine Hoare.cond (fun hle => Hoare.pure_of () ?_) (fun hgt => ?_)
  · rintro s ⟨hb, ⟨hwf, h0⟩, hr⟩
    refine ⟨hb, hwf, by rw [h0], ?_⟩
    rw [hr]
    exact hle
  · refine Hoare.seq (oi_grow_loop min _ _) (fun nc => ?_)
    refine Hoare.seq (oi_allocate_raw nc (fun o h => h.1.1.1)) (fun nb => ?_)
    refine Hoare.seq (Q := fun _ => ObjInv (fun o =>
      ((((∀ x, (o x).WellFormed) ∧ o this = r0) ∧ o this = r) ∧ min ≤ nc)
        ∧ (0 < nc → nb ≠ 0))) ?_ (fun _ => ?_)
    · refine Hoare.tryCatchLocal_of
        (oi_heapOnly (heapOnly_relocate_loop ops nb r.data_ _ _ _) (fun o h => h.1.1.1.1))
        (fun l => ?_)
      refine Hoare.seq (oi_heapOnly (heapOnly_destroy_range nb l) (fun o h => h)) (fun _ => ?_)
      refine Hoare.seq (oi_heapOnly (heapOnly_free nb) (fun o h => h)) (fun _ => ?_)
      exact Hoare.raise_of (fun s hs => hs)
    · refine Hoare.seq (oi_heapOnly (heapOnly_destroy_range r.data_ r.size_)
        (fun o h => h.1.1.1.1)) (fun _ => ?_)
      refine Hoare.seq (oi_heapOnly (heapOnly_free r.data_) (fun o h => h.1.1.1.1))
        (fun _ => ?_)
      refine oi_setObj this _ ?_
      rintro o ⟨⟨⟨⟨hwf, h0⟩, hr⟩, hnc⟩, hnb⟩
      have hrw : r.WellFormed := by
        rw [← hr]
        exact hwf this
      obtain ⟨h1, h2, _⟩ := hrw
      have hpos : 0 < nc := by omega
      refine ⟨wellFormed_update hwf this _ ⟨h1, by show r.size_ ≤ nc; omega, ?_⟩, ?_, ?_⟩
      · show nb = 0 ↔ nc = 0
        constructor
        · intro h
          exact absurd h (hnb hpos)
        · intro h
          omega
      · simp only [Function.update_same]
        rw [← h0, hr]
      · simp only [Function.update_same]
        exact hnc

end WellFormed

section WellFormedOps

variable {α : Type} {R R1 RE : (Nat → Array) → Prop}

/-- A fact about values that follows from the precondition may be used in the proof. -/
theorem oi_extract {m : M (World T) α} {Q : α → World T → Prop} {E : World T → Prop}
    {φ : Prop} (h1 : ∀ o, R o → φ) (h2 : φ → Hoare (ObjInv R) m Q E) :
    Hoare (ObjInv R) m Q E :=
  fun s hs => h2 (h1 _ hs.2) s hs

theorem oi_weaken {m : M (World T) α} {Q : α → World T → Prop} {E : World T → Prop}
    (h : Hoare (ObjInv R) m Q E) (hr : ∀ o, R1 o → R o) : Hoare (ObjInv R1) m Q E :=
  fun s hs => h s (hs.mono hr)

theorem allWellFormed_update {o : Nat → Array} (h : AllWellFormed o) (a : Nat) (r : Array)
    (hr : r.WellFormed) : AllWellFormed (Function.update o a r) :=
  wellFormed_update h a r hr

/-- The common tail of the four `insert` overloads: construct the new element, then
`++size_`. -/
theorem wf_size_incr {β : Type} (this : Nat) (c : Array → M (World T) Unit)
    (hc : ∀ r, HeapOnly (c r)) (res : Array → β) :
    Hoare (ObjInv (fun o => AllWellFormed o ∧ (o this).size_ + 1 ≤ (o this).capacity_))
      (getObj this >>= fun r => c r >>= fun _ => toInt (r.size_ + 1) >>= fun n =>
        setObj this { r with size_ := n } >>= fun _ => pure (res r))
      (fun _ => ObjInv AllWellFormed) (ObjInv AllWellFormed) := by
  refine Hoare.seq (oi_getObj this) (fun r => ?_)
  refine Hoare.seq (oi_heapOnly (hc r) (fun o h => h.1.1)) (fun _ => ?_)
  refine Hoare.seq (oi_toInt _) (fun n => ?_)
  refine Hoare.seq (oi_setObj this _ (S := AllWellFormed) ?_)
    (fun _ => Hoare.pure_of _ (fun s hs => hs))
  rintro o ⟨⟨⟨hwf, hroom⟩, hr⟩, hn, _, _⟩
  have hrw : r.WellFormed := by
    rw [← hr]
    exact hwf this
  obtain ⟨h1, h2, h3⟩ := hrw
  rw [hr] at hroom
  refine allWellFormed_update hwf this _ ⟨?_, ?_, h3⟩
  · show 0 ≤ n
    omega
  · show n ≤ r.capacity_
    omega

/-- `ensure_capacity(size_ + 1)` followed by anything that works on the heap only
leaves room for one more element. -/
theorem wf_make_room (ops : ElemOps T) (this : Nat) (r : Array) (m : Int)
    (hm : m = r.size_ + 1) :
    Hoare (ObjInv (fun o => AllWellFormed o ∧ o this = r)) (ensure_capacity ops this m)
      (fun _ => ObjInv (fun o => AllWellFormed o ∧ (o this).size_ + 1 ≤ (o this).capacity_))
      (ObjInv AllWellFormed) := by
  refine Hoare.conseq (oi_ensure_capacity ops this m r) (fun s hs => hs) ?_ (fun s hs => hs)
  rintro _ s ⟨hb, hwf, hs, hc⟩
  refine ⟨hb, hwf, ?_⟩
  rw [hs, ← hm]
  exact hc

theorem wf_insert (ops : ElemOps T) (this : Nat) (v : Ref T) :
    Hoare (ObjInv AllWellFormed) (Array.insert ops this v) (fun _ => ObjInv AllWellFormed)
      (ObjInv AllWellFormed) := by
  unfold Array.insert
  refine Hoare.seq (oi_getObj this) (fun r => ?_)
  refine Hoare.seq (oi_toInt _) (fun m => ?_)
  refine oi_extract (fun o h => h.2.1) (fun hm => ?_)
  refine Hoare.seq (oi_weaken (wf_make_room ops this r m hm) (fun o h => h.1)) (fun _ => ?_)
  exact wf_size_incr this (fun r => construct_at_copy_ref ops r.data_ r.size_ v)
    (fun r => heapOnly_construct_at_copy_ref ops _ _ _) (fun r => r.size_)

theorem wf_insert_rv (ops : ElemOps T) (this : Nat) (v : Ref T) :
    Hoare (ObjInv AllWellFormed) (Array.insert_rv ops this v) (fun _ => ObjInv AllWellFormed)
      (ObjInv AllWellFormed) := by
  unfold Array.insert_rv
  refine Hoare.seq (oi_getObj this) (fun r => ?_)
  refine Hoare.seq (oi_toInt _) (fun m => ?_)
  refine oi_extract (fun o h => h.2.1) (fun hm => ?_)
  refine Hoare.seq (oi_weaken (wf_make_room ops this r m hm) (fun o h => h.1)) (fun _ => ?_)
  exact wf_size_incr this (fun r => construct_at_move_ref ops r.data_ r.size_ v)
    (fun r => heapOnly_construct_at_move_ref ops _ _ _) (fun r => r.size_)

theorem wf_insert_at (ops : ElemOps T) (this : Nat) (index : Int) (v : Ref T) :
    Hoare (ObjInv AllWellFormed) (Array.insert_at ops this index v)
      (fun _ => ObjInv AllWellFormed) (ObjInv AllWellFormed) := by
  unfold Array.insert_at
  refine Hoare.seq (oi_getObj this) (fun r => ?_)
  refine Hoare.seq (oi_assert _ (fun o h => h.1)) (fun _ => ?_)
  refine Hoare.seq (oi_toInt _) (fun m => ?_)
  refine oi_extract (fun o h => h.2.1) (fun hm => ?_)
  refine Hoare.seq (oi_weaken (wf_make_room ops this r m hm) (fun o h => h.1.1)) (fun _ => ?_)
  refine Hoare.seq (oi_heapOnly (heapOnly_shift_right ops this index) (fun o h => h.1))
    (fun _ => ?_)
  exact wf_size_incr this (fun r => construct_at_copy_ref ops r.data_ index v)
    (fun r => heapOnly_construct_at_copy_ref ops _ _ _) (fun _ => index)

theorem wf_insert_at_rv (ops : ElemOps T) (this : Nat) (index : Int) (v : Ref T) :
    Hoare (ObjInv AllWellFormed) (Array.insert_at_rv ops this index v)
      (fun _ => ObjInv AllWellFormed) (ObjInv AllWellFormed) := by
  unfold Array.insert_at_rv
  refine Hoare.seq (oi_getObj this) (fun r => ?_)
  refine Hoare.seq (oi_assert _ (fun o h => h.1)) (fun _ => ?_)
  refine Hoare.seq (oi_toInt _) (fun m => ?_)
  refine oi_extract (fun o h => h.2.1) (fun hm => ?_)
  refine Hoare.seq (oi_weaken (wf_make_room ops this r m hm) (fun o h => h.1.1)) (fun _ => ?_)
  refine Hoare.seq (oi_heapOnly (heapOnly_shift_right ops this index) (fun o h => h.1))
    (fun _ => ?_)
  exact wf_size_incr this (fun r => construct_at_move_ref ops r.data_ index v)
    (fun r => heapOnly_construct_at_move_ref ops _ _ _) (fun _ => index)

theorem wf_remove (ops : ElemOps T) (this : Nat) (index : Int) :
    Hoare (ObjInv AllWellFormed) (Array.remove ops this index) (fun _ => ObjInv AllWellFormed)
      (ObjInv AllWellFormed) := by
  unfold Array.remove
  refine Hoare.seq (oi_getObj this) (fun r => ?_)
  refine Hoare.seq (oi_assert _ (fun o h => h.1)) (fun _ => ?_)
  refine Hoare.seq (oi_heapOnly (heapOnly_destroy_one _ _) (fun o h => h.1.1)) (fun _ => ?_)
  refine Hoare.seq (oi_heapOnly (heapOnly_shift_left ops this index) (fun o h => h.1.1))
    (fun _ => ?_)
  refine Hoare.seq (oi_getObj this) (fun r1 => ?_)
  refine Hoare.seq (oi_toInt _) (fun n => ?_)
  refine oi_setObj this _ ?_
  rintro o ⟨⟨⟨⟨hwf, hr⟩, hc⟩, hr1⟩, hn, _, _⟩
  have hrw : r1.WellFormed := by
    rw [← hr1]
    exact hwf this
  obtain ⟨h1, h2, h3⟩ := hrw
  have hrr : r1 = r := by rw [← hr1, hr]
  rw [decide_eq_true_iff, ← hrr] at hc
  refine allWellFormed_update hwf this _ ⟨?_, ?_, h3⟩
  · show 0 ≤ n
    omega
  · show n ≤ r1.capacity_
    omega

theorem wf_clear (this : Nat) :
    Hoare (ObjInv AllWellFormed) (Array.clear this : M (World T) Unit)
      (fun _ => ObjInv AllWellFormed) (ObjInv AllWellFormed) := by
  unfold Array.clear
  refine Hoare.seq (oi_getObj this) (fun r => ?_)
  refine Hoare.seq (oi_heapOnly (heapOnly_destroy_range _ _) (fun o h => h.1)) (fun _ => ?_)
  refine oi_setObj this _ ?_
  rintro o ⟨hwf, hr⟩
  have hrw : r.WellFormed := by
    rw [← hr]
    exact hwf this
  obtain ⟨h1, h2, h3⟩ := hrw
  exact allWellFormed_update hwf this _ ⟨le_refl _, by show (0 : Int) ≤ r.capacity_; omega, h3⟩

theorem heapOnly_subscript_assign (ops : ElemOps T) (this : Nat) (index : Int) (v : T) :
    HeapOnly (Array.subscript_assign ops this index v) := by
  unfold Array.subscript_assign
  refine heapOnly_bind (heapOnly_getObj this) (fun r => ?_)
  refine heapOnly_bind (heapOnly_assert _) (fun _ => ?_)
  refine heapOnly_bind (heapOnly_readSlot _ _) (fun old => ?_)
  cases ops.assign old v with
  | none => exact heapOnly_raise
  | some y => exact heapOnly_writeSlot _ _ y

theorem wf_new (this : Nat) :
    Hoare (ObjInv AllWellFormed) (Array.new this : M (World T) Unit)
      (fun _ => ObjInv AllWellFormed) (ObjInv AllWellFormed) := by
  unfold Array.new
  refine Hoare.seq (oi_allocate_raw kDefaultCapacity (fun o h => h)) (fun p => ?_)
  refine oi_setObj this _ ?_
  rintro o ⟨hwf, hp⟩
  have hp0 : p ≠ 0 := hp (by decide)
  refine allWellFormed_update hwf this _
    ⟨le_refl _, by show (0 : Int) ≤ kDefaultCapacity; decide, ?_⟩
  show p = 0 ↔ kDefaultCapacity = 0
  simp [hp0, kDefaultCapacity]

theorem wf_new_cap (this : Nat) (c : Int) :
    Hoare (ObjInv AllWellFormed) (Array.new_cap this c : M (World T) Unit)
      (fun _ => ObjInv AllWellFormed) (ObjInv AllWellFormed) := by
  unfold Array.new_cap
  refine Hoare.seq (oi_allocate_raw (normalize_capacity c) (fun o h => h)) (fun p => ?_)
  refine oi_setObj this _ ?_
  rintro o ⟨hwf, hp⟩
  have hpos := normalize_capacity_pos c
  have hp0 : p ≠ 0 := hp hpos
  refine allWellFormed_update hwf this _ ⟨le_refl _, hpos.le, ?_⟩
  show p = 0 ↔ normalize_capacity c = 0
  constructor
  · intro h
    exact absurd h hp0
  · intro h
    omega

theorem wf_copy_loop (ops : ElemOps T) (this other : Nat) :
    ∀ (k : Nat) (i : Int),
      Hoare (ObjInv (fun o => AllWellFormed o ∧ (o this).size_ + (k : Int) ≤ (o this).capacity_))
        (copy_loop ops this other k i) (fun _ => ObjInv AllWellFormed) (ObjInv AllWellFormed)
  | 0, _ => by
    unfold copy_loop
    exact Hoare.pure_of () (fun s hs => hs.mono (fun _ h => h.1))
  | k + 1, i => by
    unfold copy_loop
    refine Hoare.seq (oi_getObj other) (fun o1 => ?_)
    refine Hoare.seq (oi_getObj this) (fun me => ?_)
    refine Hoare.seq (oi_heapOnly (heapOnly_readSlot _ _) (fun o h => h.1.1.1)) (fun x => ?_)
    refine Hoare.seq (oi_heapOnly (heapOnly_construct_at_copy ops _ _ _)
      (fun o h => h.1.1.1)) (fun _ => ?_)
    refine Hoare.seq (oi_toInt _) (fun n => ?_)
    refine Hoare.seq (oi_setObj this _ ?_) (fun _ => wf_copy_loop ops this other k (i + 1))
    rintro o ⟨⟨⟨⟨hwf, hroom⟩, _⟩, hme⟩, hn, _, _⟩
    have hrw : me.WellFormed := by
      rw [← hme]
      exact hwf this
    obtain ⟨h1, h2, h3⟩ := hrw
    rw [hme] at hroom
    push_cast at hroom
    refine ⟨allWellFormed_update hwf this _ ⟨?_, ?_, h3⟩, ?_⟩
    · show 0 ≤ n
      omega
    · show n ≤ me.capacity_
      omega
    · simp only [Function.update_same]
      show n + (k : Int) ≤ me.capacity_
      omega

theorem wf_copy_ctor (ops : ElemOps T) (this other : Nat) :
    Hoare (ObjInv AllWellFormed) (Array.copy_ctor ops this other)
      (fun _ => ObjInv AllWellFormed) (ObjInv AllWellFormed) := by
  unfold Array.copy_ctor
  refine Hoare.seq (oi_getObj other) (fun o1 => ?_)
  refine Hoare.seq (oi_allocate_raw _ (fun o h => h.1)) (fun p => ?_)
  refine Hoare.seq (oi_setObj this _
    (S := fun o => AllWellFormed o
      ∧ (o this).size_ + (o1.size_.toNat : Int) ≤ (o this).capacity_) ?_) (fun _ => ?_)
  · rintro o ⟨⟨hwf, ho1⟩, hp⟩
    have hrw : o1.WellFormed := by
      rw [← ho1]
      exact hwf other
    obtain ⟨h1, h2, _⟩ := hrw
    have hcpos : 0 < (if o1.capacity_ > 0 then o1.capacity_ else kDefaultCapacity) := by
      split_ifs with h
      · exact h
      · decide
    have hp0 : p ≠ 0 := hp hcpos
    have hsz : (o1.size_.toNat : Int)
        ≤ (if o1.capacity_ > 0 then o1.capacity_ else kDefaultCapacity) := by
      split_ifs with h
      · omega
      · simp only [kDefaultCapacity]
        omega
    refine ⟨allWellFormed_update hwf this _ ⟨le_refl _, hcpos.le, ?_⟩, ?_⟩
    · show p = 0 ↔ (if o1.capacity_ > 0 then o1.capacity_ else kDefaultCapacity) = 0
      constructor
      · intro h
        exact absurd h hp0
      · intro h
        omega
    · simp only [Function.update_same]
      show (0 : Int) + (o1.size_.toNat : Int)
        ≤ (if o1.capacity_ > 0 then o1.capacity_ else kDefaultCapacity)
      omega
  · refine Hoare.tryCatch_of (wf_copy_loop ops this other _ _) ?_
    refine Hoare.seq (oi_getObj this) (fun me => ?_)
    refine Hoare.seq (oi_heapOnly (heapOnly_destroy_range _ _) (fun o h => h.1)) (fun _ => ?_)
    refine Hoare.seq (oi_heapOnly (heapOnly_free _) (fun o h => h.1)) (fun _ => ?_)
    refine Hoare.seq (oi_setObj this _ (S := AllWellFormed) ?_)
      (fun _ => Hoare.raise_of (fun s hs => hs))
    rintro o ⟨hwf, _⟩
    exact allWellFormed_update hwf this _ wellFormed_empty

theorem wf_move_ctor (this other : Nat) :
    Hoare (ObjInv AllWellFormed) (Array.move_ctor this other : M (World T) Unit)
      (fun _ => ObjInv AllWellFormed) (ObjInv AllWellFormed) := by
  unfold Array.move_ctor
  refine Hoare.seq (oi_getObj other) (fun o1 => ?_)
  refine Hoare.seq (oi_setObj this _ (S := AllWellFormed) ?_) (fun _ => ?_)
  · rintro o ⟨hwf, ho1⟩
    have hrw : o1.WellFormed := by
      rw [← ho1]
      exact hwf other
    exact allWellFormed_update hwf this _ hrw
  · exact oi_setObj other _ (fun o hwf => allWellFormed_update hwf other _ wellFormed_empty)

theorem wf_clear_and_free (this : Nat) :
    Hoare (ObjInv AllWellFormed) (clear_and_free this : M (World T) Unit)
      (fun _ => ObjInv AllWellFormed) (ObjInv AllWellFormed) := by
  unfold clear_and_free
  refine Hoare.seq (oi_getObj this) (fun r => ?_)
  refine Hoare.seq (oi_heapOnly (heapOnly_ite (heapOnly_bind (heapOnly_destroy_range _ _)
    (fun _ => heapOnly_free _)) (heapOnly_pure ())) (fun o h => h.1)) (fun _ => ?_)
  exact oi_setObj this _ (fun o h => allWellFormed_update h.1 this _ wellFormed_empty)

theorem wf_swap (this other : Nat) :
    Hoare (ObjInv AllWellFormed) (Array.swap this other : M (World T) Unit)
      (fun _ => ObjInv AllWellFormed) (ObjInv AllWellFormed) := by
  intro s hs
  by_cases h : this = other
  · subst h
    rw [swap_self]
    exact hs
  · rw [swap_run h]
    exact ⟨hs.1, allWellFormed_update (allWellFormed_update hs.2 this _ (hs.2 other)) other _
      (hs.2 this)⟩

theorem wf_copy_assign (ops : ElemOps T) (this other tmp : Nat) :
    Hoare (ObjInv AllWellFormed) (Array.copy_assign ops this other tmp)
      (fun _ => ObjInv AllWellFormed) (ObjInv AllWellFormed) := by
  unfold Array.copy_assign
  refine Hoare.cond (fun _ => Hoare.pure_of () (fun s hs => hs)) (fun _ => ?_)
  refine Hoare.seq (wf_copy_ctor ops tmp other) (fun _ => ?_)
  exact Hoare.seq (wf_swap this tmp) (fun _ => wf_clear_and_free tmp)

theorem wf_move_assign (this other : Nat) :
    Hoare (ObjInv AllWellFormed) (Array.move_assign this other : M (World T) Unit)
      (fun _ => ObjInv AllWellFormed) (ObjInv AllWellFormed) := by
  unfold Array.move_assign
  refine Hoare.cond (fun _ => Hoare.pure_of () (fun s hs => hs)) (fun hne => ?_)
  refine Hoare.seq (wf_clear_and_free this) (fun _ => ?_)
  intro s hs
  simp only [bind_run, M.bind, getObj_run, setObj_run, Function.update_same,
    Function.update_noteq (Ne.symm hne), Function.update_idem]
  refine ⟨hs.1, allWellFormed_update (allWellFormed_update hs.2 this _ ?_) other _
    wellFormed_empty⟩
  exact hs.2 other

theorem wf_mutation (ops : ElemOps T) (this : Nat) (m : Mutation T) :
    Hoare (ObjInv AllWellFormed) (m.run ops this) (fun _ => ObjInv AllWellFormed)
      (ObjInv AllWellFormed) := by
  cases m with
  | set i v => exact oi_heapOnly (heapOnly_subscript_assign ops this i v) (fun o h => h)
  | append v =>
    exact Hoare.seq (wf_insert ops this (.obj v)) (fun _ => Hoare.pure_of () (fun s hs => hs))
  | append_rv v =>
    exact Hoare.seq (wf_insert_rv ops this (.obj v)) (fun _ => Hoare.pure_of () (fun s hs => hs))
  | insert k v =>
    exact Hoare.seq (wf_insert_at ops this k (.obj v))
      (fun _ => Hoare.pure_of () (fun s hs => hs))
  | insert_rv k v =>
    exact Hoare.seq (wf_insert_at_rv ops this k (.obj v))
      (fun _ => Hoare.pure_of () (fun s hs => hs))
  | remove k => exact wf_remove ops this k
  | clear => exact wf_clear this

theorem wf_op (ops : ElemOps T) (op : Op T) :
    Hoare (ObjInv AllWellFormed) (op.run ops) (fun _ => ObjInv AllWellFormed)
      (ObjInv AllWellFormed) := by
  cases op with
  | new a => exact wf_new a
  | new_cap a c => exact wf_new_cap a c
  | copy_ctor a b => exact wf_copy_ctor ops a b
  | move_ctor a b => exact wf_move_ctor a b
  | copy_assign a b tmp => exact wf_copy_assign ops a b tmp
  | move_assign a b => exact wf_move_assign a b
  | swap a b => exact wf_swap a b
  | mutate a m => exact wf_mutation ops a m
  | append a v =>
    exact Hoare.seq (wf_insert ops a v) (fun _ => Hoare.pure_of () (fun s hs => hs))
  | append_rv a v =>
    exact Hoare.seq (wf_insert_rv ops a v) (fun _ => Hoare.pure_of () (fun s hs => hs))
  | insert a k v =>
    exact Hoare.seq (wf_insert_at ops a k v) (fun _ => Hoare.pure_of () (fun s hs => hs))
  | insert_rv a k v =>
    exact Hoare.seq (wf_insert_at_rv ops a k v) (fun _ => Hoare.pure_of () (fun s hs => hs))
  | dtor a => exact wf_clear_and_free a

theorem reachable_wellFormed (ops : ElemOps T) (fails : Nat → Bool) (w : World T)
    (h : Reachable ops fails w) : w.WellFormed := by
  induction h with
  | start => exact ⟨Nat.one_pos, fun _ => wellFormed_empty⟩
  | step w w1 op _ hf ih => exact (wf_op ops op).final_state ih hf

/-- C18, for the sequences of operations whose behaviour is defined: in every state
reachable from the program start by any sequence of public operations (constructors,
destructor, appends and positional inserts with the value passed by reference to any
object or slot, removes, clears, element assignments, `swap`, copy/move construction,
copy/move assignment), on any objects, with any element type and any allocation
failures, whether the operations returned, threw or failed an assertion, and none of
them having undefined behaviour, every container object satisfies
`0 <= size_ <= capacity_`, and its `data_` is null exactly when `capacity_ == 0`
(non-null whenever `capacity_ > 0`). -/
theorem C18_reachable_states_well_formed (ops : ElemOps T) (fails : Nat → Bool) (w : World T)
    (h : Reachable ops fails w) (o : Nat) :
    Array.size o w = .ok (w.objs o).size_ w
    ∧ Array.capacity o w = .ok (w.objs o).capacity_ w
    ∧ 0 ≤ (w.objs o).size_ ∧ (w.objs o).size_ ≤ (w.objs o).capacity_
    ∧ ((w.objs o).data_ = 0 ↔ (w.objs o).capacity_ = 0)
    ∧ ((w.objs o).capacity_ > 0 → (w.objs o).data_ ≠ 0) := by
  obtain ⟨h1, h2, h3⟩ := (reachable_wellFormed ops fails w h).2 o
  refine ⟨rfl, rfl, h1, h2, h3, fun hc hd => ?_⟩
  have := h3.mp hd
  omega

theorem Reachable.after {ops : ElemOps T} {fails : Nat → Bool} {w : World T}
    (h : Reachable ops fails w) (op : Op T) (hf : ((op.run ops w).final).isSome = true) :
    Reachable ops fails (op.after ops w) := by
  refine Reachable.step w _ op h ?_
  unfold Op.after
  cases hr : (op.run ops w).final with
  | none =>
    rw [hr] at hf
    cases hf
  | some w1 => rfl

/-- Witness of C18: `Array a(1)`, two appends (the second one grows the buffer) and a
`remove(9)` that fails its guard reach a state where `a` has length 2 and capacity 2. -/
theorem C18_reachable_states_well_formed_witness :
    Reachable intOps (fun _ => false) World.example18
    ∧ (World.example18.objs 1).size_ = 2 ∧ (World.example18.objs 1).capacity_ = 2
    ∧ Array.size 1 World.example18 = .ok (World.example18.objs 1).size_ World.example18
    ∧ Array.capacity 1 World.example18
        = .ok (World.example18.objs 1).capacity_ World.example18
    ∧ 0 ≤ (World.example18.objs 1).size_
    ∧ (World.example18.objs 1).size_ ≤ (World.example18.objs 1).capacity_
    ∧ ((World.example18.objs 1).data_ = 0 ↔ (World.example18.objs 1).capacity_ = 0)
    ∧ ((World.example18.objs 1).capacity_ > 0 → (World.example18.objs 1).data_ ≠ 0) :=
  have r4 : Reachable intOps (fun _ => false) World.example18 :=
    ((((Reachable.start.after (.new_cap 1 1) (by rfl)).after (.mutate 1 (.append 5))
      (by rfl)).after (.mutate 1 (.append 7)) (by rfl)).after (.mutate 1 (.remove 9)) (by rfl))
  ⟨r4, by rfl, by rfl,
    C18_reachable_states_well_formed intOps (fun _ => false) World.example18 r4 1⟩

end WellFormedOps

section Balance

variable {ops : ElemOps T}

theorem bind_diverge {σ α β : Type} {m : M σ α} {f : α → M σ β} {s : σ}
    (h : m s = .diverge) : (m >>= f) s = .diverge := by
  simp [M.bind, h]

/-- The capacity loop does not depend on the state: it returns the same capacity from
every state (at least `min`, at least the start value, and inside the `int` range), or
it is undefined from every state, or it is cut off from every state. -/
theorem grow_loop_result {σ : Type} (min : Int) :
    ∀ (fuel : Nat) (nc : Int),
      (∃ r, min ≤ r ∧ nc ≤ r ∧ (nc ≤ INT_MAX → r ≤ INT_MAX)
        ∧ ∀ t : σ, grow_loop min fuel nc t = .ok r t)
      ∨ (∀ t : σ, grow_loop min fuel nc t = .ub)
      ∨ (∀ t : σ, grow_loop min fuel nc t = .diverge) := by
  intro fuel
  induction fuel with
  | zero =>
    intro nc
    by_cases hlt : nc < min
    · right
      right
      intro t
      unfold grow_loop
      rw [if_pos hlt]
      rfl
    · left
      refine ⟨nc, by omega, le_refl _, fun h => h, fun t => ?_⟩
      unfold grow_loop
      rw [if_neg hlt]
      rfl
  | succ fuel ih =>
    intro nc
    by_cases hlt : nc < min
    · by_cases h1 : INT_MIN ≤ nc * kGrowthFactor ∧ nc * kGrowthFactor ≤ INT_MAX
      · by_cases h2 : nc * kGrowthFactor > nc
        · have hstep : ∀ t : σ, grow_loop min (fuel + 1) nc t
              = grow_loop min fuel (nc * kGrowthFactor) t := by
            intro t
            conv_lhs => unfold grow_loop
            rw [if_pos hlt, bind_ok (toInt_ok _ _ h1.1 h1.2), if_pos h2, bind_ok (pure_run _ _)]
          rcases ih (nc * kGrowthFactor) with ⟨r, hr1, hr2, hr3, hr4⟩ | hub | hdv
          · left
            exact ⟨r, hr1, by omega, fun _ => hr3 h1.2, fun t => by rw [hstep, hr4]⟩
          · right
            left
            exact fun t => by rw [hstep, hub]
          · right
            right
            exact fun t => by rw [hstep, hdv]
        · by_cases h3 : INT_MIN ≤ nc + 1 ∧ nc + 1 ≤ INT_MAX
          · have hstep : ∀ t : σ, grow_loop min (fuel + 1) nc t
                = grow_loop min fuel (nc + 1) t := by
              intro t
              conv_lhs => unfold grow_loop
              rw [if_pos hlt, bind_ok (toInt_ok _ _ h1.1 h1.2), if_neg h2,
                bind_ok (toInt_ok _ _ h3.1 h3.2)]
            rcases ih (nc + 1) with ⟨r, hr1, hr2, hr3, hr4⟩ | hub | hdv
            · left
              exact ⟨r, hr1, by omega, fun _ => hr3 h3.2, fun t => by rw [hstep, hr4]⟩
            · right
              left
              exact fun t => by rw [hstep, hub]
            · right
              right
              exact fun t => by rw [hstep, hdv]
          · right
            left
            intro t
            unfold grow_loop
            rw [if_pos hlt, bind_ok (toInt_ok _ _ h1.1 h1.2), if_neg h2]
            apply bind_ub
            unfold toInt
            rw [if_neg h3]
            rfl
      · right
        left
        intro t
        unfold grow_loop
        rw [if_pos hlt]
        apply bind_ub
        unfold toInt
        rw [if_neg h1]
        rfl
    · left
      refine ⟨nc, by omega, le_refl _, fun h => h, fun t => ?_⟩
      unfold grow_loop
      rw [if_neg hlt]
      rfl

/-- Every outcome of `ensure_capacity` on a well-formed container, for an element type
whose constructors do not throw: it returns with the same elements in a buffer of at
least `min` slots and with as many elements destroyed as constructed, or it throws
(the allocation failed) leaving everything but the allocator as it was; it never fails
an assertion. -/
theorem ensure_capacity_outcome (hl : ops.Lawful) {w : World T} {a : Nat} {xs : List T}
    {cap : Nat} (h : Holds w a xs cap) (min : Int) :
    match ensure_capacity ops a min w with
    | .ok _ w1 => ∃ cap1, Holds w1 a xs cap1 ∧ min ≤ (cap1 : Int) ∧ cap ≤ cap1
        ∧ w1.liveCount = w.liveCount
    | .throw w1 => w1 = { w with mallocCalls := w.mallocCalls + 1 } ∧ (cap : Int) < min
    | .abort _ => False
    | .ub => True
    | .diverge => True := by
  by_cases hle : min ≤ (cap : Int)
  · rw [ensure_capacity_noop (by rw [h.cap_eq]; exact hle)]
    exact ⟨cap, h, hle, le_refl _, rfl⟩
  · have hlt : (cap : Int) < min := by omega
    have hcapmax := h.cap_le
    have hstart : (if (cap : Int) ≤ 0 then (1 : Int) else (cap : Int)) ≤ INT_MAX := by
      split_ifs
      · decide
      · exact hcapmax
    have hcond : ¬ min ≤ (w.objs a).capacity_ := by
      rw [h.cap_eq]
      exact hle
    rcases grow_loop_result (σ := World T) min
      (min - (if (cap : Int) ≤ 0 then 1 else (cap : Int))).toNat
      (if (cap : Int) ≤ 0 then 1 else (cap : Int)) with ⟨r, hr1, hr2, hr3, hr4⟩ | hub | hdv
    · have hrmax := hr3 hstart
      have hrpos : 0 < r := by omega
      by_cases hm : w.mallocFails w.mallocCalls = true
      · obtain ⟨hrun, _⟩ := ensure_capacity_alloc_failure ops h min r hlt hr4 hrpos hm
        rw [hrun]
        exact ⟨rfl, hlt⟩
      · have hm2 : w.mallocFails w.mallocCalls = false := by
          simpa using hm
        obtain ⟨w1, hrun, hh, _, _, hc, hd⟩ :=
          ensure_capacity_grow hl h min r hlt hr4 hr1 hrmax hm2
        rw [hrun]
        refine ⟨r.toNat, hh, by omega, by omega, ?_⟩
        unfold World.liveCount
        rw [hc, hd]
        push_cast
        ring
    · have : ensure_capacity ops a min w = .ub := by
        unfold ensure_capacity
        rw [bind_ok (getObj_run a w), if_neg hcond, h.cap_eq]
        exact bind_ub (hub w)
      rw [this]
      trivial
    · have : ensure_capacity ops a min w = .diverge := by
        unfold ensure_capacity
        rw [bind_ok (getObj_run a w), if_neg hcond, h.cap_eq]
        exact bind_diverge (hdv w)
      rw [this]
      trivial

/-- Replacing the contents of the buffer and the length keeps the representation. -/
theorem Holds.put_contents {w : World T} {a : Nat} {xs : List T} {cap : Nat}
    (h : Holds w a xs cap) (ys : List T) (hlen : ys.length ≤ cap) (n : Int)
    (hn : n = ys.length) (c d : Nat) :
    Holds (w.put a { w.objs a with size_ := n } (w.objs a).data_ (slotsOf ys cap) c d) a ys
      cap := by
  refine holds_of_parts (p := (w.objs a).data_) ?_ ?_ hlen h.cap_le h.brk_pos h.data_lt
    h.null_iff
  · simp [World.put, hn, h.cap_eq]
  · intro _
    simp [World.put]

/-- The tail of the appends: construct the new element in the first raw slot, `++size_`. -/
theorem insert_tail_run (hl : ops.Lawful) {w : World T} {a : Nat} {xs : List T} {cap : Nat}
    (h : Holds w a xs cap) (hroom : xs.length < cap) (v : T) :
    (do
      let r ← getObj a
      construct_at_copy ops r.data_ r.size_ v
      let n ← toInt (r.size_ + 1)
      setObj a { r with size_ := n }
      pure r.size_ : M (World T) Int) w
      = .ok (xs.length : Int) (w.put a { w.objs a with size_ := (xs.length : Int) + 1 }
          (w.objs a).data_ (slotsOf (xs ++ [v]) cap) 1 0) := by
  have hc : cap ≠ 0 := by omega
  have hp := h.data_ne hc
  have hb := h.buf hc
  have hsz := h.size_eq
  have hmax := h.cap_le
  simp only [INT_MAX] at hmax
  rw [bind_ok (getObj_run a w)]
  rw [slotsOf_room _ _ hroom] at hb
  have hget : (List.map some xs ++ none :: List.replicate (cap - xs.length - 1) none)[xs.length]?
      = some none := by
    have := getElem?_mid (xs.map some) (List.replicate (cap - xs.length - 1) none)
      (none : Option T)
    rwa [List.length_map] at this
  rw [hsz, bind_ok (construct_at_copy_ok hl v hp hb rfl hget)]
  rw [bind_ok (toInt_ok _ _ (by simp only [INT_MIN]; omega) (by simp only [INT_MAX]; omega))]
  rw [bind_ok (setObj_run _ _ _), pure_run]
  have hset := set_mid (xs.map some) (List.replicate (cap - xs.length - 1) none)
    (none : Option T) (some v)
  rw [List.length_map] at hset
  rw [hset]
  have hsl : slotsOf (xs ++ [v]) cap
      = List.map some xs ++ some v :: List.replicate (cap - xs.length - 1) none := by
    rw [slotsOf_split]
    simp
    omega
  rw [hsl]
  rfl

/-- The tail of the positional inserts: shift the elements from the index up by one
slot, construct the new element in the slot left raw, `++size_`. -/
theorem insert_at_tail_run (hl : ops.Lawful) {w : World T} {a : Nat} {pre post : List T}
    {cap : Nat} (h : Holds w a (pre ++ post) cap) (hroom : (pre ++ post).length < cap)
    (v : T) :
    (do
      shift_right ops a (pre.length : Int)
      let r ← getObj a
      construct_at_copy ops r.data_ (pre.length : Int) v
      let n ← toInt (r.size_ + 1)
      setObj a { r with size_ := n }
      pure (pre.length : Int) : M (World T) Int) w
      = .ok (pre.length : Int) (w.put a
          { w.objs a with size_ := ((pre ++ post).length : Int) + 1 }
          (w.objs a).data_ (slotsOf (pre ++ v :: post) cap) (post.length + 1) post.length) := by
  have hc : cap ≠ 0 := by omega
  have hp := h.data_ne hc
  have hb := h.buf hc
  have hsz := h.size_eq
  have hmax := h.cap_le
  simp only [INT_MAX] at hmax
  have hslots : slotsOf (pre ++ post) cap = pre.map some ++ post.map some ++
      none :: List.replicate (cap - (pre ++ post).length - 1) none := by
    rw [slotsOf_room _ _ hroom]
    simp
  rw [hslots] at hb
  have hshift : shift_right ops a pre.length w = .ok () (w.upd (w.objs a).data_
      (pre.map some ++ none :: post.map some ++
        List.replicate (cap - (pre ++ post).length - 1) none) post.length post.length) := by
    unfold shift_right
    rw [bind_ok (getObj_run a w)]
    have hcount : ((w.objs a).size_ - (pre.length : Int)).toNat = post.length := by
      rw [hsz]
      simp
    rw [hcount]
    exact shift_right_loop_ok hl hp (pre.map some) post _ w _ hb (by rw [hsz]; simp)
  rw [bind_ok hshift, bind_ok (getObj_run a _)]
  simp only [upd_objs]
  have hget : (List.map some pre ++ none :: List.map some post ++
      List.replicate (cap - (pre ++ post).length - 1) none)[pre.length]? = some none := by
    have := getElem?_mid (pre.map some) (List.map some post ++
      List.replicate (cap - (pre ++ post).length - 1) none) (none : Option T)
    rw [List.length_map] at this
    simpa using this
  rw [bind_ok (construct_at_copy_ok hl v hp (upd_heap_self _ _ _ _ _) rfl hget), upd_upd]
  rw [hsz, bind_ok (toInt_ok _ _ (by simp only [INT_MIN]; omega)
    (by simp only [INT_MAX]; omega))]
  rw [bind_ok (setObj_run _ _ _), pure_run]
  have hset := set_mid (pre.map some) (List.map some post ++
    List.replicate (cap - (pre ++ post).length - 1) none) (none : Option T) (some v)
  rw [List.length_map] at hset
  simp only [List.cons_append, List.append_assoc] at hset ⊢
  rw [hset]
  have hsl : slotsOf (pre ++ v :: post) cap = List.map some pre ++ some v ::
      (List.map some post ++ List.replicate (cap - (pre ++ post).length - 1) none) := by
    rw [slotsOf_split]
    simp
    omega
  rw [hsl]
  simp only [World.put, World.upd, Function.update_idem, Nat.add_zero]

end Balance

section AliasClaims

end AliasClaims

section ReachableOverflow

variable {ops : ElemOps T}

/-- A step of a reachable state by an append that returns. -/
theorem Reachable.append_step {fails : Nat → Bool} {w w1 : World T} {a : Nat} {v : T}
    {n : Int} (h : Reachable ops fails w) (hrun : Array.insert ops a (.obj v) w = .ok n w1) :
    Reachable ops fails w1 := by
  refine Reachable.step w w1 (.mutate a (.append v)) h ?_
  show ((Array.insert ops a (.obj v) >>= fun _ => pure ()) w).final = some w1
  rw [bind_ok hrun]
  rfl

/-- Appending `n` more values to a reachable container with room for them reaches a
state in which it holds them all, in the same buffer capacity. -/
theorem Reachable.fill (hl : ops.Lawful) (fails : Nat → Bool) (a cap : Nat) (v : T) :
    ∀ (n : Nat) (xs : List T) (w : World T), Reachable ops fails w → Holds w a xs cap →
      xs.length + n ≤ cap →
      ∃ w1, Reachable ops fails w1 ∧ Holds w1 a (xs ++ List.replicate n v) cap := by
  intro n
  induction n with
  | zero =>
    intro xs w hr hh _
    exact ⟨w, hr, by simpa using hh⟩
  | succ n ih =>
    intro xs w hr hh hfit
    have hroom : xs.length < cap := by omega
    obtain ⟨w1, hrun, hh1, _⟩ := insert_run hl v hh (Or.inl hroom)
    rw [if_pos hroom] at hh1
    obtain ⟨w2, hr2, hh2⟩ := ih (xs ++ [v]) w1 (hr.append_step hrun) hh1
      (by simp only [List.length_append, List.length_cons, List.length_nil]; omega)
    refine ⟨w2, hr2, ?_⟩
    rw [List.replicate_succ]
    simpa using hh2

/-- C18 as stated fails: `Array<int> a(2147483647)` followed by 2147483647 appends
reaches, by public operations only, a state in which `a` is full with
`size_ == capacity_ == INT_MAX`.  The next public operation, one more append,
evaluates `size_ + 1`, which overflows `int`: its behaviour is undefined, and no
property of the state it leaves behind (such as `0 <= size_`) is guaranteed. -/
theorem C18_append_at_int_max_undefined :
    ∃ w : World Int, Reachable intOps (fun _ => false) w
      ∧ (w.objs 1).size_ = 2147483647 ∧ (w.objs 1).capacity_ = 2147483647
      ∧ Array.insert intOps 1 (.obj 7) w = .ub
      ∧ Array.insert_rv intOps 1 (.obj 7) w = .ub
      ∧ (Op.run intOps (.mutate 1 (.append 7)) w).final = none := by
  obtain ⟨w1, hr, hh, _⟩ := new_cap_run ({ World.init Int with mallocFails := fun _ => false })
    1 2147483647 (by decide) rfl (by decide)
  have hn : (normalize_capacity 2147483647).toNat = 2147483647 := by decide
  rw [hn] at hh
  have hreach : Reachable intOps (fun _ => false) w1 :=
    Reachable.step _ w1 (.new_cap 1 2147483647) Reachable.start (by
      show (Array.new_cap 1 2147483647 _).final = some w1
      rw [hr]
      rfl)
  obtain ⟨w2, hr2, hh2⟩ := Reachable.fill intOps_lawful (fun _ => false) 1 2147483647 (0 : Int)
    2147483647 [] w1 hreach hh (by simp)
  have hsz : (w2.objs 1).size_ = 2147483647 := by
    rw [hh2.size_eq, List.nil_append, List.length_replicate]
    rfl
  have hub : Array.insert intOps 1 (.obj 7) w2 = .ub := insert_overflow 7 hsz
  refine ⟨w2, hr2, hsz, hh2.cap_eq, hub, ?_, ?_⟩
  · rw [insert_rv_eq intOps_lawful]
    exact hub
  · show ((Array.insert intOps 1 (.obj 7) >>= fun _ => pure ()) w2).final = none
    rw [bind_ub hub]
    rfl

end ReachableOverflow

section CountRules

variable {α β : Type} {O : Nat → Array} {c : Int} {E : World T → Prop}

end CountRules

section CountElems

variable {α β : Type} {O : Nat → Array} {c : Int} {E : World T → Prop} {ops : ElemOps T}

end CountElems

section CountOps

variable {α β : Type} {O : Nat → Array} {c : Int} {E : World T → Prop} {ops : ElemOps T}

theorem Moved.elim {a : Nat} {d : Int} {m : M (World T) α} {Q : α → World T → Prop}
    (h : ∀ r : Array, r.size_ = (O a).size_ + d →
      Hoare (At (Function.update O a r) (c + d)) m Q E) :
    Hoare (Moved a O c d) m Q E :=
  fun w hw => by
    obtain ⟨r, hr, hs⟩ := hw
    exact h r hs w hr

end CountOps

section CountObjects

variable {α β : Type} {O : Nat → Array} {c : Int} {E : World T → Prop} {ops : ElemOps T}

end CountObjects

section BalanceOps

variable {α : Type} {ops : ElemOps T}

end BalanceOps

section BalanceClaim

variable {ops : ElemOps T}

end BalanceClaim

section BalanceOverflow

variable {ops : ElemOps T}

end BalanceOverflow

section LogRules

variable {α β : Type} {B B1 : Access → Prop}

theorem bind_ok_inv {σ : Type} {m : M σ α} {f : α → M σ β} {s s1 : σ} {y : β}
    (h : (m >>= f) s = .ok y s1) : ∃ x s2, m s = .ok x s2 ∧ f x s2 = .ok y s1 := by
  simp only [bind_run, M.bind] at h
  cases hm : m s with
  | ok x s2 =>
    rw [hm] at h
    exact ⟨x, s2, rfl, h⟩
  | throw s2 =>
    rw [hm] at h
    cases h
  | abort s2 =>
    rw [hm] at h
    cases h
  | ub =>
    rw [hm] at h
    cases h
  | diverge =>
    rw [hm] at h
    cases h

theorem Logs.lift (m : M (World T) α) : Logs (untraced m) m B := by
  intro w t x w1 hr
  refine ⟨[], ?_, fun _ h => absurd h (List.not_mem_nil _)⟩
  simp only [untraced, hr, List.append_nil]

theorem Logs.toInt_of (x : Int) : Logs (toInt x : M (Traced T) Int) (toInt x) B := by
  intro w t y w1 hr
  unfold toInt at hr ⊢
  split_ifs at hr ⊢ with h
  · cases hr
    exact ⟨[], by simp, fun _ h => absurd h (List.not_mem_nil _)⟩
  · cases hr

theorem Logs.assert_of (c : Bool) : Logs (assert c : M (Traced T) Unit) (assert c) B := by
  intro w t y w1 hr
  cases c with
  | false => cases hr
  | true =>
    cases hr
    exact ⟨[], by simp [assert], fun _ h => absurd h (List.not_mem_nil _)⟩

theorem toInt_ok_inv {σ : Type} {x y : Int} {s s1 : σ} (h : toInt x s = .ok y s1) :
    y = x ∧ s1 = s ∧ INT_MIN ≤ x ∧ x ≤ INT_MAX := by
  unfold toInt at h
  split_ifs at h with hx
  · cases h
    exact ⟨rfl, rfl, hx⟩
  · cases h

/-- The capacity loop returns the same capacity whatever the state it runs in. -/
theorem grow_loop_transfer {σ τ : Type} (min : Int) :
    ∀ (fuel : Nat) (nc : Int) (s s1 : σ) (t : τ) (r : Int),
      grow_loop min fuel nc s = .ok r s1 → grow_loop min fuel nc t = .ok r t := by
  intro fuel
  induction fuel with
  | zero =>
    intro nc s s1 t r h
    unfold grow_loop at h ⊢
    split_ifs at h ⊢ with hlt
    · cases h
    · cases h
      rfl
  | succ fuel ih =>
    intro nc s s1 t r h
    unfold grow_loop at h ⊢
    split_ifs at h ⊢ with hlt
    · obtain ⟨g, s2, h1, h2⟩ := bind_ok_inv h
      obtain ⟨hg, hs2, hr1, hr2⟩ := toInt_ok_inv h1
      subst hg
      obtain ⟨next, s3, h3, h4⟩ := bind_ok_inv h2
      rw [bind_ok (toInt_ok _ t hr1 hr2)]
      by_cases hgt : nc * kGrowthFactor > nc
      · rw [if_pos hgt] at h3 ⊢
        cases h3
        rw [bind_ok (pure_run _ t)]
        exact ih _ _ _ t r h4
      · rw [if_neg hgt] at h3 ⊢
        obtain ⟨hn, hs3, hr3, hr4⟩ := toInt_ok_inv h3
        subst hn
        rw [bind_ok (toInt_ok _ t hr3 hr4)]
        exact ih _ _ _ t r h4
    · cases h
      rfl

theorem Logs.grow_loop_of (min : Int) (fuel : Nat) (nc : Int) :
    Logs (grow_loop min fuel nc : M (Traced T) Int) (grow_loop min fuel nc) B := by
  intro w t y w1 hr
  have hw1 : w1 = w := by
    have := grow_loop_transfer min fuel nc w w1 w y hr
    rw [this] at hr
    cases hr
    rfl
  subst hw1
  refine ⟨[], ?_, fun _ h => absurd h (List.not_mem_nil _)⟩
  rw [List.append_nil]
  exact grow_loop_transfer min fuel nc w1 w1 _ y hr

end LogRules

section LogElems

variable {α β : Type} {B : Access → Prop} {ops : ElemOps T}

end LogElems

section LogGrowth

variable {α β : Type} {ops : ElemOps T}

end LogGrowth

section LogOps

variable {α β : Type} {ops : ElemOps T}

end LogOps

section LogClaimOps

variable {α β : Type} {ops : ElemOps T}

end LogClaimOps

section BoundsClaim

variable {ops : ElemOps T}

end BoundsClaim

section BoundsExamples

/-- The recorded accesses of three calls, in order (block, slot, read or write).
`insert(1, 9)` into `[1, 2, 3]` with capacity 4: the right shift relocates element 2
into slot 3 and element 1 into slot 2 (read of the source, write of its moved-from
state, construction, destruction of the source), then the value is constructed into
slot 1.  The append of 9 to the full `[1, 2]`: `ensure_capacity` relocates both
elements from block 1 into block 2 and destroys both in block 1, then the value is
constructed into slot 2 of block 2.  `remove(0)` from `[1, 2, 3]`: the destruction of
element 0, then the left shift. -/
theorem traces_example :
    (Array.insert_at_traced intOps 1 1 (.obj 9)
        { world := World.single [1, 2, 3] 4, trace := [] }).result.map
          (fun x => (x.1, x.2.trace))
      = some (1, [⟨1, 2, true⟩, ⟨1, 2, false⟩, ⟨1, 3, false⟩, ⟨1, 2, false⟩,
          ⟨1, 1, true⟩, ⟨1, 1, false⟩, ⟨1, 2, false⟩, ⟨1, 1, false⟩, ⟨1, 1, false⟩])
    ∧ (Array.insert_traced intOps 1 (.obj 9)
        { world := World.single [1, 2] 2, trace := [] }).result.map
          (fun x => (x.1, x.2.trace))
      = some (2, [⟨1, 0, true⟩, ⟨1, 0, false⟩, ⟨2, 0, false⟩, ⟨1, 1, true⟩, ⟨1, 1, false⟩,
          ⟨2, 1, false⟩, ⟨1, 0, false⟩, ⟨1, 1, false⟩, ⟨2, 2, false⟩])
    ∧ (Array.remove_traced intOps 1 0
        { world := World.single [1, 2, 3] 4, trace := [] }).result.map (fun x => x.2.trace)
      = some [⟨1, 0, false⟩, ⟨1, 1, true⟩, ⟨1, 1, false⟩, ⟨1, 0, false⟩, ⟨1, 1, false⟩,
          ⟨1, 2, true⟩, ⟨1, 2, false⟩, ⟨1, 1, false⟩, ⟨1, 2, false⟩] :=
  ⟨by decide!, by decide!, by decide!⟩

end BoundsExamples

end DynamicArray
